import Mathlib

/-!
Shallow embedding of the combinatorial core of the PyRigi repository:
the `(K, L)`-pebble game digraph (`src/pyrigi/_pebble_digraph.py`) and the
rigidity-related graph predicates (`src/pyrigi/graph.py`).

Conventions of the embedding:
* vertices are natural numbers (Python vertices are arbitrary hashable
  values with decidable equality; naturals are a faithful carrier);
* the `networkx` containers are modelled by insertion-ordered lists:
  a `MultiDiGraph` keeps its directed edges in one global list in insertion
  order (out-edges of a vertex are the sublist with that tail, which matches
  the `networkx` per-vertex adjacency order as long as no two stored directed
  edges coincide as ordered pairs, the only situation the claims exercise);
* Python `int` values that the claims constrain to the validated ranges
  `K ≥ 1`, `0 ≤ L < 2K` are modelled by `ℕ`; comparisons performed by the
  Python code on possibly-negative quantities are carried out in `ℤ`;
* code that raises an exception is modelled with `Except String`;
* the unbounded Python recursion/loops are modelled with an explicit fuel
  parameter; the fuel passed at each call site is proved sufficient in the
  lemmas below (fuel exhaustion is never reached from the states the
  theorems quantify over).
-/

namespace PyRigi

/-- Decidable equality of `Except` values, used to evaluate the embedded
fallible operations on concrete inputs. -/
instance {ε α : Type _} [DecidableEq ε] [DecidableEq α] :
    DecidableEq (Except ε α) := fun a b =>
  match a, b with
  | .error e1, .error e2 =>
    if h : e1 = e2 then isTrue (by rw [h])
    else isFalse (by intro hh; cases hh; exact h rfl)
  | .ok x, .ok y =>
    if h : x = y then isTrue (by rw [h])
    else isFalse (by intro hh; cases hh; exact h rfl)
  | .error _, .ok _ => isFalse (by intro hh; cases hh)
  | .ok _, .error _ => isFalse (by intro hh; cases hh)

/-- State of `PebbleDiGraph` (`src/pyrigi/_pebble_digraph.py`): the parameters
`K`, `L` and the underlying `nx.MultiDiGraph`, i.e. the node list and the
directed-edge list, both in insertion order. -/
structure PebbleDiGraph where
  K : ℕ
  L : ℕ
  nodes : List ℕ
  edges : List (ℕ × ℕ)
deriving DecidableEq, Repr

namespace PebbleDiGraph

/-- Fresh digraph `PebbleDiGraph(K, L)` (the `__init__` path with both
parameters given; `_check_K_and_L` is modelled separately). -/
def empty (K L : ℕ) : PebbleDiGraph := ⟨K, L, [], []⟩

/-- Membership test `has_node` of `networkx`. -/
def hasNode (s : PebbleDiGraph) (x : ℕ) : Bool := x ∈ s.nodes

/-- Helper for the `networkx` behaviour of adding a node only if absent. -/
def addNode (s : PebbleDiGraph) (x : ℕ) : PebbleDiGraph :=
  if x ∈ s.nodes then s else { s with nodes := s.nodes ++ [x] }

/-- Behaviour of `nx.MultiDiGraph.add_edge(u, v)` (and of
`add_edges_from([(u, v)])`): insert the endpoints if absent, then append the
directed edge. -/
def addDirEdge (s : PebbleDiGraph) (u v : ℕ) : PebbleDiGraph :=
  let s1 := addNode s u
  let s2 := addNode s1 v
  { s2 with edges := s2.edges ++ [(u, v)] }

/-- Removal of the first stored copy of an ordered pair from an edge list. -/
def eraseEdge : List (ℕ × ℕ) → (ℕ × ℕ) → List (ℕ × ℕ)
  | [], _ => []
  | f :: rest, e => if f = e then rest else f :: eraseEdge rest e

/-- Behaviour of `nx.MultiDiGraph.remove_edge(t, h)`: remove one stored copy of
the ordered pair.  (`networkx` raises when the edge is absent; in every state
reached by the code below the removed edge is present, which the path lemmas
establish, so the total removal is a faithful model there.) -/
def removeDirEdge (s : PebbleDiGraph) (u v : ℕ) : PebbleDiGraph :=
  { s with edges := eraseEdge s.edges (u, v) }

/-- Python `number_of_edges`. -/
def number_of_edges (s : PebbleDiGraph) : ℕ := s.edges.length

/-- Python `out_degree(vertex)`: the number of stored edges whose tail is the
vertex. -/
def out_degree (s : PebbleDiGraph) (x : ℕ) : ℕ :=
  (s.edges.filter (fun e => decide (e.1 = x))).length

/-- Python `in_degree(vertex)`. -/
def in_degree (s : PebbleDiGraph) (x : ℕ) : ℕ :=
  (s.edges.filter (fun e => decide (e.2 = x))).length

/-- Python `self.out_edges(vertex)`: the stored out-edges of a vertex, in
insertion order. -/
def outEdges (s : PebbleDiGraph) (x : ℕ) : List (ℕ × ℕ) :=
  s.edges.filter (fun e => decide (e.1 = x))

/-- Python `redirect_edge_to_head(edge, vertex_to)` (lines 141-155): when the
target is a node of the digraph and an endpoint of the edge, remove the edge
`(tail, head)` and add the edge `(head, vertex_to)`; otherwise do nothing. -/
def redirect_edge_to_head (s : PebbleDiGraph) (edge : ℕ × ℕ) (vto : ℕ) :
    PebbleDiGraph :=
  if hasNode s vto ∧ (vto = edge.1 ∨ vto = edge.2) then
    addDirEdge (removeDirEdge s edge.1 edge.2) edge.2 vto
  else s

/-- Reversal step performed on a successful DFS: Python
`for edge in edge_path: self.redirect_edge_to_head(edge, edge[0])`. -/
def reversePath (s : PebbleDiGraph) (path : List (ℕ × ℕ)) : PebbleDiGraph :=
  path.foldl (fun st e => redirect_edge_to_head st e e.1) s

/-- Python `set.add` on the visited set, modelled on a duplicate-free list. -/
def insertVisit (l : List ℕ) (x : ℕ) : List ℕ :=
  if x ∈ l then l else l ++ [x]

/-- Result quadruple of one `dfs` call: the `found` flag, the visited set, the
`edge_path` list (mutated in place in Python, hence threaded here), and the
digraph state. -/
abbrev DfsResult := Bool × List ℕ × List (ℕ × ℕ) × PebbleDiGraph

/-- Iteration of `for out_edge in self.out_edges(vertex)` inside `dfs`
(lines 196-202), parametrised by the recursive call `dfsF` on the remaining
fuel.  For each out-edge whose head is unvisited the recursive `dfs` runs; a
successful call returns immediately, a failed call threads its (unchanged)
state and its visited set into the rest of the loop. -/
def dfsLoop (dfsF : PebbleDiGraph → ℕ → List ℕ → List (ℕ × ℕ) → Option (ℕ × ℕ) → DfsResult) :
    PebbleDiGraph → List (ℕ × ℕ) → List ℕ → List (ℕ × ℕ) → DfsResult
  | s, [], visited, edgePath => (false, visited, edgePath, s)
  | s, e :: rest, visited, edgePath =>
    if e.2 ∈ visited then dfsLoop dfsF s rest visited edgePath
    else
      match dfsF s e.2 visited edgePath (some e) with
      | (true, vis, p, st) => (true, vis, p, st)
      | (false, vis, p, st) => dfsLoop dfsF st rest vis p

/-- Python `dfs(vertex, visited, edge_path, current_edge)` (lines 163-205),
closed over the outer variables `u`, `v` and `self`.  On entry the vertex is
added to the visited set and the current edge is appended to the path; if the
stopping criterion holds (the vertex differs from both endpoints and has a
free pebble) every edge of the path is redirected and the call succeeds;
otherwise the out-edges are explored and on overall failure the path is popped
(when non-empty).  The fuel bounds the recursion depth; it is proved adequate
at every call site. -/
def dfs (u v : ℕ) : ℕ → PebbleDiGraph → ℕ → List ℕ → List (ℕ × ℕ) →
    Option (ℕ × ℕ) → DfsResult
  | 0, s, _, visited, edgePath, _ => (false, visited, edgePath, s)
  | fuel + 1, s, vertex, visited, edgePath, currentEdge =>
    let visited1 := insertVisit visited vertex
    let path1 := edgePath ++ currentEdge.toList
    if vertex ≠ u ∧ vertex ≠ v ∧ out_degree s vertex < s.K then
      (true, visited1, path1, reversePath s path1)
    else
      match dfsLoop (dfs u v fuel) s (outEdges s vertex) visited1 path1 with
      | (true, vis, p, st) => (true, vis, p, st)
      | (false, vis, p, st) =>
        (false, vis, if p = [] then p else p.dropLast, st)

/-- Fuel passed to each top-level `dfs` call: one more than the number of
nodes bounds the depth of the recursion (each nested call visits a new node). -/
def dfsFuel (s : PebbleDiGraph) : ℕ := s.nodes.length + 1

/-- Python threshold `max_degree_u_v_together = 2 * self.K - self.L - 1`
(line 207).  For the validated parameters `L < 2K` the natural subtraction
agrees with the Python integer value. -/
def maxDegTogether (s : PebbleDiGraph) : ℕ := 2 * s.K - s.L - 1

/-- The `while` loop of `fundamental_circuit` (lines 215-235): while the two
endpoints hold too many pebbles, run a DFS from `u` and, if it fails, from `v`
with the cumulative visited set; a success restarts the loop, a double failure
breaks out.  Returns the final state together with the visited set of the
breaking iteration (the empty list when the loop exits by its condition, in
which case Python leaves the variable unused).  The fuel is proved adequate at
the call site. -/
def circuitLoop (u v : ℕ) : ℕ → PebbleDiGraph → PebbleDiGraph × List ℕ
  | 0, s => (s, [])
  | fuel + 1, s =>
    if out_degree s u + out_degree s v > maxDegTogether s then
      let vis0 := insertVisit (insertVisit [] u) v
      match dfs u v (dfsFuel s) s u vis0 [] none with
      | (true, _, _, s1) => circuitLoop u v fuel s1
      | (false, vis1, _, s1) =>
        match dfs u v (dfsFuel s1) s1 v vis1 [] none with
        | (true, _, _, s2) => circuitLoop u v fuel s2
        | (false, vis2, _, s2) => (s2, vis2)
    else (s, [])

/-- Fuel passed to `circuitLoop`: each successful iteration lowers
`out_degree u + out_degree v` by one, so this bound is adequate. -/
def circuitFuel (s : PebbleDiGraph) (u v : ℕ) : ℕ :=
  out_degree s u + out_degree s v + 1

/-- Python `fundamental_circuit(u, v)` (lines 157-244): checks that both
vertices are present (otherwise `ValueError`), runs the pebble-collection
loop, and returns `none` when the edge is independent or the visited set of
the breaking iteration otherwise, together with the mutated digraph. -/
def fundamental_circuit (s : PebbleDiGraph) (u v : ℕ) :
    Except String (Option (List ℕ) × PebbleDiGraph) :=
  if ¬ hasNode s u then .error "ValueError: vertex u is not present"
  else if ¬ hasNode s v then .error "ValueError: vertex v is not present"
  else
    let r := circuitLoop u v (circuitFuel s u v) s
    if out_degree r.1 u + out_degree r.1 v ≤ maxDegTogether r.1 then
      .ok (none, r.1)
    else
      .ok (some r.2, r.1)

/-- Python `can_add_edge_between_vertices(u, v)` (lines 246-250): the edge can
be added iff the fundamental circuit is `None`.  The call mutates the digraph
(orientations may change), so the state is returned too. -/
def can_add_edge_between_vertices (s : PebbleDiGraph) (u v : ℕ) :
    Except String (Bool × PebbleDiGraph) :=
  (fundamental_circuit s u v).map (fun r => (r.1.isNone, r.2))

/-- Python `add_edge_maintaining_digraph(u, v)` (lines 252-280).  When an
endpoint is absent the edge is accepted at once, oriented out of the absent
endpoint; otherwise the edge is accepted iff it is independent, oriented out
of the endpoint with strictly fewer pebbles in use, and out of `v` on ties.
The `.error` branch of the probe is unreachable because both endpoints were
just checked to be present. -/
def add_edge_maintaining_digraph (s : PebbleDiGraph) (u v : ℕ) :
    Bool × PebbleDiGraph :=
  if ¬ hasNode s u then (true, addDirEdge s u v)
  else if ¬ hasNode s v then (true, addDirEdge s v u)
  else
    match can_add_edge_between_vertices s u v with
    | .ok (true, s1) =>
      if out_degree s1 u < out_degree s1 v then (true, addDirEdge s1 u v)
      else (true, addDirEdge s1 v u)
    | .ok (false, s1) => (false, s1)
    | .error _ => (false, s)

/-- Python `add_edges_maintaining_digraph(edges)` (lines 282-290): run the
single-edge insertion for each listed edge, in order. -/
def add_edges_maintaining_digraph (s : PebbleDiGraph) (es : List (ℕ × ℕ)) :
    PebbleDiGraph :=
  es.foldl (fun st e => (add_edge_maintaining_digraph st e.1 e.2).2) s

/-- Feeding a list of edges in order and recording whether every call to
`add_edge_maintaining_digraph` returned `True` (the pebble-based sparsity
decision of the specification). -/
def feedEdges (s : PebbleDiGraph) (es : List (ℕ × ℕ)) : Bool × PebbleDiGraph :=
  es.foldl
    (fun acc e =>
      let r := add_edge_maintaining_digraph acc.2 e.1 e.2
      (acc.1 && r.1, r.2))
    (true, s)

/-- Python `_check_K_and_L` (lines 32-48): `K` and `L` are accepted iff
`K > 0`, `L ≥ 0` and `L < 2K` (on naturals the middle condition is
automatic). -/
def _check_K_and_L (K L : ℕ) : Bool := decide (0 < K) && decide (L < 2 * K)

/-- Python `set_K_and_L(K, L)` (lines 96-111): validate, then assign both
parameters.  Nothing else in the state is touched. -/
def set_K_and_L (s : PebbleDiGraph) (K L : ℕ) : Except String PebbleDiGraph :=
  if _check_K_and_L K L then .ok { s with K := K, L := L }
  else .error "ValueError: K and L out of range"

/-- Python setter `K` (lines 59-71): validate against the current `L`, then
assign. -/
def set_K (s : PebbleDiGraph) (value : ℕ) : Except String PebbleDiGraph :=
  if _check_K_and_L value s.L then .ok { s with K := value }
  else .error "ValueError: K and L out of range"

/-- Python setter `L` (lines 82-94): validate against the current `K`, then
assign. -/
def set_L (s : PebbleDiGraph) (value : ℕ) : Except String PebbleDiGraph :=
  if _check_K_and_L s.K value then .ok { s with L := value }
  else .error "ValueError: K and L out of range"

end PebbleDiGraph

/-- State of the undirected `Graph` class (`src/pyrigi/graph.py`), an
`nx.Graph`: the node list and the undirected edge list, both in insertion
order; each undirected edge is stored once, in the orientation in which it was
first added. -/
structure Graph where
  vertices : List ℕ
  edges : List (ℕ × ℕ)
deriving DecidableEq, Repr

namespace Graph

/-- Supporting test used by `nx.Graph.add_edge` for the presence of an
undirected edge: either orientation counts. -/
def hasEdge (G : Graph) (u v : ℕ) : Bool :=
  decide ((u, v) ∈ G.edges) || decide ((v, u) ∈ G.edges)

/-- Behaviour of `nx.Graph.add_edge(u, v)`: add missing endpoints, then store
the edge unless (either orientation of) it is already present.  Self-loops are
allowed by `networkx`. -/
def add_edge (G : Graph) (u v : ℕ) : Graph :=
  let vs1 := if u ∈ G.vertices then G.vertices else G.vertices ++ [u]
  let vs2 := if v ∈ vs1 then vs1 else vs1 ++ [v]
  if hasEdge G u v then { vertices := vs2, edges := G.edges }
  else { vertices := vs2, edges := G.edges ++ [(u, v)] }

/-- Behaviour of `nx.Graph.add_nodes_from`. -/
def addNodes (G : Graph) (vs : List ℕ) : Graph :=
  vs.foldl (fun g x =>
    if x ∈ g.vertices then g else { g with vertices := g.vertices ++ [x] }) G

/-- Python classmethod `from_vertices_and_edges(vertices, edges)` (lines
25-39).  Edges are given as raw lists so that the `len(edge) != 2` check is
expressible.  The loop raises a `TypeError` at the first edge that does not
have exactly two endpoints or whose endpoints are not nodes; self-loops pass
the check and are added. -/
def from_vertices_and_edges (vertices : List ℕ) (edges : List (List ℕ)) :
    Except String Graph :=
  let G0 := addNodes ⟨[], []⟩ vertices
  let rec go (G : Graph) : List (List ℕ) → Except String Graph
    | [] => .ok G
    | e :: rest =>
      match e with
      | [a, b] =>
        if a ∈ G.vertices ∧ b ∈ G.vertices then go (add_edge G a b) rest
        else .error "TypeError: edge has missing endpoints"
      | _ => .error "TypeError: edge does not have the correct format"
  go G0 edges

/-- Number of edges of the induced subgraph on `S`: Python
`len(self.subgraph(vertex_set).edges)`.  A stored edge lies in the subgraph
iff both endpoints are members of `S`; self-loops on members count. -/
def spanCount (es : List (ℕ × ℕ)) (S : List ℕ) : ℕ :=
  (es.filter (fun e => decide (e.1 ∈ S) && decide (e.2 ∈ S))).length

/-- Python `is_sparse(K, L)` (lines 76-88): for every subset of`j` vertices,
`K ≤ j ≤ n`, the induced subgraph may span at most `K·j − L` edges; the
comparison is Python integer arithmetic, modelled in `ℤ`.  (`combinations`
over the duplicate-free node list is modelled by `sublistsLen`; the subgraph
then has exactly `j` nodes.) -/
def is_sparse (G : Graph) (K L : ℕ) : Bool :=
  ((List.range (G.vertices.length + 1)).drop K).all fun j =>
    (G.vertices.sublistsLen j).all fun S =>
      decide ((spanCount G.edges S : ℤ) ≤ K * j - L)

/-- Python `is_tight(K, L)` (lines 90-95): sparsity together with the edge
count being at most `K·n − L` — the source uses `<=`, not the equality that
the definition of tightness demands. -/
def is_tight (G : Graph) (K L : ℕ) : Bool :=
  is_sparse G K L && decide ((G.edges.length : ℤ) ≤ K * G.vertices.length - L)

/-- Python `self.edge_subgraph(edge_list)` (`networkx`): the subgraph holding
exactly the listed edges and their incident nodes (node order inherited from
the parent). -/
def edge_subgraph (G : Graph) (kept : List (ℕ × ℕ)) : Graph :=
  ⟨G.vertices.filter
      (fun x => kept.any (fun e => decide (e.1 = x) || decide (e.2 = x))),
   kept⟩

/-- Combinatorial branch of Python `is_rigid` for `dim = 2` (lines 214-224):
let `d = |E| − (2|V| − 3)`; if `d < 0` the graph is not rigid, otherwise it is
rigid iff some `d`-subset of edges can be removed so that the remaining edge
subgraph is `(2, 3)`-tight. -/
def isRigidTwo (G : Graph) : Bool :=
  let d : ℤ := -(2 * (G.vertices.length : ℤ) - 3) + G.edges.length
  if d < 0 then false
  else
    (G.edges.sublistsLen d.toNat).any fun F =>
      is_tight (edge_subgraph G (G.edges.filter (fun e => decide (e ∉ F)))) 2 3

/-- Python `is_rigid(dim, combinatorial=True)` (lines 195-239) for the default
combinatorial path.  `dim ≤ 0` raises `TypeError`; `dim = 1` evaluates
`self.is_connected()`, a method that neither this class nor `nx.Graph`
defines, so the call raises `AttributeError`; `dim = 2` runs the
combinatorial test; `dim ≥ 3` raises `ValueError`. -/
def is_rigid (G : Graph) (dim : ℕ) : Except String Bool :=
  if dim = 0 then .error "TypeError: the dimension needs to be a positive integer"
  else if dim = 1 then .error "AttributeError: no method is_connected"
  else if dim = 2 then .ok (isRigidTwo G)
  else .error "ValueError: dimension for combinatorial computation must be 1 or 2"

/-- Python `copy.deepcopy(self)`: an independent copy of the graph value. -/
def deepcopy (G : Graph) : Graph := G

/-- Python `delete_edges` (line 70, `nx.remove_edges_from`): drop every stored
edge that matches a listed edge in either orientation; absent edges are
ignored. -/
def delete_edges (G : Graph) (F : List (ℕ × ℕ)) : Graph :=
  { G with
    edges := G.edges.filter
      (fun e => decide ((e.1, e.2) ∉ F) && decide ((e.2, e.1) ∉ F)) }

/-- Python `delete_vertices` (line 64, `nx.remove_nodes_from`): drop the
listed nodes and every incident edge. -/
def delete_vertices (G : Graph) (S : List ℕ) : Graph :=
  ⟨G.vertices.filter (fun x => decide (x ∉ S)),
   G.edges.filter (fun e => decide (e.1 ∉ S) && decide (e.2 ∉ S))⟩

/-- Loop body of `is_k_vertex_redundantly_rigid` (lines 166-171): for each
vertex subset, delete it from a deep copy and test rigidity; the first
non-rigid copy returns `False`, an exception inside `is_rigid` propagates. -/
def forAllRigidV (G : Graph) (dim : ℕ) : List (List ℕ) → Except String Bool
  | [] => .ok true
  | S :: rest =>
    let Gc := deepcopy G
    let Gc2 := delete_vertices Gc S
    match is_rigid Gc2 dim with
    | .error e => .error e
    | .ok true => forAllRigidV G dim rest
    | .ok false => .ok false

/-- Python `is_k_vertex_redundantly_rigid(k, dim)` (lines 157-171).  The
second component of the result models `self` after the call: every deletion is
performed on `deepcopy(self)`, never on `self`. -/
def is_k_vertex_redundantly_rigid (G : Graph) (k dim : ℕ) :
    Except String Bool × Graph :=
  if dim = 0 then (.error "TypeError: the dimension needs to be a positive integer", G)
  else (forAllRigidV G dim (G.vertices.sublistsLen k), G)

/-- Python `is_vertex_redundantly_rigid(dim)` (lines 148-155). -/
def is_vertex_redundantly_rigid (G : Graph) (dim : ℕ) :
    Except String Bool × Graph :=
  if dim = 0 then (.error "TypeError: the dimension needs to be a positive integer", G)
  else is_k_vertex_redundantly_rigid G 1 dim

/-- Loop body of `is_k_redundantly_rigid` (lines 188-193): for each edge
subset, delete it from a deep copy and test rigidity. -/
def forAllRigidE (G : Graph) (dim : ℕ) : List (List (ℕ × ℕ)) → Except String Bool
  | [] => .ok true
  | F :: rest =>
    let Gc := deepcopy G
    let Gc2 := delete_edges Gc F
    match is_rigid Gc2 dim with
    | .error e => .error e
    | .ok true => forAllRigidE G dim rest
    | .ok false => .ok false

/-- Python `is_k_redundantly_rigid(k, dim)` (lines 179-193), with the second
component modelling `self` after the call. -/
def is_k_redundantly_rigid (G : Graph) (k dim : ℕ) :
    Except String Bool × Graph :=
  if dim = 0 then (.error "TypeError: the dimension needs to be a positive integer", G)
  else (forAllRigidE G dim (G.edges.sublistsLen k), G)

/-- Python `is_redundantly_rigid(dim)` (lines 173-177). -/
def is_redundantly_rigid (G : Graph) (dim : ℕ) : Except String Bool × Graph :=
  is_k_redundantly_rigid G 1 dim

/-- One step of the undirected reachability closure used to model
connectivity. -/
def adjStep (G : Graph) (S : List ℕ) : List ℕ :=
  (S ++ G.edges.filterMap (fun e => if e.1 ∈ S then some e.2 else none)
     ++ G.edges.filterMap (fun e => if e.2 ∈ S then some e.1 else none)).dedup

/-- Vertices reachable from a start vertex (the closure stabilises after at
most `|V|` steps). -/
def reachList (G : Graph) (x : ℕ) : List ℕ :=
  (adjStep G)^[G.vertices.length] [x]

/-- Connectivity test on a non-null graph: every vertex is reachable from the
first one.  (The null graph is treated as not connected; the model only uses
this inside `vertex_connectivity`.) -/
def connectedB (G : Graph) : Bool :=
  match G.vertices with
  | [] => false
  | x :: _ => G.vertices.all (fun y => decide (y ∈ reachList G x))

/-- Modelled from the spec: `vertex_connectivity` delegates to the external
library routine `nx.node_connectivity` (line 74), whose code is not part of
this repository.  It returns the minimum number of vertices whose removal
disconnects the graph or leaves fewer than two vertices. -/
def vertex_connectivity (G : Graph) : ℕ :=
  (((List.range (G.vertices.length + 1)).find? fun k =>
      (G.vertices.sublistsLen k).any fun S =>
        let H := delete_vertices G S
        decide (H.vertices.length < 2) || !connectedB H)).getD 0

/-- Python `is_globally_rigid(dim)` (lines 281-301): `dim = 1` answers
2-connectivity, `dim = 2` answers redundant rigidity and 3-connectivity (the
second conjunct is only evaluated when the first holds, as in Python `and`),
`dim ≥ 3` raises `NotImplementedError`.  The call never mutates `self`. -/
def is_globally_rigid (G : Graph) (dim : ℕ) : Except String Bool :=
  if dim = 0 then .error "TypeError: the dimension needs to be a positive integer"
  else if dim = 1 then .ok (decide (2 ≤ vertex_connectivity G))
  else if dim = 2 then
    match (is_redundantly_rigid G 2).1 with
    | .error e => .error e
    | .ok false => .ok false
    | .ok true => .ok (decide (3 ≤ vertex_connectivity G))
  else .error "NotImplementedError"

/-- Python `is_minimally_rigid(dim, combinatorial=True)` (lines 241-279) for
the default combinatorial path: `dim = 1` evaluates `self.is_tree()`, a method
that does not exist (`AttributeError`); `dim = 2` is the `(2, 3)`-tightness
test. -/
def is_minimally_rigid (G : Graph) (dim : ℕ) : Except String Bool :=
  if dim = 0 then .error "TypeError: the dimension needs to be a positive integer"
  else if dim = 1 then .error "AttributeError: no method is_tree"
  else if dim = 2 then .ok (is_tight G 2 3)
  else .error "ValueError: dimension for combinatorial computation must be 1 or 2"

/-- Ordered pairs of the strict upper triangle of the adjacency matrix under
the given node order, row-major: the pair of positions `(i, j)` with `i < j`
yields the node pair at those positions. -/
def upperPairs : List ℕ → List (ℕ × ℕ)
  | [] => []
  | x :: rest => rest.map (fun y => (x, y)) ++ upperPairs rest

/-- Bit string of Python `graph_to_int` (lines 431-451): the strict upper
triangle of the adjacency matrix in the node insertion order, row-major. -/
def upperBits (G : Graph) : List Bool :=
  (upperPairs G.vertices).map (fun p => hasEdge G p.1 p.2)

/-- Value of a most-significant-bit-first binary digit string, the meaning of
Python `int(string_of_bits, 2)`. -/
def bitsToNat (bs : List Bool) : ℕ :=
  bs.foldl (fun a b => 2 * a + (if b then 1 else 0)) 0

/-- Python `graph_to_int` (lines 431-451): the integer whose binary expansion
is the concatenated strict upper triangle of the adjacency matrix.  On a graph
with fewer than two nodes the digit string is empty and Python
`int(empty_string, 2)` raises `ValueError`. -/
def graph_to_int (G : Graph) : Except String ℕ :=
  if upperBits G = [] then .error "ValueError: empty bit string"
  else .ok (bitsToNat (upperBits G))

/-- Fuelled helper computing the binary length of a natural number. -/
def bitLenAux : ℕ → ℕ → ℕ
  | 0, _ => 0
  | fuel + 1, n => if n = 0 then 0 else bitLenAux fuel (n / 2) + 1

/-- Binary length of a natural number (`0` has length `0`, otherwise the
number of binary digits); the fuel `n` itself always suffices. -/
def bitLen (n : ℕ) : ℕ := bitLenAux n n

/-- Number of vertices chosen by the integer decoder: the least `m` whose
strict upper triangle has at least `len` positions.  The bounded search is
total because `m = len + 1` always suffices. -/
def fromIntSize (len : ℕ) : ℕ :=
  (((List.range (len + 2)).find? fun m => decide (len ≤ m * (m - 1) / 2)).getD 0)

/-- Modelled from the spec: `from_int` is declared in the source (lines
453-455) but its body is `NotImplementedError`; the specification defines it
as the inverse codec — `from_integer(n)` for a positive integer `n` returns
the graph on vertices `0..m−1`, where `m` is the least size whose strict upper
triangle holds the binary expansion of `n`, with the bit at each
upper-triangle position (padded with leading zeros, most significant bit
first) deciding the corresponding edge.  Non-positive input fails. -/
def from_int (n : ℕ) : Except String Graph :=
  if n = 0 then .error "ValueError: integer must be positive"
  else
    let m := fromIntSize (bitLen n)
    let T := m * (m - 1) / 2
    .ok ⟨List.range m,
      ((upperPairs (List.range m)).enum).filterMap
        (fun te => if n.testBit (T - 1 - te.1) then some te.2 else none)⟩

end Graph

namespace PebbleDiGraph

/-- Chain predicate: the edge list is a directed path from the first vertex to
the second. -/
def IsChain : ℕ → List (ℕ × ℕ) → ℕ → Prop
  | r, [], c => r = c
  | r, e :: es, c => e.1 = r ∧ IsChain e.2 es c

/-- Vertices of a chain starting at a given root, in order. -/
def chainVerts (r : ℕ) (es : List (ℕ × ℕ)) : List ℕ := r :: es.map Prod.snd

/-- Support of a directed edge: the unordered pair of its endpoints,
normalised. -/
def supp (e : ℕ × ℕ) : ℕ × ℕ := (min e.1 e.2, max e.1 e.2)

/-- Support list of a directed-edge list (compared up to permutation, it is
the multiset of edge supports). -/
def supports (l : List (ℕ × ℕ)) : List (ℕ × ℕ) := l.map supp

/-- Structural well-formedness of a pebble digraph as maintained by
`networkx`: every stored edge joins stored nodes. -/
def Wf (s : PebbleDiGraph) : Prop :=
  ∀ e ∈ s.edges, e.1 ∈ s.nodes ∧ e.2 ∈ s.nodes

/-- Invariant I1 of the specification: every vertex has at most `K` pebbles in
use. -/
def DegLe (s : PebbleDiGraph) : Prop := ∀ x, out_degree s x ≤ s.K

/-- Sparsity of an edge list, support-level: every duplicate-free vertex list
spanning at least one edge spans at most `K·|S| − L` of them. -/
def SparseList (K L : ℕ) (es : List (ℕ × ℕ)) : Prop :=
  ∀ S : List ℕ, S.Nodup → 1 ≤ Graph.spanCount es S →
    Graph.spanCount es S + L ≤ K * S.length

/-- Entry invariant of a nested `dfs` call: the accumulated edge path
(already extended by the current edge) is a duplicate-free chain of stored
edges from the root of the search to the current vertex, every vertex of
which is already visited or is the current vertex. -/
abbrev DfsInv (s : PebbleDiGraph) (root vertex : ℕ) (visited : List ℕ)
    (path : List (ℕ × ℕ)) : Prop :=
  IsChain root path vertex ∧ (chainVerts root path).Nodup ∧
  (∀ e ∈ path, e ∈ s.edges) ∧
  (∀ x ∈ chainVerts root path, x ∈ visited ∨ x = vertex)

/-- Number of stored nodes not yet in the visited set; the quantity that
bounds the remaining depth of the DFS recursion. -/
def unvis (s : PebbleDiGraph) (vis : List ℕ) : ℕ :=
  (s.nodes.filter (fun x => decide (x ∉ vis))).length

/-- A vertex fully handled by a failed DFS: its stopping criterion fails (it
is an endpoint of the probed edge or has no free pebble) and the heads of all
its out-edges lie in the final visited set. -/
abbrev Processed (s : PebbleDiGraph) (u v x : ℕ) (T : List ℕ) : Prop :=
  (x = u ∨ x = v ∨ s.K ≤ out_degree s x) ∧
  ∀ e ∈ s.edges, e.1 = x → e.2 ∈ T

end PebbleDiGraph

/-! ### Claim C2: `is_tight` and the tightness count -/

/-- C2: the claim states that `is_tight(K, L)` holds iff the graph is sparse
and has exactly `K·|V| − L` edges.  The code compares with `<=` instead of
`=`, contradicting the cited definition of tightness and the repository test
`test_not_2_3_tight`, which expects the 4-cycle not to be `(2, 3)`-tight: on
the 4-cycle with `K = 2`, `L = 3` the code returns `True` although the edge
count `4` differs from `K·|V| − L = 5`. -/
theorem c2_is_tight_failing :
    Graph.is_tight ⟨[0, 1, 2, 3], [(0, 1), (1, 2), (2, 3), (3, 0)]⟩ 2 3 = true ∧
    ¬ ((([(0, 1), (1, 2), (2, 3), (3, 0)] : List (ℕ × ℕ)).length : ℤ) =
        2 * ([0, 1, 2, 3] : List ℕ).length - 3) := by
  decide

/-! ### Claim C5: orientation of an accepted edge -/

namespace PebbleDiGraph

/-- C5 counterexample: in the state reached by feeding the edges `(0, 1)` and
`(2, 3)` into a fresh `PebbleDiGraph(2, 3)`, both `1` and `3` are present with
equal out-degrees `0`; the claim says the accepted edge `(u, v) = (1, 3)` is
then stored oriented from `u = 1` to `v = 3`, but the code stores `(3, 1)`,
oriented from `v` to `u`. -/
theorem c5_counterexample :
    hasNode ⟨2, 3, [0, 1, 2, 3], [(0, 1), (2, 3)]⟩ 1 = true ∧
    hasNode ⟨2, 3, [0, 1, 2, 3], [(0, 1), (2, 3)]⟩ 3 = true ∧
    out_degree ⟨2, 3, [0, 1, 2, 3], [(0, 1), (2, 3)]⟩ 1 =
      out_degree ⟨2, 3, [0, 1, 2, 3], [(0, 1), (2, 3)]⟩ 3 ∧
    (add_edge_maintaining_digraph ⟨2, 3, [0, 1, 2, 3], [(0, 1), (2, 3)]⟩ 1 3).1 = true ∧
    (add_edge_maintaining_digraph ⟨2, 3, [0, 1, 2, 3], [(0, 1), (2, 3)]⟩ 1 3).2.edges =
      [(0, 1), (2, 3), (3, 1)] ∧
    ¬ ((1, 3) ∈ (add_edge_maintaining_digraph ⟨2, 3, [0, 1, 2, 3], [(0, 1), (2, 3)]⟩ 1 3).2.edges) := by
  decide

/-- C5 amended: when `add_edge_maintaining_digraph(u, v)` accepts an edge
between two present vertices, the new directed edge is oriented from the
endpoint with the strictly smaller out-degree (re-evaluated after pebble
collection) toward the other; when the out-degrees are equal it is oriented
from `v` to `u` (not from `u` to `v` as the claim stated). -/
theorem add_edge_orientation (s : PebbleDiGraph) (u v : ℕ)
    (hu : hasNode s u = true) (hv : hasNode s v = true)
    (hacc : (add_edge_maintaining_digraph s u v).1 = true) :
    (out_degree (circuitLoop u v (circuitFuel s u v) s).1 u <
        out_degree (circuitLoop u v (circuitFuel s u v) s).1 v →
      (add_edge_maintaining_digraph s u v).2 =
        addDirEdge (circuitLoop u v (circuitFuel s u v) s).1 u v) ∧
    (out_degree (circuitLoop u v (circuitFuel s u v) s).1 v ≤
        out_degree (circuitLoop u v (circuitFuel s u v) s).1 u →
      (add_edge_maintaining_digraph s u v).2 =
        addDirEdge (circuitLoop u v (circuitFuel s u v) s).1 v u) := by
  unfold add_edge_maintaining_digraph at *
  rw [if_neg (not_not_intro hu), if_neg (not_not_intro hv)] at *
  unfold can_add_edge_between_vertices fundamental_circuit at *
  rw [if_neg (not_not_intro hu), if_neg (not_not_intro hv)] at *
  by_cases hc :
      out_degree (circuitLoop u v (circuitFuel s u v) s).1 u +
        out_degree (circuitLoop u v (circuitFuel s u v) s).1 v ≤
        maxDegTogether (circuitLoop u v (circuitFuel s u v) s).1
  · rw [if_pos hc] at *
    simp only [Except.map, Option.isNone_none] at *
    constructor
    · intro hlt
      rw [if_pos hlt]
    · intro hle
      rw [if_neg (by omega)]
  · rw [if_neg hc] at hacc
    simp only [Except.map, Option.isNone_some] at hacc
    cases hacc

/-- Witness for `add_edge_orientation` at the concrete tie input: the edge
`(1, 3)` is accepted with equal out-degrees and stored oriented from `3`
to `1`. -/
theorem add_edge_orientation_witness :
    (add_edge_maintaining_digraph ⟨2, 3, [0, 1, 2, 3], [(0, 1), (2, 3)]⟩ 1 3).2 =
      addDirEdge
        (circuitLoop 1 3 (circuitFuel ⟨2, 3, [0, 1, 2, 3], [(0, 1), (2, 3)]⟩ 1 3)
          ⟨2, 3, [0, 1, 2, 3], [(0, 1), (2, 3)]⟩).1 3 1 :=
  (add_edge_orientation ⟨2, 3, [0, 1, 2, 3], [(0, 1), (2, 3)]⟩ 1 3
    (by decide) (by decide) (by decide)).2 (by decide)

/-! ### Claim C6: the parameter setters -/

/-- C6 counterexample: on the digraph holding the accepted edge `(0, 1)` with
`K = 2`, `L = 3`, the call `set_K_and_L(1, 1)` succeeds but retains the stored
edge, and the next edge operation is accepted rather than rejected — the
claim states all edges are invalidated and subsequent operations rejected. -/
theorem c6_counterexample :
    set_K_and_L ⟨2, 3, [0, 1], [(0, 1)]⟩ 1 1 =
      .ok (⟨1, 1, [0, 1], [(0, 1)]⟩ : PebbleDiGraph) ∧
    (⟨1, 1, [0, 1], [(0, 1)]⟩ : PebbleDiGraph).edges ≠ [] ∧
    (add_edge_maintaining_digraph ⟨1, 1, [0, 1], [(0, 1)]⟩ 0 2).1 = true := by
  decide

/-- C6 amended: a successful `set_K_and_L` (or `K`/`L` setter) call validates
and updates only the parameters; the stored oriented edges and the node set
are retained unchanged, and subsequent edge operations are not rejected. -/
theorem set_K_and_L_keeps_edges (s : PebbleDiGraph) (K L value : ℕ) :
    (∀ s2, set_K_and_L s K L = .ok s2 →
      s2.edges = s.edges ∧ s2.nodes = s.nodes ∧ s2.K = K ∧ s2.L = L) ∧
    (∀ s2, set_K s value = .ok s2 →
      s2.edges = s.edges ∧ s2.nodes = s.nodes ∧ s2.K = value ∧ s2.L = s.L) ∧
    (∀ s2, set_L s value = .ok s2 →
      s2.edges = s.edges ∧ s2.nodes = s.nodes ∧ s2.K = s.K ∧ s2.L = value) := by
  refine ⟨fun s2 h => ?_, fun s2 h => ?_, fun s2 h => ?_⟩ <;>
    [unfold set_K_and_L at h; unfold set_K at h; unfold set_L at h] <;>
    split at h <;> cases h <;> exact ⟨rfl, rfl, rfl, rfl⟩

/-- Witness for `set_K_and_L_keeps_edges` at the concrete input of the
counterexample. -/
theorem set_K_and_L_keeps_edges_witness :
    (⟨1, 1, [0, 1], [(0, 1)]⟩ : PebbleDiGraph).edges =
      (⟨2, 3, [0, 1], [(0, 1)]⟩ : PebbleDiGraph).edges :=
  ((set_K_and_L_keeps_edges ⟨2, 3, [0, 1], [(0, 1)]⟩ 1 1 0).1
    ⟨1, 1, [0, 1], [(0, 1)]⟩ (by decide)).1

end PebbleDiGraph

/-! ### Claim C7: missing loop guard in the rigidity predicates -/

namespace Graph

/-- Loop graph of the repository test `test_loops`:
`Graph([[1, 2], [1, 1], [2, 3], [1, 3]])`. -/
def loopGraph : Graph := ⟨[1, 2, 3], [(1, 2), (1, 1), (2, 3), (1, 3)]⟩

/-- C7: the claim (and the repository test `test_loops`) states that every
rigidity predicate fails with the dedicated loop error on a graph with a
self-loop.  The source contains no loop check at all: on the test graph, which
carries the self-loop `(1, 1)`, every rigidity predicate runs to completion
and returns a boolean. -/
theorem c7_no_loop_guard :
    (loopGraph.edges.any fun e => decide (e.1 = e.2)) = true ∧
    is_rigid loopGraph 2 = .ok true ∧
    is_minimally_rigid loopGraph 2 = .ok false ∧
    (is_redundantly_rigid loopGraph 2).1 = .ok false ∧
    (is_k_redundantly_rigid loopGraph 2 2).1 = .ok false ∧
    (is_vertex_redundantly_rigid loopGraph 2).1 = .ok true ∧
    (is_k_vertex_redundantly_rigid loopGraph 2 2).1 = .ok false ∧
    is_globally_rigid loopGraph 2 = .ok false := by
  decide

/-! ### Claim C10: the redundancy predicates do not mutate the graph -/

/-- C10: `is_k_redundantly_rigid` and `is_k_vertex_redundantly_rigid` leave
the graph itself unchanged for every `k` and `dim`: all deletions are applied
to a deep copy, so the vertex list and edge list of `self` after the call
equal those before the call. -/
theorem c10_redundancy_frame (G : Graph) (k dim : ℕ) :
    (is_k_redundantly_rigid G k dim).2 = G ∧
    (is_k_vertex_redundantly_rigid G k dim).2 = G ∧
    (is_k_redundantly_rigid G k dim).2.vertices = G.vertices ∧
    (is_k_redundantly_rigid G k dim).2.edges = G.edges ∧
    (is_k_vertex_redundantly_rigid G k dim).2.vertices = G.vertices ∧
    (is_k_vertex_redundantly_rigid G k dim).2.edges = G.edges := by
  unfold is_k_redundantly_rigid is_k_vertex_redundantly_rigid
  by_cases hd : dim = 0 <;> simp [hd]

/-! ### Claim C8: `from_vertices_and_edges` -/

/-- C8 counterexample: the claim states that `from_vertices_and_edges` fails
whenever some edge is a self-loop; on `V = [0]`, `E = [[0, 0]]` the call
succeeds and returns the graph carrying the self-loop `(0, 0)`. -/
theorem c8_counterexample :
    from_vertices_and_edges [0] [[0, 0]] = .ok ⟨[0], [(0, 0)]⟩ := by
  rfl

/-- Membership in the vertex list is preserved by `addNodes`. -/
theorem addNodes_mem (vs : List ℕ) :
    ∀ (G : Graph) (x : ℕ),
      x ∈ (addNodes G vs).vertices ↔ x ∈ G.vertices ∨ x ∈ vs := by
  induction vs with
  | nil => intro G x; simp [addNodes]
  | cons a rest ih =>
    intro G x
    show x ∈ (addNodes _ rest).vertices ↔ _
    rw [ih]
    beta_reduce
    by_cases ha : a ∈ G.vertices
    · rw [if_pos ha]
      constructor
      · rintro (h | h)
        · exact Or.inl h
        · exact Or.inr (List.mem_cons_of_mem _ h)
      · rintro (h | h)
        · exact Or.inl h
        · rcases List.mem_cons.1 h with rfl | h2
          · exact Or.inl ha
          · exact Or.inr h2
    · rw [if_neg ha]
      show x ∈ G.vertices ++ [a] ∨ x ∈ rest ↔ _
      simp only [List.mem_append, List.mem_singleton, List.mem_cons]
      tauto

/-- The edge list is untouched by `addNodes`. -/
theorem addNodes_edges (vs : List ℕ) :
    ∀ G : Graph, (addNodes G vs).edges = G.edges := by
  induction vs with
  | nil => intro G; rfl
  | cons a rest ih =>
    intro G
    show (addNodes _ rest).edges = _
    rw [ih]
    by_cases ha : a ∈ G.vertices <;> simp [ha]

/-- Adding an edge whose endpoints are already nodes does not change the
vertex list. -/
theorem add_edge_vertices_of_mem (G : Graph) (a b : ℕ)
    (ha : a ∈ G.vertices) (hb : b ∈ G.vertices) :
    (add_edge G a b).vertices = G.vertices := by
  unfold add_edge
  simp only [ha, if_true, hb]
  split <;> rfl

/-- Symmetry of the undirected-edge test. -/
theorem hasEdge_symm (G : Graph) (a b : ℕ) :
    hasEdge G a b = hasEdge G b a := by
  unfold hasEdge
  exact Bool.or_comm _ _

/-- Presence of an undirected edge after `add_edge`. -/
theorem hasEdge_add_edge (G : Graph) (u v a b : ℕ) :
    hasEdge (add_edge G u v) a b = true ↔
      hasEdge G a b = true ∨ (a = u ∧ b = v) ∨ (a = v ∧ b = u) := by
  unfold add_edge
  by_cases hP : hasEdge G u v = true
  · rw [if_pos hP]
    constructor
    · intro h
      exact Or.inl h
    · rintro (h | ⟨rfl, rfl⟩ | ⟨rfl, rfl⟩)
      · exact h
      · exact hP
      · show hasEdge G a b = true
        rw [hasEdge_symm]
        exact hP
  · rw [if_neg hP]
    show (decide ((a, b) ∈ G.edges ++ [(u, v)]) ||
        decide ((b, a) ∈ G.edges ++ [(u, v)])) = true ↔ _
    unfold hasEdge
    simp only [Bool.or_eq_true, decide_eq_true_eq, List.mem_append,
      List.mem_singleton, Prod.mk.injEq]
    tauto

/-- Characterisation of the builder loop of `from_vertices_and_edges`: it
succeeds iff every remaining edge is a two-element list whose endpoints are
nodes of the accumulated graph, and on success the produced graph has the same
vertex list and holds exactly the old and the newly listed edges. -/
theorem from_go_spec (V : List ℕ) :
    ∀ (E : List (List ℕ)) (G : Graph), (∀ x, x ∈ G.vertices ↔ x ∈ V) →
      ((from_vertices_and_edges.go G E).isOk = true ↔
        ∀ e ∈ E, ∃ a b, e = [a, b] ∧ a ∈ V ∧ b ∈ V) ∧
      (∀ G2, from_vertices_and_edges.go G E = .ok G2 →
        G2.vertices = G.vertices ∧
        (∀ a b, hasEdge G2 a b = true ↔
          hasEdge G a b = true ∨ ∃ e ∈ E, e = [a, b] ∨ e = [b, a])) := by
  intro E
  induction E with
  | nil =>
    intro G hG
    refine ⟨by simp [from_vertices_and_edges.go, Except.isOk, Except.toBool], ?_⟩
    intro G2 h
    simp only [from_vertices_and_edges.go] at h
    cases h
    simp
  | cons e rest ih =>
    intro G hG
    match e with
    | [] =>
      refine ⟨?_, ?_⟩
      · simp [from_vertices_and_edges.go, Except.isOk, Except.toBool]
      · intro G2 h
        simp only [from_vertices_and_edges.go] at h
        cases h
    | [a] =>
      refine ⟨?_, ?_⟩
      · simp [from_vertices_and_edges.go, Except.isOk, Except.toBool]
      · intro G2 h
        simp only [from_vertices_and_edges.go] at h
        cases h
    | a :: b :: c :: tl =>
      refine ⟨?_, ?_⟩
      · simp [from_vertices_and_edges.go, Except.isOk, Except.toBool]
      · intro G2 h
        simp only [from_vertices_and_edges.go] at h
        cases h
    | [a, b] =>
      by_cases hab : a ∈ G.vertices ∧ b ∈ G.vertices
      · have hv := add_edge_vertices_of_mem G a b hab.1 hab.2
        have hG2 : ∀ x, x ∈ (add_edge G a b).vertices ↔ x ∈ V := by
          intro x; rw [hv]; exact hG x
        obtain ⟨ih1, ih2⟩ := ih (add_edge G a b) hG2
        refine ⟨?_, ?_⟩
        · rw [show from_vertices_and_edges.go G ([a, b] :: rest) =
              from_vertices_and_edges.go (add_edge G a b) rest by
            simp [from_vertices_and_edges.go, hab]]
          rw [ih1]
          constructor
          · intro h
            intro e he
            rcases List.mem_cons.1 he with rfl | he2
            · exact ⟨a, b, rfl, (hG a).1 hab.1, (hG b).1 hab.2⟩
            · exact h e he2
          · intro h e he
            exact h e (List.mem_cons_of_mem _ he)
        · intro G2 h
          rw [show from_vertices_and_edges.go G ([a, b] :: rest) =
              from_vertices_and_edges.go (add_edge G a b) rest by
            simp [from_vertices_and_edges.go, hab]] at h
          obtain ⟨h1, h2⟩ := ih2 G2 h
          refine ⟨h1.trans hv, ?_⟩
          intro x y
          rw [h2 x y, hasEdge_add_edge]
          constructor
          · rintro ((hh | hh | hh) | ⟨f, hf, hor⟩)
            · exact Or.inl hh
            · exact Or.inr ⟨[a, b], List.mem_cons_self _ _, by
                rcases hh with ⟨rfl, rfl⟩; exact Or.inl rfl⟩
            · exact Or.inr ⟨[a, b], List.mem_cons_self _ _, by
                rcases hh with ⟨rfl, rfl⟩; exact Or.inr rfl⟩
            · exact Or.inr ⟨f, List.mem_cons_of_mem _ hf, hor⟩
          · rintro (hh | ⟨f, hf, hor⟩)
            · exact Or.inl (Or.inl hh)
            · rcases List.mem_cons.1 hf with rfl | hf2
              · rcases hor with hor | hor
                · injection hor with h1 h2
                  injection h2 with h3 h4
                  subst h1; subst h3
                  exact Or.inl (Or.inr (Or.inl ⟨rfl, rfl⟩))
                · injection hor with h1 h2
                  injection h2 with h3 h4
                  subst h1; subst h3
                  exact Or.inl (Or.inr (Or.inr ⟨rfl, rfl⟩))
              · exact Or.inr ⟨f, hf2, hor⟩
      · have hab2 : ¬ (a ∈ V ∧ b ∈ V) := by
          rw [← hG a, ← hG b]; exact hab
        refine ⟨?_, ?_⟩
        · rw [show from_vertices_and_edges.go G ([a, b] :: rest) =
              .error "TypeError: edge has missing endpoints" by
            simp [from_vertices_and_edges.go, hab]]
          simp only [Except.isOk, Except.toBool, Bool.false_eq_true, false_iff]
          intro h
          obtain ⟨a2, b2, he, ha2, hb2⟩ := h [a, b] (List.mem_cons_self _ _)
          injection he with h1 h2
          injection h2 with h3 h4
          subst h1; subst h3
          exact hab2 ⟨ha2, hb2⟩
        · intro G2 h
          rw [show from_vertices_and_edges.go G ([a, b] :: rest) =
              .error "TypeError: edge has missing endpoints" by
            simp [from_vertices_and_edges.go, hab]] at h
          cases h

/-- C8 amended: `from_vertices_and_edges(V, E)` returns a new graph on the
vertex set `V` whose undirected edges are exactly the listed ones, and fails
with a typed error iff some edge in `E` does not consist of exactly two
endpoints both belonging to `V`.  Self-loops are not rejected: an edge with
two equal endpoints in `V` passes the check and is stored. -/
theorem from_vertices_and_edges_spec (V : List ℕ) (E : List (List ℕ)) :
    ((from_vertices_and_edges V E).isOk = true ↔
      ∀ e ∈ E, ∃ a b, e = [a, b] ∧ a ∈ V ∧ b ∈ V) ∧
    (∀ G2, from_vertices_and_edges V E = .ok G2 →
      (∀ x, x ∈ G2.vertices ↔ x ∈ V) ∧
      (∀ a b, hasEdge G2 a b = true ↔ ∃ e ∈ E, e = [a, b] ∨ e = [b, a])) := by
  have hG0 : ∀ x, x ∈ (addNodes ⟨[], []⟩ V).vertices ↔ x ∈ V := by
    intro x
    rw [addNodes_mem]
    simp [Graph.vertices]
  have hdef : from_vertices_and_edges V E =
      from_vertices_and_edges.go (addNodes ⟨[], []⟩ V) E := rfl
  obtain ⟨h1, h2⟩ := from_go_spec V E (addNodes ⟨[], []⟩ V) hG0
  rw [hdef]
  refine ⟨h1, ?_⟩
  intro G2 h
  obtain ⟨hv, he⟩ := h2 G2 h
  refine ⟨fun x => by rw [hv]; exact hG0 x, ?_⟩
  intro a b
  rw [he a b]
  have hempty : hasEdge (addNodes ⟨[], []⟩ V) a b = false := by
    unfold hasEdge
    rw [addNodes_edges]
    simp
  simp [hempty]

/-- Witness for `from_vertices_and_edges_spec`: the well-formed input
`V = [0, 1]`, `E = [[0, 1]]` is accepted. -/
theorem from_vertices_and_edges_spec_witness :
    (from_vertices_and_edges [0, 1] [[0, 1]]).isOk = true :=
  ((from_vertices_and_edges_spec [0, 1] [[0, 1]]).1).mpr (by
    intro e he
    rw [List.mem_singleton] at he
    subst he
    exact ⟨0, 1, rfl, by decide, by decide⟩)

/-! ### Claim C9: the integer codec -/

/-- Doubled length of the strict upper triangle. -/
theorem upperPairs_length (l : List ℕ) :
    2 * (upperPairs l).length = l.length * (l.length - 1) := by
  induction l with
  | nil => rfl
  | cons x rest ih =>
    simp only [upperPairs, List.length_append, List.length_map, List.length_cons,
      Nat.add_sub_cancel]
    have hexp : (rest.length + 1) * rest.length =
        rest.length * (rest.length - 1) + 2 * rest.length := by
      cases rest with
      | nil => rfl
      | cons y r2 =>
        simp only [List.length_cons, Nat.add_sub_cancel]
        ring
    linarith [ih, hexp]

/-- Endpoints of an upper-triangle pair are members of the node list. -/
theorem mem_of_mem_upperPairs (l : List ℕ) (p : ℕ × ℕ) (h : p ∈ upperPairs l) :
    p.1 ∈ l ∧ p.2 ∈ l := by
  induction l with
  | nil => cases h
  | cons x rest ih =>
    simp only [upperPairs, List.mem_append, List.mem_map] at h
    rcases h with ⟨y, hy, rfl⟩ | h
    · exact ⟨List.mem_cons_self _ _, List.mem_cons_of_mem _ hy⟩
    · obtain ⟨h1, h2⟩ := ih h
      exact ⟨List.mem_cons_of_mem _ h1, List.mem_cons_of_mem _ h2⟩

/-- On a strictly sorted node list every upper-triangle pair increases. -/
theorem upperPairs_lt (l : List ℕ) (hs : l.Sorted (· < ·)) :
    ∀ p ∈ upperPairs l, p.1 < p.2 := by
  induction l with
  | nil => intro p hp; cases hp
  | cons x rest ih =>
    intro p hp
    simp only [upperPairs, List.mem_append, List.mem_map] at hp
    rcases hp with ⟨y, hy, rfl⟩ | hp
    · exact (List.sorted_cons.1 hs).1 y hy
    · exact ih (List.sorted_cons.1 hs).2 p hp

/-- The upper-triangle pairs of a duplicate-free node list are pairwise
distinct. -/
theorem upperPairs_nodup (l : List ℕ) (hl : l.Nodup) : (upperPairs l).Nodup := by
  induction l with
  | nil => exact List.nodup_nil
  | cons x rest ih =>
    obtain ⟨hx, hrest⟩ := List.nodup_cons.1 hl
    refine List.Nodup.append (List.Nodup.map ?_ hrest) (ih hrest) ?_
    · intro a b hab
      exact congrArg Prod.snd hab
    · rw [List.disjoint_left]
      rintro p hp hp2
      rcases List.mem_map.1 hp with ⟨y, _, rfl⟩
      exact hx (mem_of_mem_upperPairs rest (x, y) hp2).1

/-- Membership of the element at position `i` in a positional selection of a
duplicate-free list. -/
theorem mem_filterMap_enum {α : Type _} [DecidableEq α] (l : List α)
    (hl : l.Nodup) (q : ℕ → Bool) (i : ℕ) (h : i < l.length) :
    (l.get ⟨i, h⟩ ∈
      l.enum.filterMap (fun te => if q te.1 then some te.2 else none)) ↔
      q i = true := by
  constructor
  · intro hm
    rcases List.mem_filterMap.1 hm with ⟨⟨j, x⟩, hje, hx⟩
    by_cases hq : q j = true
    · rw [if_pos hq] at hx
      injection hx with hx
      subst hx
      rw [List.mk_mem_enum_iff_getElem?] at hje
      have hjlen : j < l.length := by
        by_contra hcon
        rw [List.getElem?_eq_none (by omega)] at hje
        cases hje
      have hji : j = i := by
        apply List.getElem?_inj hjlen hl
        rw [hje, List.getElem?_eq_getElem h]
        simp
      subst hji
      exact hq
    · rw [if_neg hq] at hx
      cases hx
  · intro hq
    refine List.mem_filterMap.2 ⟨(i, l.get ⟨i, h⟩), ?_, ?_⟩
    · rw [List.mk_mem_enum_iff_getElem?, List.getElem?_eq_getElem h]
      simp
    · rw [if_pos hq]

/-- Every member of a positional selection is a member of the base list. -/
theorem mem_of_mem_filterMap_enum {α : Type _} {l : List α} {q : ℕ → Bool}
    {x : α}
    (hx : x ∈ l.enum.filterMap (fun te => if q te.1 then some te.2 else none)) :
    x ∈ l := by
  rcases List.mem_filterMap.1 hx with ⟨⟨j, y⟩, hje, hy⟩
  by_cases hq : q j = true
  · rw [if_pos hq] at hy
    injection hy with hy
    subst hy
    rw [List.mk_mem_enum_iff_getElem?] at hje
    exact List.mem_iff_getElem?.2 ⟨j, hje⟩
  · rw [if_neg hq] at hy
    cases hy

/-- Appending one digit to a most-significant-first bit string. -/
theorem bitsToNat_append (bs : List Bool) (b : Bool) :
    bitsToNat (bs ++ [b]) = 2 * bitsToNat bs + (if b then 1 else 0) := by
  unfold bitsToNat
  rw [List.foldl_append]
  rfl

/-- Folding the `T` low bits of `n`, most significant first, recovers `n`. -/
theorem bitsToNat_testBits (T : ℕ) : ∀ n : ℕ, n < 2 ^ T →
    bitsToNat ((List.range T).map fun t => n.testBit (T - 1 - t)) = n := by
  induction T with
  | zero =>
    intro n hn
    have hn0 : n = 0 := by simpa using hn
    subst hn0
    rfl
  | succ T ih =>
    intro n hn
    rw [List.range_succ, List.map_append]
    have hmap : (List.range T).map (fun t => n.testBit (T + 1 - 1 - t)) =
        (List.range T).map (fun t => (n / 2).testBit (T - 1 - t)) := by
      apply List.map_congr_left
      intro t ht
      rw [List.mem_range] at ht
      have he : T + 1 - 1 - t = (T - 1 - t) + 1 := by omega
      rw [he, Nat.testBit_succ]
    rw [hmap, List.map_singleton, bitsToNat_append]
    have hdiv : n / 2 < 2 ^ T := by
      rw [pow_succ] at hn
      omega
    rw [ih (n / 2) hdiv]
    have h0 : T + 1 - 1 - T = 0 := by omega
    rw [h0, Nat.testBit_zero]
    by_cases hp : n % 2 = 1 <;> simp [hp] <;> omega

/-- The decoder size bound: the strict upper triangle on `fromIntSize len`
vertices has at least `len` positions. -/
theorem fromIntSize_spec (len : ℕ) :
    len ≤ fromIntSize len * (fromIntSize len - 1) / 2 := by
  unfold fromIntSize
  rcases hf : (List.range (len + 2)).find? (fun m => decide (len ≤ m * (m - 1) / 2))
    with _ | m
  · exfalso
    rw [List.find?_eq_none] at hf
    apply hf (len + 1) (by rw [List.mem_range]; omega)
    simp only [decide_eq_true_eq, Nat.add_sub_cancel]
    have h2 : 2 * len ≤ (len + 1) * len := by
      rcases Nat.eq_zero_or_pos len with rfl | hp
      · simp
      · have h3 : len ≤ len * len := Nat.le_mul_of_pos_left len hp
        have h4 : (len + 1) * len = len * len + len := by ring
        omega
    omega
  · simp only [Option.getD_some]
    have hp := List.find?_some hf
    simpa using hp

/-- Bound of the fuelled binary length: a number is smaller than two to its
binary length. -/
theorem bitLenAux_lt : ∀ (fuel n : ℕ), n ≤ fuel → n < 2 ^ bitLenAux fuel n := by
  intro fuel
  induction fuel with
  | zero =>
    intro n hn
    simp only [bitLenAux]
    omega
  | succ fuel ih =>
    intro n hn
    by_cases h0 : n = 0
    · simp [bitLenAux, h0]
    · have hstep : bitLenAux (fuel + 1) n = bitLenAux fuel (n / 2) + 1 := by
        simp [bitLenAux, h0]
      rw [hstep]
      have hrec := ih (n / 2) (by omega)
      rw [pow_succ]
      omega

/-- A positive number has positive binary length. -/
theorem bitLen_pos (n : ℕ) (hn : 1 ≤ n) : 1 ≤ bitLen n := by
  unfold bitLen
  rcases n with _ | n2
  · omega
  · simp [bitLenAux]

/-- Retraction law of the codec: decoding a positive integer and re-encoding
returns the same integer. -/
theorem graph_to_int_from_int (N : ℕ) (hN : 1 ≤ N) :
    ∃ H, from_int N = .ok H ∧ graph_to_int H = .ok N := by
  refine ⟨⟨List.range (fromIntSize (bitLen N)),
      ((upperPairs (List.range (fromIntSize (bitLen N)))).enum).filterMap
        (fun te =>
          if N.testBit
              (fromIntSize (bitLen N) * (fromIntSize (bitLen N) - 1) / 2 - 1 - te.1)
          then some te.2 else none)⟩, ?_, ?_⟩
  · unfold from_int
    rw [if_neg (by omega)]
  · set m := fromIntSize (bitLen N) with hm
    set T := m * (m - 1) / 2 with hT
    set l := upperPairs (List.range m) with hldef
    set sel := (l.enum).filterMap
        (fun te => if N.testBit (T - 1 - te.1) then some te.2 else none)
      with hsel
    have hsize : bitLen N ≤ T := fromIntSize_spec (bitLen N)
    have hTpos : 1 ≤ T := le_trans (bitLen_pos N hN) hsize
    have hNT : N < 2 ^ T :=
      lt_of_lt_of_le (bitLenAux_lt N N le_rfl)
        (Nat.pow_le_pow_right (by norm_num) hsize)
    have hlen : l.length = T := by
      have h2 : 2 * l.length = m * (m - 1) := by
        rw [hldef]
        have h3 := upperPairs_length (List.range m)
        rwa [List.length_range] at h3
      omega
    have hnodup : l.Nodup := by
      rw [hldef]
      exact upperPairs_nodup _ (List.nodup_range m)
    have hlt : ∀ p ∈ l, p.1 < p.2 := by
      rw [hldef]
      exact upperPairs_lt _ (List.sorted_lt_range m)
    have hbits : upperBits ⟨List.range m, sel⟩ =
        (List.range T).map (fun t => N.testBit (T - 1 - t)) := by
      apply List.ext_get
      · simp only [upperBits, List.length_map, List.length_range, ← hldef]
        rw [hlen]
      · intro i h1 h2
        simp only [upperBits, ← hldef] at h1 ⊢
        rw [List.get_map, List.get_map, List.get_range]
        have hil : i < l.length := by
          simpa using h1
        have hmem : (l.get ⟨i, hil⟩ ∈ sel) ↔ N.testBit (T - 1 - i) = true := by
          rw [hsel]
          exact mem_filterMap_enum l hnodup (fun t => N.testBit (T - 1 - t)) i hil
        have hswap : ¬ (((l.get ⟨i, hil⟩).2, (l.get ⟨i, hil⟩).1) ∈ sel) := by
          intro hsw
          rw [hsel] at hsw
          have h3 : ((l.get ⟨i, hil⟩).2, (l.get ⟨i, hil⟩).1) ∈ l :=
            mem_of_mem_filterMap_enum (q := fun t => N.testBit (T - 1 - t)) hsw
          have h4 := hlt _ h3
          have h5 := hlt _ (List.get_mem l i hil)
          simp only at h4
          omega
        show hasEdge ⟨List.range m, sel⟩ (l.get ⟨i, hil⟩).1 (l.get ⟨i, hil⟩).2 =
          N.testBit (T - 1 - i)
        unfold hasEdge
        rcases hq : N.testBit (T - 1 - i) with _ | _
        · have hm1 : ¬ (((l.get ⟨i, hil⟩).1, (l.get ⟨i, hil⟩).2) ∈ sel) := by
            intro hc
            rw [show (((l.get ⟨i, hil⟩).1, (l.get ⟨i, hil⟩).2) : ℕ × ℕ) =
                l.get ⟨i, hil⟩ from rfl] at hc
            rw [hmem, hq] at hc
            cases hc
          simp only [Bool.or_eq_false_iff, decide_eq_false_iff_not]
          exact ⟨hm1, hswap⟩
        · have hm1 : (((l.get ⟨i, hil⟩).1, (l.get ⟨i, hil⟩).2) : ℕ × ℕ) ∈ sel := by
            rw [show (((l.get ⟨i, hil⟩).1, (l.get ⟨i, hil⟩).2) : ℕ × ℕ) =
                l.get ⟨i, hil⟩ from rfl]
            rw [hmem, hq]
          rw [decide_eq_true hm1, Bool.true_or]
    unfold graph_to_int
    rw [if_neg (by
      rw [hbits]
      intro hc
      have hlc := congrArg List.length hc
      simp only [List.length_map, List.length_range, List.length_nil] at hlc
      omega)]
    rw [hbits, bitsToNat_testBits T N hNT]

/-- C9 counterexample: the claim asserts that `from_int (graph_to_int G)` is
isomorphic to `G` after relabeling to `0..n−1` — in particular it would have
the same number of vertices.  For the graph on `[0, 1, 2]` with the single
edge `(1, 2)` the integer is `1` (the leading zero bits of the first
adjacency row are lost), and the decoder returns the complete graph on two
vertices, which cannot be isomorphic to a graph on three vertices. -/
theorem c9_counterexample :
    graph_to_int ⟨[0, 1, 2], [(1, 2)]⟩ = .ok 1 ∧
    from_int 1 = .ok ⟨[0, 1], [(0, 1)]⟩ ∧
    (⟨[0, 1], [(0, 1)]⟩ : Graph).vertices.length ≠
      (⟨[0, 1, 2], [(1, 2)]⟩ : Graph).vertices.length := by
  refine ⟨by decide, by decide, by decide⟩

/-- C9 amended: for every graph `G` whose encoding is a positive integer `N`
(every non-empty simple graph on `0..n−1` qualifies), decoding and re-encoding
is the identity on the integer: `from_int (graph_to_int G)` is a graph `H`
with `graph_to_int H = graph_to_int G`.  `H` itself need not be isomorphic to
`G`: when the leading adjacency bits of `G` are zero, `H` has fewer
vertices. -/
theorem c9_round_trip (G : Graph) (N : ℕ)
    (hG : graph_to_int G = .ok N) (hN : 1 ≤ N) :
    ∃ H, from_int N = .ok H ∧ graph_to_int H = .ok N :=
  graph_to_int_from_int N hN

/-- Witness for `c9_round_trip` on the triangle, whose integer is `7`. -/
theorem c9_round_trip_witness :
    ∃ H, from_int 7 = .ok H ∧ graph_to_int H = .ok 7 :=
  c9_round_trip ⟨[0, 1, 2], [(0, 1), (0, 2), (1, 2)]⟩ 7 (by decide) (by decide)

end Graph

/-! ### Pebble-game machinery: basic state-operation lemmas -/

namespace PebbleDiGraph

theorem addNode_edges (s : PebbleDiGraph) (x : ℕ) :
    (addNode s x).edges = s.edges := by
  unfold addNode
  split <;> rfl

theorem addNode_K (s : PebbleDiGraph) (x : ℕ) : (addNode s x).K = s.K := by
  unfold addNode
  split <;> rfl

theorem addNode_L (s : PebbleDiGraph) (x : ℕ) : (addNode s x).L = s.L := by
  unfold addNode
  split <;> rfl

theorem addNode_of_mem {s : PebbleDiGraph} {x : ℕ} (h : x ∈ s.nodes) :
    addNode s x = s := by
  unfold addNode
  rw [if_pos h]

theorem mem_addNode_nodes (s : PebbleDiGraph) (x y : ℕ) :
    y ∈ (addNode s x).nodes ↔ y ∈ s.nodes ∨ y = x := by
  unfold addNode
  split
  · rename_i h
    constructor
    · exact Or.inl
    · rintro (hy | rfl)
      · exact hy
      · exact h
  · simp [List.mem_append]

theorem addDirEdge_edges (s : PebbleDiGraph) (u v : ℕ) :
    (addDirEdge s u v).edges = s.edges ++ [(u, v)] := by
  show (addNode (addNode s u) v).edges ++ [(u, v)] = _
  rw [addNode_edges, addNode_edges]

theorem addDirEdge_K (s : PebbleDiGraph) (u v : ℕ) :
    (addDirEdge s u v).K = s.K := by
  show (addNode (addNode s u) v).K = _
  rw [addNode_K, addNode_K]

theorem addDirEdge_L (s : PebbleDiGraph) (u v : ℕ) :
    (addDirEdge s u v).L = s.L := by
  show (addNode (addNode s u) v).L = _
  rw [addNode_L, addNode_L]

theorem mem_addDirEdge_nodes (s : PebbleDiGraph) (u v y : ℕ) :
    y ∈ (addDirEdge s u v).nodes ↔ y ∈ s.nodes ∨ y = u ∨ y = v := by
  show y ∈ (addNode (addNode s u) v).nodes ↔ _
  rw [mem_addNode_nodes, mem_addNode_nodes]
  tauto

theorem addDirEdge_of_mem {s : PebbleDiGraph} {u v : ℕ}
    (hu : u ∈ s.nodes) (hv : v ∈ s.nodes) :
    addDirEdge s u v = { s with edges := s.edges ++ [(u, v)] } := by
  simp only [addDirEdge, addNode_of_mem hu, addNode_of_mem hv]

theorem addDirEdge_nodes_of_mem {s : PebbleDiGraph} {u v : ℕ}
    (hu : u ∈ s.nodes) (hv : v ∈ s.nodes) :
    (addDirEdge s u v).nodes = s.nodes := by
  rw [addDirEdge_of_mem hu hv]

theorem out_degree_filter (s : PebbleDiGraph) (x : ℕ) :
    out_degree s x = s.edges.countP (fun e => decide (e.1 = x)) :=
  (List.countP_eq_length_filter _ _).symm

theorem out_degree_addDirEdge (s : PebbleDiGraph) (u v x : ℕ) :
    out_degree (addDirEdge s u v) x =
      out_degree s x + (if u = x then 1 else 0) := by
  rw [out_degree_filter, out_degree_filter]
  show ((addDirEdge s u v).edges).countP _ = _
  rw [addDirEdge_edges, List.countP_append]
  congr 1
  by_cases h : u = x <;> simp [List.countP, List.countP.go, h]

theorem out_degree_zero_of_not_mem {s : PebbleDiGraph} {x : ℕ}
    (hWf : Wf s) (hx : x ∉ s.nodes) : out_degree s x = 0 := by
  rw [out_degree_filter]
  rw [List.countP_eq_zero]
  intro e he
  simp only [decide_eq_true_eq]
  intro hex
  exact hx (hex ▸ (hWf e he).1)

theorem eraseEdge_perm {l : List (ℕ × ℕ)} {e : ℕ × ℕ} (he : e ∈ l) :
    l.Perm (e :: eraseEdge l e) := by
  induction l with
  | nil => cases he
  | cons f rest ih =>
    by_cases hfe : f = e
    · subst hfe
      unfold eraseEdge
      rw [if_pos rfl]
    · unfold eraseEdge
      rw [if_neg hfe]
      have hrest : e ∈ rest := by
        rcases List.mem_cons.1 he with h | h
        · exact absurd h.symm hfe
        · exact h
      exact ((ih hrest).cons f).trans (List.Perm.swap e f _)

theorem mem_of_mem_eraseEdge {l : List (ℕ × ℕ)} {e f : ℕ × ℕ}
    (hf : f ∈ eraseEdge l e) : f ∈ l := by
  induction l with
  | nil => cases hf
  | cons g rest ih =>
    unfold eraseEdge at hf
    split at hf
    · exact List.mem_cons_of_mem _ hf
    · rcases List.mem_cons.1 hf with rfl | hf2
      · exact List.mem_cons_self _ _
      · exact List.mem_cons_of_mem _ (ih hf2)

theorem mem_eraseEdge_of_ne {l : List (ℕ × ℕ)} {e f : ℕ × ℕ} (hne : f ≠ e) :
    f ∈ eraseEdge l e ↔ f ∈ l := by
  induction l with
  | nil => simp [eraseEdge]
  | cons g rest ih =>
    unfold eraseEdge
    split
    · rename_i hge
      subst hge
      simp only [List.mem_cons]
      constructor
      · exact Or.inr
      · rintro (rfl | h)
        · exact absurd rfl hne
        · exact h
    · simp only [List.mem_cons, ih]

theorem redirect_eff (s : PebbleDiGraph) (e : ℕ × ℕ) (hWf : Wf s)
    (he : e ∈ s.edges) :
    redirect_edge_to_head s e e.1 =
      { s with edges := eraseEdge s.edges e ++ [(e.2, e.1)] } := by
  unfold redirect_edge_to_head
  rw [if_pos ⟨by simp [hasNode, (hWf e he).1], Or.inl rfl⟩]
  unfold removeDirEdge
  have hmk : ((e.1, e.2) : ℕ × ℕ) = e := rfl
  rw [hmk]
  exact addDirEdge_of_mem (hWf e he).2 (hWf e he).1

theorem supp_swap (e : ℕ × ℕ) : supp (e.2, e.1) = supp e := by
  unfold supp
  rw [min_comm, max_comm]

theorem supports_append (l1 l2 : List (ℕ × ℕ)) :
    supports (l1 ++ l2) = supports l1 ++ supports l2 :=
  List.map_append _ _ _

/-- Tails of chain edges are chain vertices. -/
theorem chain_tail_mem :
    ∀ (es : List (ℕ × ℕ)) (a b : ℕ), IsChain a es b →
      ∀ f ∈ es, f.1 ∈ chainVerts a es := by
  intro es
  induction es with
  | nil =>
    intro a b _ f hf
    cases hf
  | cons e rest ih =>
    intro a b hch f hf
    obtain ⟨he1, hch2⟩ := hch
    rcases List.mem_cons.1 hf with rfl | hf2
    · rw [he1]
      exact List.mem_cons_self _ _
    · have := ih e.2 b hch2 f hf2
      unfold chainVerts at this ⊢
      rcases List.mem_cons.1 this with h1 | h1
      · simp [h1]
      · simp only [List.map_cons, List.mem_cons]
        tauto

/-- Heads of chain edges are chain vertices. -/
theorem chain_head_mem :
    ∀ (es : List (ℕ × ℕ)) (a b : ℕ), IsChain a es b →
      ∀ f ∈ es, f.2 ∈ chainVerts a es := by
  intro es a b _ f hf
  unfold chainVerts
  exact List.mem_cons_of_mem _ (List.mem_map_of_mem Prod.snd hf)

/-- The end of a chain is a chain vertex. -/
theorem chain_end_mem :
    ∀ (es : List (ℕ × ℕ)) (a b : ℕ), IsChain a es b → b ∈ chainVerts a es := by
  intro es
  induction es with
  | nil =>
    intro a b hch
    unfold IsChain at hch
    subst hch
    exact List.mem_cons_self _ _
  | cons e rest ih =>
    intro a b hch
    have := ih e.2 b hch.2
    unfold chainVerts at this ⊢
    simp only [List.map_cons, List.mem_cons] at this ⊢
    tauto

/-- Effect of reversing a whole chain: parameters, nodes and the support
multiset are unchanged, well-formedness is preserved, and the out-degrees
change by exactly one pebble moved from the root to the end of the chain. -/
theorem reversePath_spec :
    ∀ (path : List (ℕ × ℕ)) (s : PebbleDiGraph) (r c : ℕ),
      Wf s → IsChain r path c → (chainVerts r path).Nodup →
      (∀ e ∈ path, e ∈ s.edges) →
      (reversePath s path).K = s.K ∧ (reversePath s path).L = s.L ∧
      (reversePath s path).nodes = s.nodes ∧
      (supports (reversePath s path).edges).Perm (supports s.edges) ∧
      Wf (reversePath s path) ∧
      (∀ x, out_degree (reversePath s path) x +
          (if x = r ∧ path ≠ [] then 1 else 0) =
        out_degree s x + (if x = c ∧ path ≠ [] then 1 else 0)) := by
  intro path
  induction path with
  | nil =>
    intro s r c hWf _ _ _
    exact ⟨rfl, rfl, rfl, .refl _, hWf, fun x => by simp [reversePath]⟩
  | cons e rest ih =>
    intro s r c hWf hch hnd hed
    obtain ⟨her, hch2⟩ := hch
    subst her
    have heS : e ∈ s.edges := hed e (List.mem_cons_self _ _)
    have hred := redirect_eff s e hWf heS
    have hstep : reversePath s (e :: rest) =
        reversePath { s with edges := eraseEdge s.edges e ++ [(e.2, e.1)] }
          rest := by
      unfold reversePath
      rw [List.foldl_cons, hred]
    have hperm : s.edges.Perm (e :: eraseEdge s.edges e) := eraseEdge_perm heS
    have hWf1 : Wf { s with edges := eraseEdge s.edges e ++ [(e.2, e.1)] } := by
      intro f hf
      simp only [List.mem_append, List.mem_singleton] at hf
      rcases hf with hf | rfl
      · exact hWf f (mem_of_mem_eraseEdge hf)
      · exact ⟨(hWf e heS).2, (hWf e heS).1⟩
    have hndc : chainVerts e.1 (e :: rest) = e.1 :: chainVerts e.2 rest := rfl
    have hndrest : (chainVerts e.2 rest).Nodup := by
      rw [hndc] at hnd
      exact (List.nodup_cons.1 hnd).2
    have hrnot : e.1 ∉ chainVerts e.2 rest := by
      rw [hndc] at hnd
      exact (List.nodup_cons.1 hnd).1
    have hedrest : ∀ f ∈ rest,
        f ∈ ({ s with edges := eraseEdge s.edges e ++ [(e.2, e.1)] } :
          PebbleDiGraph).edges := by
      intro f hf
      have hfS := hed f (List.mem_cons_of_mem _ hf)
      have hft : f.1 ∈ chainVerts e.2 rest := chain_tail_mem rest e.2 c hch2 f hf
      have hfne : f ≠ e := by
        intro hfe
        exact hrnot (hfe ▸ hft)
      show f ∈ eraseEdge s.edges e ++ [(e.2, e.1)]
      exact List.mem_append_left _ ((mem_eraseEdge_of_ne hfne).2 hfS)
    obtain ⟨ihK, ihL, ihN, ihS, ihW, ihD⟩ :=
      ih { s with edges := eraseEdge s.edges e ++ [(e.2, e.1)] } e.2 c hWf1 hch2
        hndrest hedrest
    rw [hstep]
    refine ⟨ihK, ihL, ihN, ?_, ihW, ?_⟩
    · refine ihS.trans ?_
      show (supports (eraseEdge s.edges e ++ [(e.2, e.1)])).Perm _
      rw [supports_append]
      have h1 : supports [(e.2, e.1)] = [supp e] := by
        show [supp (e.2, e.1)] = [supp e]
        rw [supp_swap]
      rw [h1]
      refine (List.perm_append_singleton _ _).trans ?_
      have h2 : (supp e :: supports (eraseEdge s.edges e)).Perm
          (supports (e :: eraseEdge s.edges e)) := .refl _
      exact h2.trans (hperm.map supp).symm
    · intro x
      have hstepdeg :
          out_degree { s with edges := eraseEdge s.edges e ++ [(e.2, e.1)] } x +
            (if x = e.1 then 1 else 0) =
          out_degree s x + (if x = e.2 then 1 else 0) := by
        rw [out_degree_filter, out_degree_filter]
        have hproj :
            ({ s with edges := eraseEdge s.edges e ++ [(e.2, e.1)] } :
              PebbleDiGraph).edges = eraseEdge s.edges e ++ [(e.2, e.1)] := rfl
        rw [hproj, List.countP_append, hperm.countP_eq, List.countP_cons,
          List.countP_cons, List.countP_nil]
        simp only [decide_eq_true_eq]
        split_ifs <;> omega
      have hihd := ihD x
      rcases Decidable.em (rest = []) with hrest | hrest
      · subst hrest
        have hc2 : e.2 = c := hch2
        subst hc2
        simp only [ne_eq, not_true_eq_false, and_false, if_false,
          add_zero] at hihd
        simp only [ne_eq, List.cons_ne_nil, not_false_eq_true, and_true]
        rw [hihd]
        exact hstepdeg
      · simp only [ne_eq, hrest, not_false_eq_true, and_true] at hihd
        simp only [ne_eq, List.cons_ne_nil, not_false_eq_true, and_true]
        split_ifs at hihd hstepdeg ⊢ <;> omega

/-! ### DFS lemmas, stage 1: a failed search changes nothing -/

theorem dfsLoop_cons
    (dfsF : PebbleDiGraph → ℕ → List ℕ → List (ℕ × ℕ) → Option (ℕ × ℕ) →
      DfsResult)
    (s : PebbleDiGraph) (e : ℕ × ℕ) (rest : List (ℕ × ℕ)) (visited : List ℕ)
    (ep : List (ℕ × ℕ)) :
    dfsLoop dfsF s (e :: rest) visited ep =
      if e.2 ∈ visited then dfsLoop dfsF s rest visited ep
      else
        match dfsF s e.2 visited ep (some e) with
        | (true, vis, p, st) => (true, vis, p, st)
        | (false, vis, p, st) => dfsLoop dfsF st rest vis p := rfl

theorem dfs_succ_eq (u v fuel : ℕ) (s : PebbleDiGraph) (vertex : ℕ)
    (visited : List ℕ) (edgePath : List (ℕ × ℕ)) (ce : Option (ℕ × ℕ)) :
    dfs u v (fuel + 1) s vertex visited edgePath ce =
      if vertex ≠ u ∧ vertex ≠ v ∧ out_degree s vertex < s.K then
        (true, insertVisit visited vertex, edgePath ++ ce.toList,
          reversePath s (edgePath ++ ce.toList))
      else
        match dfsLoop (dfs u v fuel) s (outEdges s vertex)
            (insertVisit visited vertex) (edgePath ++ ce.toList) with
        | (true, vis, p, st) => (true, vis, p, st)
        | (false, vis, p, st) =>
          (false, vis, if p = [] then p else p.dropLast, st) := rfl

theorem dfsLoop_fail
    (dfsF : PebbleDiGraph → ℕ → List ℕ → List (ℕ × ℕ) → Option (ℕ × ℕ) →
      DfsResult)
    (hF : ∀ s vtx vis p e, (dfsF s vtx vis p (some e)).1 = false →
      (dfsF s vtx vis p (some e)).2.2.2 = s ∧
      (dfsF s vtx vis p (some e)).2.2.1 = p) :
    ∀ (es : List (ℕ × ℕ)) (s : PebbleDiGraph) (visited : List ℕ)
      (ep : List (ℕ × ℕ)),
      (dfsLoop dfsF s es visited ep).1 = false →
      (dfsLoop dfsF s es visited ep).2.2.2 = s ∧
      (dfsLoop dfsF s es visited ep).2.2.1 = ep := by
  intro es
  induction es with
  | nil =>
    intro s visited ep _
    exact ⟨rfl, rfl⟩
  | cons e rest ih =>
    intro s visited ep h
    by_cases hmem : e.2 ∈ visited
    · rw [dfsLoop_cons, if_pos hmem] at h ⊢
      exact ih s visited ep h
    · rcases hc : dfsF s e.2 visited ep (some e) with ⟨found, vis, p, st⟩
      rw [dfsLoop_cons, if_neg hmem, hc] at h ⊢
      cases found
      · have hchild := hF s e.2 visited ep e (by rw [hc])
        rw [hc] at hchild
        obtain ⟨hst, hp⟩ := hchild
        simp only at h hst hp ⊢
        rw [← hst, ← hp]
        exact ih st vis p h
      · simp only at h
        exact Bool.noConfusion h

theorem dfs_fail (u v : ℕ) : ∀ (fuel : ℕ) (s : PebbleDiGraph) (vertex : ℕ)
    (visited : List ℕ) (edgePath : List (ℕ × ℕ)) (ce : Option (ℕ × ℕ)),
    (ce = none → edgePath = []) →
    (dfs u v fuel s vertex visited edgePath ce).1 = false →
    (dfs u v fuel s vertex visited edgePath ce).2.2.2 = s ∧
    (dfs u v fuel s vertex visited edgePath ce).2.2.1 = edgePath := by
  intro fuel
  induction fuel with
  | zero =>
    intro s vertex visited edgePath ce _ _
    exact ⟨rfl, rfl⟩
  | succ fuel ih =>
    intro s vertex visited edgePath ce hce h
    have hF : ∀ s2 vtx vis p e,
        (dfs u v fuel s2 vtx vis p (some e)).1 = false →
        (dfs u v fuel s2 vtx vis p (some e)).2.2.2 = s2 ∧
        (dfs u v fuel s2 vtx vis p (some e)).2.2.1 = p := by
      intro s2 vtx vis p e hh
      exact ih s2 vtx vis p (some e) (by intro hcon; cases hcon) hh
    by_cases hcrit : vertex ≠ u ∧ vertex ≠ v ∧ out_degree s vertex < s.K
    · rw [dfs_succ_eq, if_pos hcrit] at h
      cases h
    · rcases hL : dfsLoop (dfs u v fuel) s (outEdges s vertex)
          (insertVisit visited vertex) (edgePath ++ ce.toList)
        with ⟨found, vis, p, st⟩
      rw [dfs_succ_eq, if_neg hcrit, hL] at h ⊢
      cases found
      · have hloop := dfsLoop_fail (dfs u v fuel) hF (outEdges s vertex) s
          (insertVisit visited vertex) (edgePath ++ ce.toList) (by rw [hL])
        rw [hL] at hloop
        obtain ⟨hst, hp⟩ := hloop
        simp only at hst hp ⊢
        rw [hst, hp]
        refine ⟨rfl, ?_⟩
        rcases ce with _ | e
        · have he : edgePath = [] := hce rfl
          subst he
          rfl
        · show (if edgePath ++ [e] = [] then edgePath ++ [e]
            else (edgePath ++ [e]).dropLast) = edgePath
          rw [if_neg (by simp), List.dropLast_concat]
      · simp only at h
        exact Bool.noConfusion h

/-! ### DFS lemmas, stage 2: the visited set grows, stays duplicate-free, and
only collects nodes of the digraph -/

theorem mem_insertVisit (l : List ℕ) (x y : ℕ) :
    y ∈ insertVisit l x ↔ y ∈ l ∨ y = x := by
  unfold insertVisit
  split
  · rename_i h
    constructor
    · exact Or.inl
    · rintro (hy | rfl)
      · exact hy
      · exact h
  · simp [List.mem_append]

theorem subset_insertVisit (l : List ℕ) (x : ℕ) : l ⊆ insertVisit l x := by
  intro y hy
  rw [mem_insertVisit]
  exact Or.inl hy

theorem self_mem_insertVisit (l : List ℕ) (x : ℕ) : x ∈ insertVisit l x := by
  rw [mem_insertVisit]
  exact Or.inr rfl

theorem insertVisit_nodup {l : List ℕ} (x : ℕ) (h : l.Nodup) :
    (insertVisit l x).Nodup := by
  unfold insertVisit
  split
  · exact h
  · rename_i hx
    refine List.Nodup.append h (List.nodup_singleton x) ?_
    intro a ha hax
    rw [List.mem_singleton] at hax
    exact hx (hax ▸ ha)

theorem dfsLoop_visited
    (dfsF : PebbleDiGraph → ℕ → List ℕ → List (ℕ × ℕ) → Option (ℕ × ℕ) →
      DfsResult)
    (hFfail : ∀ s vtx vis p e, (dfsF s vtx vis p (some e)).1 = false →
      (dfsF s vtx vis p (some e)).2.2.2 = s ∧
      (dfsF s vtx vis p (some e)).2.2.1 = p)
    (hFvis : ∀ s vtx vis p e, Wf s → vtx ∈ s.nodes →
      vis ⊆ (dfsF s vtx vis p (some e)).2.1 ∧
      (vis.Nodup → (dfsF s vtx vis p (some e)).2.1.Nodup) ∧
      (∀ x ∈ (dfsF s vtx vis p (some e)).2.1, x ∈ vis ∨ x ∈ s.nodes)) :
    ∀ (es : List (ℕ × ℕ)) (s : PebbleDiGraph) (visited : List ℕ)
      (ep : List (ℕ × ℕ)), Wf s → (∀ e ∈ es, e ∈ s.edges) →
      visited ⊆ (dfsLoop dfsF s es visited ep).2.1 ∧
      (visited.Nodup → (dfsLoop dfsF s es visited ep).2.1.Nodup) ∧
      (∀ x ∈ (dfsLoop dfsF s es visited ep).2.1,
        x ∈ visited ∨ x ∈ s.nodes) := by
  intro es
  induction es with
  | nil =>
    intro s visited ep _ _
    exact ⟨fun x hx => hx, fun h => h, fun x hx => Or.inl hx⟩
  | cons e rest ih =>
    intro s visited ep hWf hes
    have heS : e ∈ s.edges := hes e (List.mem_cons_self _ _)
    have he2 : e.2 ∈ s.nodes := (hWf e heS).2
    by_cases hmem : e.2 ∈ visited
    · rw [dfsLoop_cons, if_pos hmem]
      exact ih s visited ep hWf (fun f hf => hes f (List.mem_cons_of_mem _ hf))
    · rcases hc : dfsF s e.2 visited ep (some e) with ⟨found, vis, p, st⟩
      have hchild := hFvis s e.2 visited ep e hWf he2
      rw [hc] at hchild
      obtain ⟨hsub, hnd, hmemb⟩ := hchild
      rw [dfsLoop_cons, if_neg hmem, hc]
      cases found
      · have hfail := hFfail s e.2 visited ep e (by rw [hc])
        rw [hc] at hfail
        obtain ⟨hst, hp⟩ := hfail
        simp only at hst hp hsub hnd hmemb ⊢
        rw [hst, hp]
        obtain ⟨ih1, ih2, ih3⟩ :=
          ih s vis ep hWf (fun f hf => hes f (List.mem_cons_of_mem _ hf))
        refine ⟨fun x hx => ih1 (hsub hx), fun h => ih2 (hnd h), ?_⟩
        intro x hx
        rcases ih3 x hx with hx2 | hx2
        · exact hmemb x hx2
        · exact Or.inr hx2
      · simp only at hsub hnd hmemb ⊢
        exact ⟨hsub, hnd, hmemb⟩

theorem dfs_visited (u v : ℕ) : ∀ (fuel : ℕ) (s : PebbleDiGraph) (vertex : ℕ)
    (visited : List ℕ) (edgePath : List (ℕ × ℕ)) (ce : Option (ℕ × ℕ)),
    Wf s → vertex ∈ s.nodes →
    visited ⊆ (dfs u v fuel s vertex visited edgePath ce).2.1 ∧
    (visited.Nodup → (dfs u v fuel s vertex visited edgePath ce).2.1.Nodup) ∧
    (∀ x ∈ (dfs u v fuel s vertex visited edgePath ce).2.1,
      x ∈ visited ∨ x ∈ s.nodes) := by
  intro fuel
  induction fuel with
  | zero =>
    intro s vertex visited edgePath ce _ _
    exact ⟨fun x hx => hx, fun h => h, fun x hx => Or.inl hx⟩
  | succ fuel ih =>
    intro s vertex visited edgePath ce hWf hv
    have hins1 : visited ⊆ insertVisit visited vertex := subset_insertVisit _ _
    have hins3 : ∀ x ∈ insertVisit visited vertex, x ∈ visited ∨ x ∈ s.nodes := by
      intro x hx
      rcases (mem_insertVisit _ _ _).1 hx with hx2 | rfl
      · exact Or.inl hx2
      · exact Or.inr hv
    by_cases hcrit : vertex ≠ u ∧ vertex ≠ v ∧ out_degree s vertex < s.K
    · rw [dfs_succ_eq, if_pos hcrit]
      exact ⟨hins1, fun h => insertVisit_nodup _ h, hins3⟩
    · rcases hL : dfsLoop (dfs u v fuel) s (outEdges s vertex)
          (insertVisit visited vertex) (edgePath ++ ce.toList)
        with ⟨found, vis, p, st⟩
      rw [dfs_succ_eq, if_neg hcrit, hL]
      have hloop := dfsLoop_visited (dfs u v fuel)
        (fun s2 vtx vis2 p2 e hh =>
          dfs_fail u v fuel s2 vtx vis2 p2 (some e)
            (by intro hcon; cases hcon) hh)
        (fun s2 vtx vis2 p2 e hWf2 hv2 =>
          ih s2 vtx vis2 p2 (some e) hWf2 hv2)
        (outEdges s vertex) s (insertVisit visited vertex)
        (edgePath ++ ce.toList) hWf
        (fun f hf => List.mem_of_mem_filter hf)
      rw [hL] at hloop
      obtain ⟨h1, h2, h3⟩ := hloop
      cases found
      · simp only at h1 h2 h3 ⊢
        refine ⟨fun x hx => h1 (hins1 hx), fun h => h2 (insertVisit_nodup _ h), ?_⟩
        intro x hx
        rcases h3 x hx with hx2 | hx2
        · exact hins3 x hx2
        · exact Or.inr hx2
      · simp only at h1 h2 h3 ⊢
        refine ⟨fun x hx => h1 (hins1 hx), fun h => h2 (insertVisit_nodup _ h), ?_⟩
        intro x hx
        rcases h3 x hx with hx2 | hx2
        · exact hins3 x hx2
        · exact Or.inr hx2

/-! ### DFS lemmas, stage 3: a successful DFS returns a reversed chain to a
vertex with a free pebble -/

theorem chainVerts_snoc (r : ℕ) (p : List (ℕ × ℕ)) (e : ℕ × ℕ) :
    chainVerts r (p ++ [e]) = chainVerts r p ++ [e.2] := by
  unfold chainVerts
  rw [List.map_append]
  rfl

theorem IsChain_snoc :
    ∀ (p : List (ℕ × ℕ)) (r c : ℕ) (e : ℕ × ℕ), IsChain r p c → e.1 = c →
      IsChain r (p ++ [e]) e.2 := by
  intro p
  induction p with
  | nil =>
    intro r c e hch he
    unfold IsChain at hch
    subst hch
    exact ⟨he, rfl⟩
  | cons f rest ih =>
    intro r c e hch he
    exact ⟨hch.1, ih f.2 c e hch.2 he⟩

theorem dfsLoop_success
    (u v : ℕ)
    (dfsF : PebbleDiGraph → ℕ → List ℕ → List (ℕ × ℕ) → Option (ℕ × ℕ) →
      DfsResult)
    (hFfail : ∀ s vtx vis p e, (dfsF s vtx vis p (some e)).1 = false →
      (dfsF s vtx vis p (some e)).2.2.2 = s ∧
      (dfsF s vtx vis p (some e)).2.2.1 = p)
    (hFsub : ∀ s vtx vis p e, Wf s → vtx ∈ s.nodes →
      vis ⊆ (dfsF s vtx vis p (some e)).2.1)
    (hFsucc : ∀ s vtx vis p e root, Wf s →
      DfsInv s root vtx vis (p ++ [e]) →
      (dfsF s vtx vis p (some e)).1 = true →
      ∃ w : ℕ,
        IsChain root (dfsF s vtx vis p (some e)).2.2.1 w ∧
        (chainVerts root (dfsF s vtx vis p (some e)).2.2.1).Nodup ∧
        (∀ f ∈ (dfsF s vtx vis p (some e)).2.2.1, f ∈ s.edges) ∧
        w ≠ u ∧ w ≠ v ∧ out_degree s w < s.K ∧
        (dfsF s vtx vis p (some e)).2.2.2 =
          reversePath s (dfsF s vtx vis p (some e)).2.2.1) :
    ∀ (es : List (ℕ × ℕ)) (s : PebbleDiGraph) (visited : List ℕ)
      (ep : List (ℕ × ℕ)) (root vertex : ℕ),
      Wf s → IsChain root ep vertex → (chainVerts root ep).Nodup →
      (∀ f ∈ ep, f ∈ s.edges) →
      (∀ x ∈ chainVerts root ep, x ∈ visited) →
      (∀ f ∈ es, f ∈ s.edges ∧ f.1 = vertex) →
      (dfsLoop dfsF s es visited ep).1 = true →
      ∃ w : ℕ,
        IsChain root (dfsLoop dfsF s es visited ep).2.2.1 w ∧
        (chainVerts root (dfsLoop dfsF s es visited ep).2.2.1).Nodup ∧
        (∀ f ∈ (dfsLoop dfsF s es visited ep).2.2.1, f ∈ s.edges) ∧
        w ≠ u ∧ w ≠ v ∧ out_degree s w < s.K ∧
        (dfsLoop dfsF s es visited ep).2.2.2 =
          reversePath s (dfsLoop dfsF s es visited ep).2.2.1 := by
  intro es
  induction es with
  | nil =>
    intro s visited ep root vertex _ _ _ _ _ _ h
    exact Bool.noConfusion h
  | cons e rest ih =>
    intro s visited ep root vertex hWf hch hnod heps hvis hes hsucc
    have heS : e ∈ s.edges := (hes e (List.mem_cons_self _ _)).1
    have he1 : e.1 = vertex := (hes e (List.mem_cons_self _ _)).2
    by_cases hmem : e.2 ∈ visited
    · rw [dfsLoop_cons, if_pos hmem] at hsucc ⊢
      exact ih s visited ep root vertex hWf hch hnod heps hvis
        (fun f hf => hes f (List.mem_cons_of_mem _ hf)) hsucc
    · rcases hc : dfsF s e.2 visited ep (some e) with ⟨found, vis, p, st⟩
      rw [dfsLoop_cons, if_neg hmem, hc] at hsucc ⊢
      cases found
      · have hfail := hFfail s e.2 visited ep e (by rw [hc])
        rw [hc] at hfail
        obtain ⟨hst, hp⟩ := hfail
        simp only at hst hp hsucc ⊢
        rw [hst, hp] at hsucc ⊢
        have hsub := hFsub s e.2 visited ep e hWf ((hWf e heS).2)
        rw [hc] at hsub
        simp only at hsub
        exact ih s vis ep root vertex hWf hch hnod heps
          (fun x hx => hsub (hvis x hx))
          (fun f hf => hes f (List.mem_cons_of_mem _ hf)) hsucc
      · have hinv : DfsInv s root e.2 visited (ep ++ [e]) := by
          refine ⟨IsChain_snoc ep root vertex e hch he1, ?_, ?_, ?_⟩
          · rw [chainVerts_snoc]
            refine List.Nodup.append hnod (List.nodup_singleton _) ?_
            intro a ha hae
            rw [List.mem_singleton] at hae
            exact hmem (hae ▸ hvis a ha)
          · intro f hf
            rcases List.mem_append.1 hf with hf2 | hf2
            · exact heps f hf2
            · rw [List.mem_singleton] at hf2
              exact hf2 ▸ heS
          · intro x hx
            rw [chainVerts_snoc] at hx
            rcases List.mem_append.1 hx with hx2 | hx2
            · exact Or.inl (hvis x hx2)
            · rw [List.mem_singleton] at hx2
              exact Or.inr hx2
        have hres := hFsucc s e.2 visited ep e root hWf hinv (by rw [hc])
        rw [hc] at hres
        simp only at hres ⊢
        exact hres

theorem dfs_success (u v : ℕ) : ∀ (fuel : ℕ) (s : PebbleDiGraph) (vertex : ℕ)
    (visited : List ℕ) (edgePath : List (ℕ × ℕ)) (ce : Option (ℕ × ℕ))
    (root : ℕ), Wf s →
    DfsInv s root vertex visited (edgePath ++ ce.toList) →
    (dfs u v fuel s vertex visited edgePath ce).1 = true →
    ∃ w : ℕ,
      IsChain root (dfs u v fuel s vertex visited edgePath ce).2.2.1 w ∧
      (chainVerts root (dfs u v fuel s vertex visited edgePath ce).2.2.1).Nodup ∧
      (∀ f ∈ (dfs u v fuel s vertex visited edgePath ce).2.2.1, f ∈ s.edges) ∧
      w ≠ u ∧ w ≠ v ∧ out_degree s w < s.K ∧
      (dfs u v fuel s vertex visited edgePath ce).2.2.2 =
        reversePath s (dfs u v fuel s vertex visited edgePath ce).2.2.1 := by
  intro fuel
  induction fuel with
  | zero =>
    intro s vertex visited edgePath ce root _ _ h
    exact Bool.noConfusion h
  | succ fuel ih =>
    intro s vertex visited edgePath ce root hWf hinv hsucc
    obtain ⟨hch, hnod, heps, hvis⟩ := hinv
    by_cases hcrit : vertex ≠ u ∧ vertex ≠ v ∧ out_degree s vertex < s.K
    · rw [dfs_succ_eq, if_pos hcrit] at hsucc ⊢
      simp only at hsucc ⊢
      exact ⟨vertex, hch, hnod, heps, hcrit.1, hcrit.2.1, hcrit.2.2, by trivial⟩
    · rcases hL : dfsLoop (dfs u v fuel) s (outEdges s vertex)
          (insertVisit visited vertex) (edgePath ++ ce.toList)
        with ⟨found, vis, p, st⟩
      rw [dfs_succ_eq, if_neg hcrit, hL] at hsucc ⊢
      cases found
      · simp only at hsucc
        exact Bool.noConfusion hsucc
      · have hloop := dfsLoop_success u v (dfs u v fuel)
          (fun s2 vtx vis2 p2 e hh =>
            dfs_fail u v fuel s2 vtx vis2 p2 (some e)
              (by intro hcon; cases hcon) hh)
          (fun s2 vtx vis2 p2 e hWf2 hv2 =>
            (dfs_visited u v fuel s2 vtx vis2 p2 (some e) hWf2 hv2).1)
          (fun s2 vtx vis2 p2 e root2 hWf2 hinv2 hh =>
            ih s2 vtx vis2 p2 (some e) root2 hWf2 hinv2 hh)
          (outEdges s vertex) s (insertVisit visited vertex)
          (edgePath ++ ce.toList) root vertex hWf hch hnod heps
          (fun x hx => by
            rw [mem_insertVisit]
            exact hvis x hx)
          (fun f hf => ⟨List.mem_of_mem_filter hf, by
            have hpf := List.of_mem_filter hf
            simpa using hpf⟩)
          (by rw [hL])
        rw [hL] at hloop
        simp only at hloop ⊢
        exact hloop

/-! ### DFS lemmas, stage 4: effect of a successful top-level DFS call and
preservation of the invariants by the pebble-collection loop -/

theorem dfs_top (u v fuel : ℕ) (s : PebbleDiGraph) (root : ℕ)
    (vis0 : List ℕ) (hWf : Wf s) (hroot : root = u ∨ root = v)
    (hsucc : (dfs u v fuel s root vis0 [] none).1 = true) :
    ∃ w : ℕ, w ≠ u ∧ w ≠ v ∧ out_degree s w < s.K ∧
      (dfs u v fuel s root vis0 [] none).2.2.2.K = s.K ∧
      (dfs u v fuel s root vis0 [] none).2.2.2.L = s.L ∧
      (dfs u v fuel s root vis0 [] none).2.2.2.nodes = s.nodes ∧
      (supports (dfs u v fuel s root vis0 [] none).2.2.2.edges).Perm
        (supports s.edges) ∧
      Wf (dfs u v fuel s root vis0 [] none).2.2.2 ∧
      ∀ x, out_degree (dfs u v fuel s root vis0 [] none).2.2.2 x +
          (if x = root then 1 else 0) =
        out_degree s x + (if x = w then 1 else 0) := by
  have hinv : DfsInv s root root vis0 ([] ++ (none : Option (ℕ × ℕ)).toList) := by
    refine ⟨rfl, ?_, ?_, ?_⟩
    · exact List.nodup_singleton root
    · intro e he
      cases he
    · intro x hx
      simp [chainVerts] at hx
      exact Or.inr hx
  obtain ⟨w, hchw, hnodw, hedw, hwu, hwv, hdegw, hstate⟩ :=
    dfs_success u v fuel s root vis0 [] none root hWf hinv hsucc
  have hPne : (dfs u v fuel s root vis0 [] none).2.2.1 ≠ [] := by
    intro hP
    rw [hP] at hchw
    have hrw : root = w := hchw
    rcases hroot with rfl | rfl
    · exact hwu hrw.symm
    · exact hwv hrw.symm
  obtain ⟨hK, hL2, hnodes, hperm, hWf2, hdeg⟩ :=
    reversePath_spec (dfs u v fuel s root vis0 [] none).2.2.1 s root w hWf
      hchw hnodw hedw
  rw [← hstate] at hK hL2 hnodes hperm hWf2 hdeg
  refine ⟨w, hwu, hwv, hdegw, hK, hL2, hnodes, hperm, hWf2, ?_⟩
  intro x
  have hx := hdeg x
  have h1 : (if x = root ∧ (dfs u v fuel s root vis0 [] none).2.2.1 ≠ []
      then 1 else 0) = (if x = root then 1 else 0) := by
    by_cases hxr : x = root
    · rw [if_pos ⟨hxr, hPne⟩, if_pos hxr]
    · rw [if_neg (fun hc => hxr hc.1), if_neg hxr]
  have h2 : (if x = w ∧ (dfs u v fuel s root vis0 [] none).2.2.1 ≠ []
      then 1 else 0) = (if x = w then 1 else 0) := by
    by_cases hxw : x = w
    · rw [if_pos ⟨hxw, hPne⟩, if_pos hxw]
    · rw [if_neg (fun hc => hxw hc.1), if_neg hxw]
  rw [h1, h2] at hx
  exact hx

theorem circuitLoop_succ (u v fuel : ℕ) (s : PebbleDiGraph) :
    circuitLoop u v (fuel + 1) s =
      if out_degree s u + out_degree s v > maxDegTogether s then
        match dfs u v (dfsFuel s) s u (insertVisit (insertVisit [] u) v)
            [] none with
        | (true, _, _, s1) => circuitLoop u v fuel s1
        | (false, vis1, _, s1) =>
          match dfs u v (dfsFuel s1) s1 v vis1 [] none with
          | (true, _, _, s2) => circuitLoop u v fuel s2
          | (false, vis2, _, s2) => (s2, vis2)
      else (s, []) := rfl

theorem circuitLoop_pres (u v : ℕ) : ∀ (fuel : ℕ) (s : PebbleDiGraph), Wf s →
    (circuitLoop u v fuel s).1.K = s.K ∧
    (circuitLoop u v fuel s).1.L = s.L ∧
    (circuitLoop u v fuel s).1.nodes = s.nodes ∧
    (supports (circuitLoop u v fuel s).1.edges).Perm (supports s.edges) ∧
    Wf (circuitLoop u v fuel s).1 ∧
    (DegLe s → DegLe (circuitLoop u v fuel s).1) := by
  intro fuel
  induction fuel with
  | zero =>
    intro s hWf
    exact ⟨rfl, rfl, rfl, List.Perm.refl _, hWf, fun h => h⟩
  | succ fuel ih =>
    intro s hWf
    rw [circuitLoop_succ]
    by_cases hcond : out_degree s u + out_degree s v > maxDegTogether s
    · rw [if_pos hcond]
      rcases hd1 : dfs u v (dfsFuel s) s u (insertVisit (insertVisit [] u) v)
          [] none with ⟨f1, vis1, p1, s1⟩
      cases f1
      · have hfail := dfs_fail u v (dfsFuel s) s u
          (insertVisit (insertVisit [] u) v) [] none (fun _ => rfl)
          (by rw [hd1])
        rw [hd1] at hfail
        obtain ⟨hs1, -⟩ := hfail
        simp only at hs1 ⊢
        rw [hs1]
        rcases hd2 : dfs u v (dfsFuel s) s v vis1 [] none
          with ⟨f2, vis2, p2, s2⟩
        cases f2
        · have hfail2 := dfs_fail u v (dfsFuel s) s v vis1 [] none
            (fun _ => rfl) (by rw [hd2])
          rw [hd2] at hfail2
          obtain ⟨hs2, -⟩ := hfail2
          simp only at hs2 ⊢
          rw [hs2]
          exact ⟨rfl, rfl, rfl, List.Perm.refl _, hWf, fun h => h⟩
        · obtain ⟨w, hwu, hwv, hdegw, hK1, hL1, hnodes1, hperm1, hWf1, hdeg1⟩ :=
            dfs_top u v (dfsFuel s) s v vis1 hWf (Or.inr rfl) (by rw [hd2])
          rw [hd2] at hK1 hL1 hnodes1 hperm1 hWf1 hdeg1
          simp only at hK1 hL1 hnodes1 hperm1 hWf1 hdeg1 ⊢
          obtain ⟨iK, iL, inodes, iperm, iWf, iD⟩ := ih s2 hWf1
          refine ⟨iK.trans hK1, iL.trans hL1, inodes.trans hnodes1,
            iperm.trans hperm1, iWf, ?_⟩
          intro hD
          refine iD ?_
          intro x
          have hx := hdeg1 x
          have h2 := hD x
          rw [hK1]
          by_cases hxw : x = w
          · have he : out_degree s x = out_degree s w := by rw [hxw]
            rw [if_pos hxw] at hx
            by_cases hxv : x = v
            · rw [if_pos hxv] at hx
              omega
            · rw [if_neg hxv] at hx
              omega
          · rw [if_neg hxw] at hx
            by_cases hxv : x = v
            · rw [if_pos hxv] at hx
              omega
            · rw [if_neg hxv] at hx
              omega
      · obtain ⟨w, hwu, hwv, hdegw, hK1, hL1, hnodes1, hperm1, hWf1, hdeg1⟩ :=
          dfs_top u v (dfsFuel s) s u (insertVisit (insertVisit [] u) v) hWf
            (Or.inl rfl) (by rw [hd1])
        rw [hd1] at hK1 hL1 hnodes1 hperm1 hWf1 hdeg1
        simp only at hK1 hL1 hnodes1 hperm1 hWf1 hdeg1 ⊢
        obtain ⟨iK, iL, inodes, iperm, iWf, iD⟩ := ih s1 hWf1
        refine ⟨iK.trans hK1, iL.trans hL1, inodes.trans hnodes1,
          iperm.trans hperm1, iWf, ?_⟩
        intro hD
        refine iD ?_
        intro x
        have hx := hdeg1 x
        have h2 := hD x
        rw [hK1]
        by_cases hxw : x = w
        · have he : out_degree s x = out_degree s w := by rw [hxw]
          rw [if_pos hxw] at hx
          by_cases hxu : x = u
          · rw [if_pos hxu] at hx
            omega
          · rw [if_neg hxu] at hx
            omega
        · rw [if_neg hxw] at hx
          by_cases hxu : x = u
          · rw [if_pos hxu] at hx
            omega
          · rw [if_neg hxu] at hx
            omega
    · rw [if_neg hcond]
      exact ⟨rfl, rfl, rfl, List.Perm.refl _, hWf, fun h => h⟩

/-! ### Invariant preservation by the public pebble operations -/

theorem fundamental_circuit_eq (s : PebbleDiGraph) (u v : ℕ) :
    fundamental_circuit s u v =
      if ¬ hasNode s u then .error "ValueError: vertex u is not present"
      else if ¬ hasNode s v then .error "ValueError: vertex v is not present"
      else if out_degree (circuitLoop u v (circuitFuel s u v) s).1 u +
          out_degree (circuitLoop u v (circuitFuel s u v) s).1 v ≤
          maxDegTogether (circuitLoop u v (circuitFuel s u v) s).1 then
        .ok (none, (circuitLoop u v (circuitFuel s u v) s).1)
      else
        .ok (some (circuitLoop u v (circuitFuel s u v) s).2,
          (circuitLoop u v (circuitFuel s u v) s).1) := rfl

theorem fundamental_circuit_pres (s : PebbleDiGraph) (u v : ℕ) (hWf : Wf s) :
    ∀ circ st, fundamental_circuit s u v = .ok (circ, st) →
      st.K = s.K ∧ st.L = s.L ∧ st.nodes = s.nodes ∧
      (supports st.edges).Perm (supports s.edges) ∧ Wf st ∧
      (DegLe s → DegLe st) := by
  intro circ st h
  rw [fundamental_circuit_eq] at h
  split at h
  · exact Except.noConfusion h
  split at h
  · exact Except.noConfusion h
  split at h
  · injection h with h2
    rw [Prod.mk.injEq] at h2
    obtain ⟨-, h4⟩ := h2
    obtain ⟨p1, p2, p3, p4, p5, p6⟩ :=
      circuitLoop_pres u v (circuitFuel s u v) s hWf
    exact h4 ▸ ⟨p1, p2, p3, p4, p5, p6⟩
  · injection h with h2
    rw [Prod.mk.injEq] at h2
    obtain ⟨-, h4⟩ := h2
    obtain ⟨p1, p2, p3, p4, p5, p6⟩ :=
      circuitLoop_pres u v (circuitFuel s u v) s hWf
    exact h4 ▸ ⟨p1, p2, p3, p4, p5, p6⟩

theorem can_add_pres (s : PebbleDiGraph) (u v : ℕ) (hWf : Wf s) :
    ∀ b st, can_add_edge_between_vertices s u v = .ok (b, st) →
      st.K = s.K ∧ st.L = s.L ∧ st.nodes = s.nodes ∧
      (supports st.edges).Perm (supports s.edges) ∧ Wf st ∧
      (DegLe s → DegLe st) := by
  intro b st h
  unfold can_add_edge_between_vertices at h
  rcases hf : fundamental_circuit s u v with err | r
  · rw [hf] at h
    simp [Except.map] at h
  · rw [hf] at h
    simp only [Except.map] at h
    injection h with h2
    rw [Prod.mk.injEq] at h2
    obtain ⟨-, h4⟩ := h2
    have := fundamental_circuit_pres s u v hWf r.1 r.2 (by rw [hf])
    exact h4 ▸ this

theorem can_add_true_cond (s : PebbleDiGraph) (u v : ℕ) :
    ∀ st, can_add_edge_between_vertices s u v = .ok (true, st) →
      out_degree st u + out_degree st v ≤ maxDegTogether st := by
  intro st h
  unfold can_add_edge_between_vertices at h
  rw [fundamental_circuit_eq] at h
  split at h
  · simp [Except.map] at h
  split at h
  · simp [Except.map] at h
  split at h
  · rename_i hcond
    simp only [Except.map, Option.isNone] at h
    injection h with h2
    rw [Prod.mk.injEq] at h2
    obtain ⟨-, h4⟩ := h2
    exact h4 ▸ hcond
  · simp [Except.map, Option.isNone] at h

theorem addDirEdge_Wf (s : PebbleDiGraph) (u v : ℕ) (h : Wf s) :
    Wf (addDirEdge s u v) := by
  intro e he
  rw [addDirEdge_edges] at he
  rcases List.mem_append.1 he with he2 | he2
  · exact ⟨(mem_addDirEdge_nodes s u v e.1).2 (Or.inl (h e he2).1),
      (mem_addDirEdge_nodes s u v e.2).2 (Or.inl (h e he2).2)⟩
  · rw [List.mem_singleton] at he2
    subst he2
    exact ⟨(mem_addDirEdge_nodes s u v u).2 (Or.inr (Or.inl rfl)),
      (mem_addDirEdge_nodes s u v v).2 (Or.inr (Or.inr rfl))⟩

theorem supports_addDirEdge (s : PebbleDiGraph) (u v : ℕ) :
    (supports (addDirEdge s u v).edges).Perm (supp (u, v) :: supports s.edges) := by
  rw [addDirEdge_edges, supports_append]
  exact List.perm_append_singleton _ _

theorem add_edge_spec (s : PebbleDiGraph) (u v : ℕ) (hWf : Wf s)
    (hK : 1 ≤ s.K) (hL : s.L < 2 * s.K) (hD : DegLe s) :
    (add_edge_maintaining_digraph s u v).2.K = s.K ∧
    (add_edge_maintaining_digraph s u v).2.L = s.L ∧
    Wf (add_edge_maintaining_digraph s u v).2 ∧
    DegLe (add_edge_maintaining_digraph s u v).2 ∧
    (supports (add_edge_maintaining_digraph s u v).2.edges).Perm
      (if (add_edge_maintaining_digraph s u v).1 then
        supp (u, v) :: supports s.edges
      else supports s.edges) := by
  unfold add_edge_maintaining_digraph
  by_cases hu : hasNode s u = true
  · rw [if_neg (not_not_intro hu)]
    by_cases hv : hasNode s v = true
    · rw [if_neg (not_not_intro hv)]
      rcases hca : can_add_edge_between_vertices s u v with err | ⟨b, s1⟩
      · exact ⟨rfl, rfl, hWf, hD, List.Perm.refl _⟩
      · obtain ⟨hK1, hL1, hnodes1, hperm1, hWf1, hD1⟩ :=
          can_add_pres s u v hWf b s1 hca
        cases b
        · simp only
          exact ⟨hK1, hL1, hWf1, hD1 hD, hperm1⟩
        · have hcond := can_add_true_cond s u v s1 hca
          have hmd : maxDegTogether s1 = 2 * s.K - s.L - 1 := by
            unfold maxDegTogether
            rw [hK1, hL1]
          rw [hmd] at hcond
          simp only
          by_cases hlt : out_degree s1 u < out_degree s1 v
          · simp only [if_pos hlt]
            refine ⟨(addDirEdge_K s1 u v).trans hK1,
              (addDirEdge_L s1 u v).trans hL1, addDirEdge_Wf s1 u v hWf1, ?_, ?_⟩
            · intro x
              rw [out_degree_addDirEdge, addDirEdge_K, hK1]
              have h2 := hD1 hD x
              rw [hK1] at h2
              by_cases hux : u = x
              · have he : out_degree s1 x = out_degree s1 u := by rw [hux]
                rw [if_pos hux]
                omega
              · rw [if_neg hux]
                omega
            · exact (supports_addDirEdge s1 u v).trans (hperm1.cons _)
          · simp only [if_neg hlt]
            refine ⟨(addDirEdge_K s1 v u).trans hK1,
              (addDirEdge_L s1 v u).trans hL1, addDirEdge_Wf s1 v u hWf1, ?_, ?_⟩
            · intro x
              rw [out_degree_addDirEdge, addDirEdge_K, hK1]
              have h2 := hD1 hD x
              rw [hK1] at h2
              by_cases hvx : v = x
              · have he : out_degree s1 x = out_degree s1 v := by rw [hvx]
                rw [if_pos hvx]
                omega
              · rw [if_neg hvx]
                omega
            · refine (supports_addDirEdge s1 v u).trans ?_
              have hsw : supp (v, u) = supp (u, v) := supp_swap (u, v)
              rw [hsw]
              exact hperm1.cons _
    · rw [if_pos hv]
      have hv2 : v ∉ s.nodes := by simpa [hasNode] using hv
      refine ⟨addDirEdge_K s v u, addDirEdge_L s v u, addDirEdge_Wf s v u hWf,
        ?_, ?_⟩
      · intro x
        rw [out_degree_addDirEdge, addDirEdge_K]
        have h2 := hD x
        have h0 := out_degree_zero_of_not_mem hWf hv2
        by_cases hvx : v = x
        · have he : out_degree s x = out_degree s v := by rw [hvx]
          rw [if_pos hvx]
          omega
        · rw [if_neg hvx]
          omega
      · refine (supports_addDirEdge s v u).trans ?_
        have hsw : supp (v, u) = supp (u, v) := supp_swap (u, v)
        rw [hsw]
        exact List.Perm.refl _
  · rw [if_pos hu]
    have hu2 : u ∉ s.nodes := by simpa [hasNode] using hu
    refine ⟨addDirEdge_K s u v, addDirEdge_L s u v, addDirEdge_Wf s u v hWf,
      ?_, ?_⟩
    · intro x
      rw [out_degree_addDirEdge, addDirEdge_K]
      have h2 := hD x
      have h0 := out_degree_zero_of_not_mem hWf hu2
      by_cases hux : u = x
      · have he : out_degree s x = out_degree s u := by rw [hux]
        rw [if_pos hux]
        omega
      · rw [if_neg hux]
        omega
    · exact supports_addDirEdge s u v

theorem add_edges_pres (es : List (ℕ × ℕ)) : ∀ (s : PebbleDiGraph), Wf s →
    1 ≤ s.K → s.L < 2 * s.K → DegLe s →
    (add_edges_maintaining_digraph s es).K = s.K ∧
    (add_edges_maintaining_digraph s es).L = s.L ∧
    Wf (add_edges_maintaining_digraph s es) ∧
    DegLe (add_edges_maintaining_digraph s es) := by
  induction es with
  | nil =>
    intro s hWf _ _ hD
    exact ⟨rfl, rfl, hWf, hD⟩
  | cons e rest ih =>
    intro s hWf hK hL hD
    obtain ⟨hK1, hL1, hWf1, hD1, -⟩ := add_edge_spec s e.1 e.2 hWf hK hL hD
    have heq : add_edges_maintaining_digraph s (e :: rest) =
        add_edges_maintaining_digraph
          (add_edge_maintaining_digraph s e.1 e.2).2 rest := rfl
    rw [heq]
    obtain ⟨i1, i2, i3, i4⟩ := ih (add_edge_maintaining_digraph s e.1 e.2).2
      hWf1 (by rw [hK1]; exact hK) (by rw [hK1, hL1]; exact hL) hD1
    exact ⟨i1.trans hK1, i2.trans hL1, i3, i4⟩

/-- C3: on a pebble digraph with validated parameters (`K ≥ 1`, `L < 2K`)
whose stored edges join stored nodes and which satisfies the pebble-count
invariant, every public operation — `fundamental_circuit`,
`can_add_edge_between_vertices`, `add_edge_maintaining_digraph` and
`add_edges_maintaining_digraph` — yields a digraph in which every vertex
again has out-degree at most `K`. -/
theorem c3_out_degree_bound (s : PebbleDiGraph) (u v : ℕ) (es : List (ℕ × ℕ))
    (hWf : Wf s) (hK : 1 ≤ s.K) (hL : s.L < 2 * s.K) (hD : DegLe s) :
    (∀ circ st, fundamental_circuit s u v = .ok (circ, st) → DegLe st) ∧
    (∀ b st, can_add_edge_between_vertices s u v = .ok (b, st) → DegLe st) ∧
    DegLe (add_edge_maintaining_digraph s u v).2 ∧
    DegLe (add_edges_maintaining_digraph s es) :=
  ⟨fun circ st h => (fundamental_circuit_pres s u v hWf circ st h).2.2.2.2.2 hD,
    fun b st h => (can_add_pres s u v hWf b st h).2.2.2.2.2 hD,
    (add_edge_spec s u v hWf hK hL hD).2.2.2.1,
    (add_edges_pres es s hWf hK hL hD).2.2.2⟩

theorem c3_out_degree_bound_witness :
    Wf (empty 2 3) ∧ 1 ≤ (empty 2 3).K ∧
    DegLe (add_edges_maintaining_digraph (empty 2 3)
      [(0, 1), (1, 2), (2, 0)]) :=
  ⟨by unfold Wf; decide, by decide,
    (c3_out_degree_bound (empty 2 3) 0 1 [(0, 1), (1, 2), (2, 0)]
      (by unfold Wf; decide)
      (by decide) (by decide) (fun _ => Nat.zero_le _)).2.2.2⟩

/-- C4: on a well-formed pebble digraph whose vertices `u` and `v` are both
present, `fundamental_circuit(u, v)` succeeds and returns a digraph storing
the same multiset of undirected edge supports as before (and the same
nodes), and likewise for `can_add_edge_between_vertices(u, v)`: path
reversal only flips orientations. -/
theorem c4_supports_frame (s : PebbleDiGraph) (u v : ℕ) (hWf : Wf s)
    (hu : hasNode s u = true) (hv : hasNode s v = true) :
    (∃ circ st, fundamental_circuit s u v = .ok (circ, st) ∧
      st.nodes = s.nodes ∧ (supports st.edges).Perm (supports s.edges)) ∧
    (∃ b st, can_add_edge_between_vertices s u v = .ok (b, st) ∧
      st.nodes = s.nodes ∧ (supports st.edges).Perm (supports s.edges)) := by
  obtain ⟨-, -, p3, p4, -, -⟩ := circuitLoop_pres u v (circuitFuel s u v) s hWf
  by_cases hcnd : out_degree (circuitLoop u v (circuitFuel s u v) s).1 u +
      out_degree (circuitLoop u v (circuitFuel s u v) s).1 v ≤
      maxDegTogether (circuitLoop u v (circuitFuel s u v) s).1
  · have hfc : fundamental_circuit s u v =
        .ok (none, (circuitLoop u v (circuitFuel s u v) s).1) := by
      rw [fundamental_circuit_eq, if_neg (not_not_intro hu),
        if_neg (not_not_intro hv), if_pos hcnd]
    refine ⟨⟨none, _, hfc, p3, p4⟩, ⟨true, _, ?_, p3, p4⟩⟩
    unfold can_add_edge_between_vertices
    rw [hfc]
    rfl
  · have hfc : fundamental_circuit s u v =
        .ok (some (circuitLoop u v (circuitFuel s u v) s).2,
          (circuitLoop u v (circuitFuel s u v) s).1) := by
      rw [fundamental_circuit_eq, if_neg (not_not_intro hu),
        if_neg (not_not_intro hv), if_neg hcnd]
    refine ⟨⟨some _, _, hfc, p3, p4⟩, ⟨false, _, ?_, p3, p4⟩⟩
    unfold can_add_edge_between_vertices
    rw [hfc]
    rfl

theorem c4_supports_frame_witness :
    Wf (⟨2, 3, [0, 1], [(0, 1)]⟩ : PebbleDiGraph) ∧
    (∃ b st, can_add_edge_between_vertices ⟨2, 3, [0, 1], [(0, 1)]⟩ 0 1 =
      .ok (b, st) ∧
      st.nodes = (⟨2, 3, [0, 1], [(0, 1)]⟩ : PebbleDiGraph).nodes ∧
      (supports st.edges).Perm
        (supports (⟨2, 3, [0, 1], [(0, 1)]⟩ : PebbleDiGraph).edges)) :=
  ⟨by unfold Wf; decide,
    (c4_supports_frame ⟨2, 3, [0, 1], [(0, 1)]⟩ 0 1 (by unfold Wf; decide)
    (by decide) (by decide)).2⟩

/-! ### DFS lemmas, stage 5: failed searches saturate the visited set -/

theorem countP_strict_mono : ∀ (l : List ℕ) (p q : ℕ → Bool),
    (∀ x ∈ l, q x = true → p x = true) →
    ∀ a ∈ l, p a = true → q a = false → l.countP q < l.countP p := by
  intro l
  induction l with
  | nil =>
    intro p q _ a ha
    cases ha
  | cons x rest ih =>
    intro p q hpq a ha hpa hqa
    rw [List.countP_cons, List.countP_cons]
    rcases List.mem_cons.1 ha with rfl | ha2
    · have hle : rest.countP q ≤ rest.countP p :=
        List.countP_mono_left (fun b hb => hpq b (List.mem_cons_of_mem _ hb))
      rw [hqa, hpa]
      simp
      omega
    · have hlt := ih p q (fun b hb => hpq b (List.mem_cons_of_mem _ hb))
        a ha2 hpa hqa
      have hif : (if q x = true then 1 else 0) ≤ (if p x = true then 1 else 0) := by
        by_cases hqx : q x = true
        · rw [if_pos hqx, if_pos (hpq x (List.mem_cons_self _ _) hqx)]
        · rw [if_neg hqx]
          omega
      omega

theorem unvis_mono (s : PebbleDiGraph) {vis vis' : List ℕ} (h : vis ⊆ vis') :
    unvis s vis' ≤ unvis s vis := by
  unfold unvis
  rw [← List.countP_eq_length_filter, ← List.countP_eq_length_filter]
  refine List.countP_mono_left ?_
  intro a _ ha
  simp only [decide_eq_true_eq] at ha ⊢
  exact fun hmem => ha (h hmem)

theorem unvis_insert_lt (s : PebbleDiGraph) {vis : List ℕ} {y : ℕ}
    (hy : y ∈ s.nodes) (hvy : y ∉ vis) :
    unvis s (insertVisit vis y) < unvis s vis := by
  unfold unvis
  rw [← List.countP_eq_length_filter, ← List.countP_eq_length_filter]
  refine countP_strict_mono s.nodes _ _ ?_ y hy ?_ ?_
  · intro x _ hx
    simp only [decide_eq_true_eq] at hx ⊢
    exact fun hmem => hx (subset_insertVisit vis y hmem)
  · simpa using hvy
  · simpa using self_mem_insertVisit vis y

theorem Processed_mono {s : PebbleDiGraph} {u v x : ℕ} {T T' : List ℕ}
    (h : Processed s u v x T) (hT : T ⊆ T') : Processed s u v x T' :=
  ⟨h.1, fun e he h1 => hT (h.2 e he h1)⟩

theorem dfsLoop_fail_spec (u v N : ℕ)
    (dfsF : PebbleDiGraph → ℕ → List ℕ → List (ℕ × ℕ) → Option (ℕ × ℕ) →
      DfsResult)
    (hFfail : ∀ s vtx vis p e, (dfsF s vtx vis p (some e)).1 = false →
      (dfsF s vtx vis p (some e)).2.2.2 = s ∧
      (dfsF s vtx vis p (some e)).2.2.1 = p)
    (hFvis : ∀ s vtx vis p e, Wf s → vtx ∈ s.nodes →
      vis ⊆ (dfsF s vtx vis p (some e)).2.1 ∧
      (vis.Nodup → (dfsF s vtx vis p (some e)).2.1.Nodup) ∧
      (∀ x ∈ (dfsF s vtx vis p (some e)).2.1, x ∈ vis ∨ x ∈ s.nodes))
    (hFspec : ∀ s vtx vis p e, Wf s → vtx ∈ s.nodes →
      unvis s (insertVisit vis vtx) < N →
      (dfsF s vtx vis p (some e)).1 = false →
      vtx ∈ (dfsF s vtx vis p (some e)).2.1 ∧
      (∀ x ∈ (dfsF s vtx vis p (some e)).2.1, x ∉ vis →
        Processed s u v x (dfsF s vtx vis p (some e)).2.1) ∧
      Processed s u v vtx (dfsF s vtx vis p (some e)).2.1) :
    ∀ (es : List (ℕ × ℕ)) (s : PebbleDiGraph) (visited : List ℕ)
      (ep : List (ℕ × ℕ)),
      Wf s → (∀ f ∈ es, f ∈ s.edges) → unvis s visited ≤ N →
      (dfsLoop dfsF s es visited ep).1 = false →
      (∀ f ∈ es, f.2 ∈ (dfsLoop dfsF s es visited ep).2.1) ∧
      (∀ x ∈ (dfsLoop dfsF s es visited ep).2.1, x ∉ visited →
        Processed s u v x (dfsLoop dfsF s es visited ep).2.1) := by
  intro es
  induction es with
  | nil =>
    intro s visited ep _ _ _ _
    refine ⟨fun f hf => absurd hf (List.not_mem_nil f), ?_⟩
    intro x hx hxv
    exact absurd hx hxv
  | cons e rest ih =>
    intro s visited ep hWf hes hunv hfal
    have heS : e ∈ s.edges := hes e (List.mem_cons_self _ _)
    have he2 : e.2 ∈ s.nodes := (hWf e heS).2
    have hrest : ∀ f ∈ rest, f ∈ s.edges :=
      fun f hf => hes f (List.mem_cons_of_mem _ hf)
    by_cases hmem : e.2 ∈ visited
    · rw [dfsLoop_cons, if_pos hmem] at hfal ⊢
      obtain ⟨ihh, ihp⟩ := ih s visited ep hWf hrest hunv hfal
      have hsub := (dfsLoop_visited dfsF hFfail
        (fun s2 vtx vis2 p2 e2 hWf2 hv2 => hFvis s2 vtx vis2 p2 e2 hWf2 hv2)
        rest s visited ep hWf hrest).1
      refine ⟨?_, ihp⟩
      intro f hf
      rcases List.mem_cons.1 hf with rfl | hf2
      · exact hsub hmem
      · exact ihh f hf2
    · rcases hc : dfsF s e.2 visited ep (some e) with ⟨found, vis, p, st⟩
      rw [dfsLoop_cons, if_neg hmem, hc] at hfal ⊢
      cases found
      · have hfail := hFfail s e.2 visited ep e (by rw [hc])
        rw [hc] at hfail
        obtain ⟨hst, hp⟩ := hfail
        simp only at hst hp hfal ⊢
        rw [hst, hp] at hfal ⊢
        have hadq : unvis s (insertVisit visited e.2) < N :=
          lt_of_lt_of_le (unvis_insert_lt s he2 hmem) hunv
        have hchild := hFspec s e.2 visited ep e hWf he2 hadq (by rw [hc])
        rw [hc] at hchild
        simp only at hchild
        obtain ⟨hcroot, hcblanket, hcproc⟩ := hchild
        have hsubc := (hFvis s e.2 visited ep e hWf he2).1
        rw [hc] at hsubc
        simp only at hsubc
        have hunv2 : unvis s vis ≤ N := le_trans (unvis_mono s hsubc) hunv
        obtain ⟨ihh, ihp⟩ := ih s vis ep hWf hrest hunv2 hfal
        have hsubr := (dfsLoop_visited dfsF hFfail
          (fun s2 vtx vis2 p2 e2 hWf2 hv2 => hFvis s2 vtx vis2 p2 e2 hWf2 hv2)
          rest s vis ep hWf hrest).1
        refine ⟨?_, ?_⟩
        · intro f hf
          rcases List.mem_cons.1 hf with rfl | hf2
          · exact hsubr hcroot
          · exact ihh f hf2
        · intro x hx hxv
          by_cases hxc : x ∈ vis
          · exact Processed_mono (hcblanket x hxc hxv) hsubr
          · exact ihp x hx hxc
      · simp only at hfal
        exact Bool.noConfusion hfal

theorem dfs_fail_spec (u v : ℕ) : ∀ (fuel : ℕ) (s : PebbleDiGraph)
    (vertex : ℕ) (visited : List ℕ) (ep : List (ℕ × ℕ))
    (ce : Option (ℕ × ℕ)),
    Wf s → vertex ∈ s.nodes →
    unvis s (insertVisit visited vertex) < fuel →
    (dfs u v fuel s vertex visited ep ce).1 = false →
    vertex ∈ (dfs u v fuel s vertex visited ep ce).2.1 ∧
    (∀ x ∈ (dfs u v fuel s vertex visited ep ce).2.1, x ∉ visited →
      Processed s u v x (dfs u v fuel s vertex visited ep ce).2.1) ∧
    Processed s u v vertex (dfs u v fuel s vertex visited ep ce).2.1 := by
  intro fuel
  induction fuel with
  | zero =>
    intro s vertex visited ep ce _ _ hadq _
    exact absurd hadq (Nat.not_lt_zero _)
  | succ fuel ih =>
    intro s vertex visited ep ce hWf hv hadq hfal
    by_cases hcrit : vertex ≠ u ∧ vertex ≠ v ∧ out_degree s vertex < s.K
    · rw [dfs_succ_eq, if_pos hcrit] at hfal
      exact Bool.noConfusion hfal
    · have hcrit2 : vertex = u ∨ vertex = v ∨ s.K ≤ out_degree s vertex := by
        by_cases h1 : vertex = u
        · exact Or.inl h1
        by_cases h2 : vertex = v
        · exact Or.inr (Or.inl h2)
        refine Or.inr (Or.inr ?_)
        by_cases h3 : out_degree s vertex < s.K
        · exact absurd ⟨h1, h2, h3⟩ hcrit
        · omega
      rcases hL : dfsLoop (dfs u v fuel) s (outEdges s vertex)
          (insertVisit visited vertex) (ep ++ ce.toList)
        with ⟨found, vis, p, st⟩
      rw [dfs_succ_eq, if_neg hcrit, hL] at hfal ⊢
      cases found
      · simp only at hfal ⊢
        have hloop := dfsLoop_fail_spec u v fuel (dfs u v fuel)
          (fun s2 vtx vis2 p2 e hh =>
            dfs_fail u v fuel s2 vtx vis2 p2 (some e)
              (by intro hcon; cases hcon) hh)
          (fun s2 vtx vis2 p2 e hWf2 hv2 =>
            dfs_visited u v fuel s2 vtx vis2 p2 (some e) hWf2 hv2)
          (fun s2 vtx vis2 p2 e hWf2 hv2 hadq2 hh =>
            ih s2 vtx vis2 p2 (some e) hWf2 hv2 hadq2 hh)
          (outEdges s vertex) s (insertVisit visited vertex)
          (ep ++ ce.toList) hWf (fun f hf => List.mem_of_mem_filter hf)
          (Nat.lt_succ_iff.1 hadq) (by rw [hL])
        rw [hL] at hloop
        simp only at hloop
        obtain ⟨hheads, hblanket⟩ := hloop
        have hsub := (dfsLoop_visited (dfs u v fuel)
          (fun s2 vtx vis2 p2 e hh =>
            dfs_fail u v fuel s2 vtx vis2 p2 (some e)
              (by intro hcon; cases hcon) hh)
          (fun s2 vtx vis2 p2 e hWf2 hv2 =>
            dfs_visited u v fuel s2 vtx vis2 p2 (some e) hWf2 hv2)
          (outEdges s vertex) s (insertVisit visited vertex)
          (ep ++ ce.toList) hWf (fun f hf => List.mem_of_mem_filter hf)).1
        rw [hL] at hsub
        simp only at hsub
        have hvin : vertex ∈ vis := hsub (self_mem_insertVisit visited vertex)
        have hproc : Processed s u v vertex vis := by
          refine ⟨hcrit2, ?_⟩
          intro e he he1
          refine hheads e ?_
          exact List.mem_filter.2 ⟨he, by simpa using he1⟩
        refine ⟨hvin, ?_, hproc⟩
        intro x hx hxv
        by_cases hxvert : x = vertex
        · exact hxvert ▸ hproc
        · refine hblanket x hx ?_
          rw [mem_insertVisit]
          rintro (h1 | h2)
          · exact hxv h1
          · exact hxvert h2
      · simp only at hfal
        exact Bool.noConfusion hfal

/-! ### Break analysis of the pebble-collection loop: a double DFS failure
leaves a closed, saturated visited set -/

theorem unvis_lt_dfsFuel (s : PebbleDiGraph) (vis : List ℕ) :
    unvis s vis < dfsFuel s :=
  Nat.lt_succ_of_le (List.length_filter_le _ _)

theorem circuitLoop_break (u v : ℕ) : ∀ (fuel : ℕ) (s : PebbleDiGraph),
    Wf s → u ∈ s.nodes → v ∈ s.nodes →
    out_degree s u + out_degree s v < fuel →
    maxDegTogether (circuitLoop u v fuel s).1 <
      out_degree (circuitLoop u v fuel s).1 u +
      out_degree (circuitLoop u v fuel s).1 v →
    u ∈ (circuitLoop u v fuel s).2 ∧ v ∈ (circuitLoop u v fuel s).2 ∧
    (circuitLoop u v fuel s).2.Nodup ∧
    (∀ x ∈ (circuitLoop u v fuel s).2, x ∈ (circuitLoop u v fuel s).1.nodes) ∧
    (∀ x ∈ (circuitLoop u v fuel s).2, x = u ∨ x = v ∨
      (circuitLoop u v fuel s).1.K ≤ out_degree (circuitLoop u v fuel s).1 x) ∧
    (∀ e ∈ (circuitLoop u v fuel s).1.edges,
      e.1 ∈ (circuitLoop u v fuel s).2 → e.2 ∈ (circuitLoop u v fuel s).2) := by
  intro fuel
  induction fuel with
  | zero =>
    intro s _ _ _ hadq
    exact absurd hadq (Nat.not_lt_zero _)
  | succ fuel ih =>
    intro s hWf hu hv hadq hviol
    rw [circuitLoop_succ] at hviol ⊢
    by_cases hcond : out_degree s u + out_degree s v > maxDegTogether s
    · rw [if_pos hcond] at hviol ⊢
      rcases hd1 : dfs u v (dfsFuel s) s u (insertVisit (insertVisit [] u) v)
          [] none with ⟨f1, vis1, p1, s1⟩
      cases f1
      · have hfail := dfs_fail u v (dfsFuel s) s u
          (insertVisit (insertVisit [] u) v) [] none (fun _ => rfl)
          (by rw [hd1])
        rw [hd1] at hfail
        obtain ⟨hs1, -⟩ := hfail
        simp only at hs1
        rw [hd1] at hviol
        simp only at hviol ⊢
        rw [hs1] at hviol ⊢
        rcases hd2 : dfs u v (dfsFuel s) s v vis1 [] none
          with ⟨f2, vis2, p2, s2⟩
        cases f2
        · -- double failure: the break case
          have hfail2 := dfs_fail u v (dfsFuel s) s v vis1 [] none
            (fun _ => rfl) (by rw [hd2])
          rw [hd2] at hfail2
          obtain ⟨hs2, -⟩ := hfail2
          simp only at hs2
          rw [hd2] at hviol
          simp only at hviol ⊢
          rw [hs2] at hviol ⊢
          have hspec1 := dfs_fail_spec u v (dfsFuel s) s u
            (insertVisit (insertVisit [] u) v) [] none hWf hu
            (unvis_lt_dfsFuel s _) (by rw [hd1])
          rw [hd1] at hspec1
          simp only at hspec1
          obtain ⟨hroot1, hblanket1, hproc1⟩ := hspec1
          have hspec2 := dfs_fail_spec u v (dfsFuel s) s v vis1 [] none hWf hv
            (unvis_lt_dfsFuel s _) (by rw [hd2])
          rw [hd2] at hspec2
          simp only at hspec2
          obtain ⟨hroot2, hblanket2, hproc2⟩ := hspec2
          have hvis1 := dfs_visited u v (dfsFuel s) s u
            (insertVisit (insertVisit [] u) v) [] none hWf hu
          rw [hd1] at hvis1
          simp only at hvis1
          obtain ⟨hsub1, hnd1, hprov1⟩ := hvis1
          have hvis2 := dfs_visited u v (dfsFuel s) s v vis1 [] none hWf hv
          rw [hd2] at hvis2
          simp only at hvis2
          obtain ⟨hsub2, hnd2, hprov2⟩ := hvis2
          have hmem0 : ∀ x ∈ insertVisit (insertVisit [] u) v,
              x = u ∨ x = v := by
            intro x hx
            rcases (mem_insertVisit _ _ _).1 hx with hx2 | hx2
            · rcases (mem_insertVisit _ _ _).1 hx2 with hx3 | hx3
              · cases hx3
              · exact Or.inl hx3
            · exact Or.inr hx2
          have hnd0 : (insertVisit (insertVisit [] u) v).Nodup :=
            insertVisit_nodup _ (insertVisit_nodup _ List.nodup_nil)
          have huvis2 : u ∈ vis2 := hsub2 hroot1
          refine ⟨huvis2, hroot2, hnd2 (hnd1 hnd0), ?_, ?_, ?_⟩
          · intro x hx
            rcases hprov2 x hx with hx2 | hx2
            · rcases hprov1 x hx2 with hx3 | hx3
              · rcases hmem0 x hx3 with rfl | rfl
                · exact hu
                · exact hv
              · exact hx3
            · exact hx2
          · intro x hx
            by_cases hx1 : x ∈ vis1
            · by_cases hx0 : x ∈ insertVisit (insertVisit [] u) v
              · rcases hmem0 x hx0 with rfl | rfl
                · exact Or.inl rfl
                · exact Or.inr (Or.inl rfl)
              · exact (hblanket1 x hx1 hx0).1
            · exact (hblanket2 x hx hx1).1
          · intro e he he1
            by_cases hx1 : e.1 ∈ vis1
            · by_cases hx0 : e.1 ∈ insertVisit (insertVisit [] u) v
              · rcases hmem0 e.1 hx0 with heu | hev
                · exact hsub2 (hproc1.2 e he heu)
                · exact hproc2.2 e he hev
              · exact hsub2 ((hblanket1 e.1 hx1 hx0).2 e he rfl)
            · exact (hblanket2 e.1 he1 hx1).2 e he rfl
        · -- second DFS succeeded: recurse with a strictly smaller pebble sum
          obtain ⟨w, hwu, hwv, -, hK1, -, hnodes1, -, hWf1, hdeg1⟩ :=
            dfs_top u v (dfsFuel s) s v vis1 hWf (Or.inr rfl) (by rw [hd2])
          rw [hd2] at hK1 hnodes1 hWf1 hdeg1
          rw [hd2] at hviol
          simp only at hK1 hnodes1 hWf1 hdeg1 hviol ⊢
          have hxu := hdeg1 u
          have hxv := hdeg1 v
          rw [if_pos rfl] at hxv
          rw [if_neg (show ¬(v = w) from fun h => hwv h.symm)] at hxv
          rw [if_neg (show ¬(u = w) from fun h => hwu h.symm)] at hxu
          have hsum : out_degree s2 u + out_degree s2 v <
              out_degree s u + out_degree s v := by
            by_cases huv : u = v
            · have e1 : out_degree s2 u = out_degree s2 v := by rw [huv]
              have e2 : out_degree s u = out_degree s v := by rw [huv]
              omega
            · rw [if_neg huv] at hxu
              omega
          exact ih s2 hWf1 (hnodes1 ▸ hu) (hnodes1 ▸ hv) (by omega) hviol
      · -- first DFS succeeded: recurse with a strictly smaller pebble sum
        obtain ⟨w, hwu, hwv, -, hK1, -, hnodes1, -, hWf1, hdeg1⟩ :=
          dfs_top u v (dfsFuel s) s u (insertVisit (insertVisit [] u) v) hWf
            (Or.inl rfl) (by rw [hd1])
        rw [hd1] at hK1 hnodes1 hWf1 hdeg1
        rw [hd1] at hviol
        simp only at hK1 hnodes1 hWf1 hdeg1 hviol ⊢
        have hxu := hdeg1 u
        have hxv := hdeg1 v
        rw [if_pos rfl] at hxu
        rw [if_neg (show ¬(u = w) from fun h => hwu h.symm)] at hxu
        rw [if_neg (show ¬(v = w) from fun h => hwv h.symm)] at hxv
        have hsum : out_degree s1 u + out_degree s1 v <
            out_degree s u + out_degree s v := by
          by_cases hvu : v = u
          · have e1 : out_degree s1 v = out_degree s1 u := by rw [hvu]
            have e2 : out_degree s v = out_degree s u := by rw [hvu]
            omega
          · rw [if_neg hvu] at hxv
            omega
        exact ih s1 hWf1 (hnodes1 ▸ hu) (hnodes1 ▸ hv) (by omega) hviol
    · rw [if_neg hcond] at hviol
      exact absurd hviol hcond

theorem fundamental_circuit_break (s : PebbleDiGraph) (u v : ℕ)
    (hWf : Wf s) :
    ∀ Vis st, fundamental_circuit s u v = .ok (some Vis, st) →
      st.K = s.K ∧ st.L = s.L ∧ st.nodes = s.nodes ∧
      (supports st.edges).Perm (supports s.edges) ∧ Wf st ∧
      maxDegTogether st < out_degree st u + out_degree st v ∧
      u ∈ Vis ∧ v ∈ Vis ∧ Vis.Nodup ∧ (∀ x ∈ Vis, x ∈ st.nodes) ∧
      (∀ x ∈ Vis, x = u ∨ x = v ∨ st.K ≤ out_degree st x) ∧
      (∀ e ∈ st.edges, e.1 ∈ Vis → e.2 ∈ Vis) := by
  intro Vis st h
  rw [fundamental_circuit_eq] at h
  split at h
  · exact Except.noConfusion h
  split at h
  · exact Except.noConfusion h
  split at h
  · injection h with h2
    rw [Prod.mk.injEq] at h2
    exact absurd h2.1 (Option.noConfusion)
  · rename_i hnu hnv hcnd
    injection h with h2
    rw [Prod.mk.injEq] at h2
    obtain ⟨h3, h4⟩ := h2
    injection h3 with h5
    have hu : u ∈ s.nodes := by simpa [hasNode] using not_not.1 hnu
    have hv : v ∈ s.nodes := by simpa [hasNode] using not_not.1 hnv
    have hviol : maxDegTogether (circuitLoop u v (circuitFuel s u v) s).1 <
        out_degree (circuitLoop u v (circuitFuel s u v) s).1 u +
        out_degree (circuitLoop u v (circuitFuel s u v) s).1 v :=
      Nat.not_le.1 hcnd
    obtain ⟨p1, p2, p3, p4, p5, -⟩ :=
      circuitLoop_pres u v (circuitFuel s u v) s hWf
    obtain ⟨b1, b2, b3, b4, b5, b6⟩ :=
      circuitLoop_break u v (circuitFuel s u v) s hWf hu hv
        (Nat.lt_succ_self _) hviol
    subst h4
    subst h5
    exact ⟨p1, p2, p3, p4, p5, hviol, b1, b2, b3, b4, b5, b6⟩

/-! ### Counting lemmas for spanned edges and out-degree sums -/

theorem spanCount_countP (es : List (ℕ × ℕ)) (S : List ℕ) :
    Graph.spanCount es S =
      es.countP (fun e => decide (e.1 ∈ S) && decide (e.2 ∈ S)) :=
  (List.countP_eq_length_filter _ _).symm

theorem spanCount_cons (e : ℕ × ℕ) (es : List (ℕ × ℕ)) (S : List ℕ) :
    Graph.spanCount (e :: es) S =
      Graph.spanCount es S + (if e.1 ∈ S ∧ e.2 ∈ S then 1 else 0) := by
  rw [spanCount_countP, spanCount_countP, List.countP_cons]
  by_cases h1 : e.1 ∈ S <;> by_cases h2 : e.2 ∈ S <;> simp [h1, h2]

theorem spanCount_append (l1 l2 : List (ℕ × ℕ)) (S : List ℕ) :
    Graph.spanCount (l1 ++ l2) S =
      Graph.spanCount l1 S + Graph.spanCount l2 S := by
  rw [spanCount_countP, spanCount_countP, spanCount_countP,
    List.countP_append]

theorem spanCount_single (a b : ℕ) (S : List ℕ) :
    Graph.spanCount [(a, b)] S = if a ∈ S ∧ b ∈ S then 1 else 0 := by
  rw [spanCount_countP]
  by_cases h1 : a ∈ S <;> by_cases h2 : b ∈ S <;>
    simp [List.countP_cons, h1, h2]

theorem spanCount_sublist_le {l1 l2 : List (ℕ × ℕ)} (h : l1.Sublist l2)
    (S : List ℕ) : Graph.spanCount l1 S ≤ Graph.spanCount l2 S := by
  rw [spanCount_countP, spanCount_countP]
  exact h.countP_le _

theorem spanCount_congr_mem {S S' : List ℕ} (h : ∀ x, x ∈ S ↔ x ∈ S')
    (es : List (ℕ × ℕ)) : Graph.spanCount es S = Graph.spanCount es S' := by
  rw [spanCount_countP, spanCount_countP]
  refine List.countP_congr ?_
  intro e _
  rw [decide_eq_decide.2 (h e.1), decide_eq_decide.2 (h e.2)]

theorem mem_supp_iff (e : ℕ × ℕ) (S : List ℕ) :
    (supp e).1 ∈ S ∧ (supp e).2 ∈ S ↔ e.1 ∈ S ∧ e.2 ∈ S := by
  unfold supp
  rcases le_total e.1 e.2 with h | h
  · rw [min_eq_left h, max_eq_right h]
  · rw [min_eq_right h, max_eq_left h]
    exact And.comm

theorem spanCount_supports (es : List (ℕ × ℕ)) (S : List ℕ) :
    Graph.spanCount es S =
      (supports es).countP (fun p => decide (p.1 ∈ S) && decide (p.2 ∈ S)) := by
  rw [spanCount_countP]
  unfold supports
  rw [List.countP_map]
  refine (List.countP_congr ?_).symm
  intro e _
  show ((fun p => decide (p.1 ∈ S) && decide (p.2 ∈ S)) ∘ supp) e = true ↔
    (decide (e.1 ∈ S) && decide (e.2 ∈ S)) = true
  simp only [Function.comp_apply, Bool.and_eq_true, decide_eq_true_eq]
  exact mem_supp_iff e S

theorem spanCount_eq_of_supports_perm {l1 l2 : List (ℕ × ℕ)}
    (h : (supports l1).Perm (supports l2)) (S : List ℕ) :
    Graph.spanCount l1 S = Graph.spanCount l2 S := by
  rw [spanCount_supports, spanCount_supports]
  exact h.countP_eq _

theorem indicator_sum (a : ℕ) : ∀ (S : List ℕ), S.Nodup →
    (S.map (fun x => if a = x then 1 else 0)).sum = if a ∈ S then 1 else 0 := by
  intro S
  induction S with
  | nil => simp
  | cons x rest ih =>
    intro h
    obtain ⟨hx, h2⟩ := List.nodup_cons.1 h
    rw [List.map_cons, List.sum_cons, ih h2]
    by_cases hax : a = x
    · subst hax
      rw [if_pos rfl, if_neg hx, if_pos (List.mem_cons_self _ _)]
    · rw [if_neg hax]
      by_cases har : a ∈ rest
      · rw [if_pos har, if_pos (List.mem_cons_of_mem _ har)]
      · rw [if_neg har, if_neg (by
          intro hc
          rcases List.mem_cons.1 hc with h3 | h3
          · exact hax h3
          · exact har h3)]

theorem sum_map_add (f g : ℕ → ℕ) : ∀ (S : List ℕ),
    (S.map (fun x => f x + g x)).sum = (S.map f).sum + (S.map g).sum := by
  intro S
  induction S with
  | nil => simp
  | cons x rest ih =>
    simp only [List.map_cons, List.sum_cons, ih]
    omega

theorem tail_count_sum : ∀ (es : List (ℕ × ℕ)) (S : List ℕ), S.Nodup →
    (S.map (fun x => es.countP (fun e => decide (e.1 = x)))).sum =
      es.countP (fun e => decide (e.1 ∈ S)) := by
  intro es
  induction es with
  | nil =>
    intro S _
    have hmap : S.map (fun x => List.countP (fun e => decide (e.1 = x)) ([] : List (ℕ × ℕ))) =
        S.map (fun _ => 0) :=
      List.map_congr_left (fun x _ => List.countP_nil _)
    rw [hmap, List.countP_nil]
    simp
  | cons e rest ih =>
    intro S hS
    have hstep : ∀ x : ℕ,
        (e :: rest).countP (fun f => decide (f.1 = x)) =
          rest.countP (fun f => decide (f.1 = x)) +
            (if e.1 = x then 1 else 0) := by
      intro x
      rw [List.countP_cons]
      by_cases hx : e.1 = x <;> simp [hx]
    have hmap : S.map (fun x => (e :: rest).countP (fun f => decide (f.1 = x))) =
        S.map (fun x => rest.countP (fun f => decide (f.1 = x)) +
          (if e.1 = x then 1 else 0)) := by
      refine List.map_congr_left ?_
      intro x _
      exact hstep x
    rw [hmap, sum_map_add, ih S hS, indicator_sum e.1 S hS, List.countP_cons]
    by_cases hx : e.1 ∈ S <;> simp [hx]

theorem degSum_eq_tail_count (σ : PebbleDiGraph) (S : List ℕ) (hS : S.Nodup) :
    (S.map (out_degree σ)).sum =
      σ.edges.countP (fun e => decide (e.1 ∈ S)) := by
  have hmap : S.map (out_degree σ) =
      S.map (fun x => σ.edges.countP (fun e => decide (e.1 = x))) := by
    refine List.map_congr_left ?_
    intro x _
    exact out_degree_filter σ x
  rw [hmap, tail_count_sum σ.edges S hS]

theorem spanCount_le_degSum (σ : PebbleDiGraph) (S : List ℕ) (hS : S.Nodup) :
    Graph.spanCount σ.edges S ≤ (S.map (out_degree σ)).sum := by
  rw [degSum_eq_tail_count σ S hS, spanCount_countP]
  refine List.countP_mono_left ?_
  intro e _ he
  simp only [Bool.and_eq_true, decide_eq_true_eq] at he ⊢
  exact he.1

theorem spanCount_eq_degSum_of_closed (σ : PebbleDiGraph) (S : List ℕ)
    (hS : S.Nodup) (hcl : ∀ e ∈ σ.edges, e.1 ∈ S → e.2 ∈ S) :
    Graph.spanCount σ.edges S = (S.map (out_degree σ)).sum := by
  rw [degSum_eq_tail_count σ S hS, spanCount_countP]
  refine List.countP_congr ?_
  intro e he
  by_cases h1 : e.1 ∈ S
  · simp [h1, hcl e he h1]
  · simp [h1]

theorem sum_le_card_mul (K : ℕ) (f : ℕ → ℕ) : ∀ (S : List ℕ),
    (∀ x ∈ S, f x ≤ K) → (S.map f).sum ≤ K * S.length := by
  intro S
  induction S with
  | nil =>
    intro _
    simp
  | cons x rest ih =>
    intro h
    rw [List.map_cons, List.sum_cons, List.length_cons, Nat.mul_succ]
    have h1 := h x (List.mem_cons_self _ _)
    have h2 := ih (fun y hy => h y (List.mem_cons_of_mem _ hy))
    omega

theorem card_mul_le_sum (K : ℕ) (f : ℕ → ℕ) : ∀ (S : List ℕ),
    (∀ x ∈ S, K ≤ f x) → K * S.length ≤ (S.map f).sum := by
  intro S
  induction S with
  | nil =>
    intro _
    simp
  | cons x rest ih =>
    intro h
    rw [List.map_cons, List.sum_cons, List.length_cons, Nat.mul_succ]
    have h1 := h x (List.mem_cons_self _ _)
    have h2 := ih (fun y hy => h y (List.mem_cons_of_mem _ hy))
    omega

theorem two_le_length_of_mem {S : List ℕ} {u v : ℕ} (hu : u ∈ S) (hv : v ∈ S)
    (huv : u ≠ v) : 2 ≤ S.length := by
  have hperm := List.perm_cons_erase hu
  have hv2 : v ∈ S.erase u := (List.mem_erase_of_ne (fun h => huv h.symm)).2 hv
  have hlen := hperm.length_eq
  have hpos : 1 ≤ (S.erase u).length := List.length_pos.2 (fun h => by
    rw [h] at hv2
    cases hv2)
  simp only [List.length_cons] at hlen
  omega

theorem perm_two_extract {S : List ℕ} {u v : ℕ} (hS : S.Nodup) (hu : u ∈ S)
    (hv : v ∈ S) (huv : u ≠ v) :
    ∃ T : List ℕ, S.Perm (u :: v :: T) ∧ T.length = S.length - 2 ∧
      ∀ x ∈ T, x ∈ S ∧ x ≠ u ∧ x ≠ v := by
  refine ⟨(S.erase u).erase v, ?_, ?_, ?_⟩
  · have h1 := List.perm_cons_erase hu
    have hv2 : v ∈ S.erase u := (List.mem_erase_of_ne (fun h => huv h.symm)).2 hv
    have h2 := List.perm_cons_erase hv2
    exact h1.trans (h2.cons u)
  · have hv2 : v ∈ S.erase u := (List.mem_erase_of_ne (fun h => huv h.symm)).2 hv
    rw [List.length_erase_of_mem hv2, List.length_erase_of_mem hu]
    omega
  · intro x hx
    have hnd1 : (S.erase u).Nodup := hS.erase u
    have hx1 : x ∈ S.erase u := ((hnd1.mem_erase_iff).1 hx).2
    have hxv : x ≠ v := ((hnd1.mem_erase_iff).1 hx).1
    have hxu : x ≠ u := ((hS.mem_erase_iff).1 hx1).1
    exact ⟨((hS.mem_erase_iff).1 hx1).2, hxu, hxv⟩

theorem degSum_upper (σ : PebbleDiGraph) (S : List ℕ) {u v : ℕ}
    (hS : S.Nodup) (hu : u ∈ S) (hv : v ∈ S) (huv : u ≠ v)
    (hD : DegLe σ) :
    (S.map (out_degree σ)).sum ≤
      out_degree σ u + out_degree σ v + σ.K * (S.length - 2) := by
  obtain ⟨T, hperm, hlen, hT⟩ := perm_two_extract hS hu hv huv
  have hsum : (S.map (out_degree σ)).sum =
      ((u :: v :: T).map (out_degree σ)).sum :=
    (hperm.map (out_degree σ)).sum_eq
  rw [hsum, List.map_cons, List.map_cons, List.sum_cons, List.sum_cons, ← hlen]
  have := sum_le_card_mul σ.K (out_degree σ) T (fun x _ => hD x)
  omega

theorem degSum_lower (σ : PebbleDiGraph) (S : List ℕ) {u v : ℕ}
    (hS : S.Nodup) (hu : u ∈ S) (hv : v ∈ S) (huv : u ≠ v)
    (hcrit : ∀ x ∈ S, x = u ∨ x = v ∨ σ.K ≤ out_degree σ x) :
    out_degree σ u + out_degree σ v + σ.K * (S.length - 2) ≤
      (S.map (out_degree σ)).sum := by
  obtain ⟨T, hperm, hlen, hT⟩ := perm_two_extract hS hu hv huv
  have hsum : (S.map (out_degree σ)).sum =
      ((u :: v :: T).map (out_degree σ)).sum :=
    (hperm.map (out_degree σ)).sum_eq
  rw [hsum, List.map_cons, List.map_cons, List.sum_cons, List.sum_cons, ← hlen]
  have hTK : ∀ x ∈ T, σ.K ≤ out_degree σ x := by
    intro x hx
    obtain ⟨hxS, hxu, hxv⟩ := hT x hx
    rcases hcrit x hxS with h | h | h
    · exact absurd h hxu
    · exact absurd h hxv
    · exact h
  have := card_mul_le_sum σ.K (out_degree σ) T hTK
  omega

theorem spanCount_erase_fresh (σ : PebbleDiGraph) (S : List ℕ) {w : ℕ}
    (hWf : Wf σ) (hw : w ∉ σ.nodes) :
    Graph.spanCount σ.edges S = Graph.spanCount σ.edges (S.erase w) := by
  rw [spanCount_countP, spanCount_countP]
  refine List.countP_congr ?_
  intro e he
  have h1 : e.1 ≠ w := fun h => hw (h ▸ (hWf e he).1)
  have h2 : e.2 ≠ w := fun h => hw (h ▸ (hWf e he).2)
  rw [decide_eq_decide.2 (List.mem_erase_of_ne h1).symm,
    decide_eq_decide.2 (List.mem_erase_of_ne h2).symm]

/-! ### Case analysis of a single `add_edge_maintaining_digraph` call -/

theorem spanCount_addDirEdge (X : PebbleDiGraph) (a b : ℕ) (S : List ℕ) :
    Graph.spanCount (addDirEdge X a b).edges S =
      Graph.spanCount X.edges S + (if a ∈ S ∧ b ∈ S then 1 else 0) := by
  rw [addDirEdge_edges, spanCount_append, spanCount_single]

theorem add_edge_false_elim (σ : PebbleDiGraph) (u v : ℕ)
    (hfal : (add_edge_maintaining_digraph σ u v).1 = false) :
    ∃ Vis, fundamental_circuit σ u v =
      .ok (some Vis, (add_edge_maintaining_digraph σ u v).2) := by
  unfold add_edge_maintaining_digraph at hfal ⊢
  by_cases hu : hasNode σ u = true
  · rw [if_neg (not_not_intro hu)] at hfal ⊢
    by_cases hv : hasNode σ v = true
    · rw [if_neg (not_not_intro hv)] at hfal ⊢
      have hfc := fundamental_circuit_eq σ u v
      rw [if_neg (not_not_intro hu), if_neg (not_not_intro hv)] at hfc
      by_cases hcnd : out_degree (circuitLoop u v (circuitFuel σ u v) σ).1 u +
          out_degree (circuitLoop u v (circuitFuel σ u v) σ).1 v ≤
          maxDegTogether (circuitLoop u v (circuitFuel σ u v) σ).1
      · rw [if_pos hcnd] at hfc
        have hca : can_add_edge_between_vertices σ u v =
            .ok (true, (circuitLoop u v (circuitFuel σ u v) σ).1) := by
          unfold can_add_edge_between_vertices
          rw [hfc]
          rfl
        rw [hca] at hfal
        simp only at hfal
        split at hfal <;> exact Bool.noConfusion hfal
      · rw [if_neg hcnd] at hfc
        have hca : can_add_edge_between_vertices σ u v =
            .ok (false, (circuitLoop u v (circuitFuel σ u v) σ).1) := by
          unfold can_add_edge_between_vertices
          rw [hfc]
          rfl
        rw [hca]
        refine ⟨(circuitLoop u v (circuitFuel σ u v) σ).2, ?_⟩
        simp only
        exact hfc
    · rw [if_pos hv] at hfal
      exact Bool.noConfusion hfal
  · rw [if_pos hu] at hfal
    exact Bool.noConfusion hfal

theorem add_edge_true_cases (σ : PebbleDiGraph) (u v : ℕ)
    (htr : (add_edge_maintaining_digraph σ u v).1 = true) :
    (¬ hasNode σ u = true ∧
      (add_edge_maintaining_digraph σ u v).2 = addDirEdge σ u v) ∨
    (hasNode σ u = true ∧ ¬ hasNode σ v = true ∧
      (add_edge_maintaining_digraph σ u v).2 = addDirEdge σ v u) ∨
    (∃ s1, can_add_edge_between_vertices σ u v = .ok (true, s1) ∧
      ((add_edge_maintaining_digraph σ u v).2 = addDirEdge s1 u v ∨
       (add_edge_maintaining_digraph σ u v).2 = addDirEdge s1 v u)) := by
  by_cases hu : hasNode σ u = true
  · by_cases hv : hasNode σ v = true
    · refine Or.inr (Or.inr ?_)
      have hres : add_edge_maintaining_digraph σ u v =
          match can_add_edge_between_vertices σ u v with
          | .ok (true, s1) =>
            if out_degree s1 u < out_degree s1 v then (true, addDirEdge s1 u v)
            else (true, addDirEdge s1 v u)
          | .ok (false, s1) => (false, s1)
          | .error _ => (false, σ) := by
        unfold add_edge_maintaining_digraph
        rw [if_neg (not_not_intro hu), if_neg (not_not_intro hv)]
      rcases hca : can_add_edge_between_vertices σ u v with err | ⟨b, s1⟩
      · have hfc := fundamental_circuit_eq σ u v
        rw [if_neg (not_not_intro hu), if_neg (not_not_intro hv)] at hfc
        unfold can_add_edge_between_vertices at hca
        rw [hfc] at hca
        split at hca <;> simp [Except.map] at hca
      · rw [hca] at hres
        cases b
        · rw [hres] at htr
          simp only at htr
          exact Bool.noConfusion htr
        · refine ⟨s1, rfl, ?_⟩
          rw [hres]
          by_cases hlt : out_degree s1 u < out_degree s1 v
          · left
            simp [hlt]
          · right
            simp [hlt]
    · refine Or.inr (Or.inl ⟨hu, hv, ?_⟩)
      unfold add_edge_maintaining_digraph
      rw [if_neg (not_not_intro hu), if_pos hv]
  · refine Or.inl ⟨hu, ?_⟩
    unfold add_edge_maintaining_digraph
    rw [if_pos hu]

/-! ### The two key steps of the Lee–Streinu argument: an accepted edge
preserves sparsity of the stored edges, a rejected edge exhibits a violating
vertex set -/

theorem accept_step (σ : PebbleDiGraph) (u v K L : ℕ)
    (hKσ : σ.K = K) (hLσ : σ.L = L) (hWf : Wf σ) (hD : DegLe σ)
    (hSp : SparseList K L σ.edges) (hK : 1 ≤ K) (hL : L < 2 * K)
    (huv : u ≠ v)
    (hacc : (add_edge_maintaining_digraph σ u v).1 = true) :
    SparseList K L (add_edge_maintaining_digraph σ u v).2.edges := by
  intro S hnd hpos
  rcases add_edge_true_cases σ u v hacc with ⟨hu, heq⟩ | ⟨hu, hv, heq⟩ |
    ⟨s1, hca, hor⟩
  · rw [heq, spanCount_addDirEdge] at hpos ⊢
    have hu2 : u ∉ σ.nodes := by simpa [hasNode] using hu
    by_cases hin : u ∈ S ∧ v ∈ S
    · rw [if_pos hin] at hpos ⊢
      have herase := spanCount_erase_fresh σ S hWf hu2
      have hlen2 : 2 ≤ S.length := two_le_length_of_mem hin.1 hin.2 huv
      have hndE : (S.erase u).Nodup := hnd.erase u
      have hlenE : (S.erase u).length = S.length - 1 :=
        List.length_erase_of_mem hin.1
      by_cases hm : 1 ≤ Graph.spanCount σ.edges (S.erase u)
      · have hb := hSp (S.erase u) hndE hm
        rw [hlenE] at hb
        rw [herase]
        have hmul : K * (S.length - 1) + K = K * S.length := by
          rw [← Nat.mul_succ]
          congr 1
          omega
        omega
      · have hz : Graph.spanCount σ.edges S = 0 := by
          rw [herase]
          omega
        rw [hz]
        have hmul : K * 2 ≤ K * S.length := Nat.mul_le_mul_left K hlen2
        omega
    · rw [if_neg hin] at hpos ⊢
      have hb := hSp S hnd (by omega)
      omega
  · rw [heq, spanCount_addDirEdge] at hpos ⊢
    have hv2 : v ∉ σ.nodes := by simpa [hasNode] using hv
    by_cases hin : v ∈ S ∧ u ∈ S
    · rw [if_pos hin] at hpos ⊢
      have herase := spanCount_erase_fresh σ S hWf hv2
      have hlen2 : 2 ≤ S.length := two_le_length_of_mem hin.2 hin.1 huv
      have hndE : (S.erase v).Nodup := hnd.erase v
      have hlenE : (S.erase v).length = S.length - 1 :=
        List.length_erase_of_mem hin.1
      by_cases hm : 1 ≤ Graph.spanCount σ.edges (S.erase v)
      · have hb := hSp (S.erase v) hndE hm
        rw [hlenE] at hb
        rw [herase]
        have hmul : K * (S.length - 1) + K = K * S.length := by
          rw [← Nat.mul_succ]
          congr 1
          omega
        omega
      · have hz : Graph.spanCount σ.edges S = 0 := by
          rw [herase]
          omega
        rw [hz]
        have hmul : K * 2 ≤ K * S.length := Nat.mul_le_mul_left K hlen2
        omega
    · rw [if_neg hin] at hpos ⊢
      have hb := hSp S hnd (by omega)
      omega
  · have hcond := can_add_true_cond σ u v s1 hca
    obtain ⟨hK1, hL1, hnodes1, hperm1, hWf1, hD1⟩ :=
      can_add_pres σ u v hWf true s1 hca
    have hmd : maxDegTogether s1 = 2 * K - L - 1 := by
      unfold maxDegTogether
      rw [hK1, hL1, hKσ, hLσ]
    rw [hmd] at hcond
    have hspan1 : Graph.spanCount s1.edges S = Graph.spanCount σ.edges S :=
      spanCount_eq_of_supports_perm hperm1 S
    have hDs1 : DegLe s1 := hD1 hD
    rcases hor with heq | heq
    · rw [heq, spanCount_addDirEdge] at hpos ⊢
      by_cases hin : u ∈ S ∧ v ∈ S
      · rw [if_pos hin] at hpos ⊢
        have hds := spanCount_le_degSum s1 S hnd
        have hup := degSum_upper s1 S hnd hin.1 hin.2 huv hDs1
        rw [hK1, hKσ] at hup
        have hlen2 : 2 ≤ S.length := two_le_length_of_mem hin.1 hin.2 huv
        have hmul : K * (S.length - 2) + K * 2 = K * S.length := by
          rw [← Nat.mul_add]
          congr 1
          omega
        omega
      · rw [if_neg hin] at hpos ⊢
        have h1 : 1 ≤ Graph.spanCount σ.edges S := by
          rw [← hspan1]
          omega
        have hb := hSp S hnd h1
        omega
    · rw [heq, spanCount_addDirEdge] at hpos ⊢
      by_cases hin : v ∈ S ∧ u ∈ S
      · rw [if_pos hin] at hpos ⊢
        have hds := spanCount_le_degSum s1 S hnd
        have hup := degSum_upper s1 S hnd hin.2 hin.1 huv hDs1
        rw [hK1, hKσ] at hup
        have hlen2 : 2 ≤ S.length := two_le_length_of_mem hin.2 hin.1 huv
        have hmul : K * (S.length - 2) + K * 2 = K * S.length := by
          rw [← Nat.mul_add]
          congr 1
          omega
        omega
      · rw [if_neg hin] at hpos ⊢
        have h1 : 1 ≤ Graph.spanCount σ.edges S := by
          rw [← hspan1]
          omega
        have hb := hSp S hnd h1
        omega

theorem reject_step (σ : PebbleDiGraph) (u v K L : ℕ)
    (hKσ : σ.K = K) (hLσ : σ.L = L) (hWf : Wf σ) (hD : DegLe σ)
    (hL : L < 2 * K) (huv : u ≠ v)
    (hrej : (add_edge_maintaining_digraph σ u v).1 = false) :
    ∃ S : List ℕ, S.Nodup ∧ u ∈ S ∧ v ∈ S ∧ (∀ x ∈ S, x ∈ σ.nodes) ∧
      K * S.length < Graph.spanCount σ.edges S + 1 + L := by
  obtain ⟨Vis, hfc⟩ := add_edge_false_elim σ u v hrej
  obtain ⟨hK1, hL1, hnodes1, hperm1, hWf1, hviol, hu, hv, hnd, hsubn, hcrit,
    hcl⟩ := fundamental_circuit_break σ u v hWf Vis _ hfc
  refine ⟨Vis, hnd, hu, hv, ?_, ?_⟩
  · intro x hx
    exact hnodes1 ▸ hsubn x hx
  · have hclosed := spanCount_eq_degSum_of_closed
      (add_edge_maintaining_digraph σ u v).2 Vis hnd hcl
    have hlow := degSum_lower (add_edge_maintaining_digraph σ u v).2 Vis hnd
      hu hv huv hcrit
    have hmd : maxDegTogether (add_edge_maintaining_digraph σ u v).2 =
        2 * K - L - 1 := by
      unfold maxDegTogether
      rw [hK1, hL1, hKσ, hLσ]
    rw [hmd] at hviol
    have hKst : (add_edge_maintaining_digraph σ u v).2.K = K := by
      rw [hK1, hKσ]
    rw [hKst] at hlow
    have hlen2 : 2 ≤ Vis.length := two_le_length_of_mem hu hv huv
    have hmul : K * (Vis.length - 2) + K * 2 = K * Vis.length := by
      rw [← Nat.mul_add]
      congr 1
      omega
    have hspan2 : Graph.spanCount (add_edge_maintaining_digraph σ u v).2.edges
        Vis = Graph.spanCount σ.edges Vis :=
      spanCount_eq_of_supports_perm hperm1 Vis
    omega

theorem add_edge_nodes_sub (σ : PebbleDiGraph) (u v : ℕ) (hWf : Wf σ) :
    ∀ x ∈ (add_edge_maintaining_digraph σ u v).2.nodes,
      x ∈ σ.nodes ∨ x = u ∨ x = v := by
  intro x hx
  by_cases hres : (add_edge_maintaining_digraph σ u v).1 = true
  · rcases add_edge_true_cases σ u v hres with ⟨-, heq⟩ | ⟨-, -, heq⟩ |
      ⟨s1, hca, hor⟩
    · rw [heq] at hx
      exact (mem_addDirEdge_nodes σ u v x).1 hx
    · rw [heq] at hx
      rcases (mem_addDirEdge_nodes σ v u x).1 hx with h | h | h
      · exact Or.inl h
      · exact Or.inr (Or.inr h)
      · exact Or.inr (Or.inl h)
    · obtain ⟨-, -, hnodes1, -, -, -⟩ := can_add_pres σ u v hWf true s1 hca
      rcases hor with heq | heq <;> rw [heq] at hx
      · rcases (mem_addDirEdge_nodes s1 u v x).1 hx with h | h | h
        · exact Or.inl (hnodes1 ▸ h)
        · exact Or.inr (Or.inl h)
        · exact Or.inr (Or.inr h)
      · rcases (mem_addDirEdge_nodes s1 v u x).1 hx with h | h | h
        · exact Or.inl (hnodes1 ▸ h)
        · exact Or.inr (Or.inr h)
        · exact Or.inr (Or.inl h)
  · have hrej : (add_edge_maintaining_digraph σ u v).1 = false := by
      cases hb : (add_edge_maintaining_digraph σ u v).1
      · rfl
      · exact absurd hb hres
    obtain ⟨Vis, hfc⟩ := add_edge_false_elim σ u v hrej
    obtain ⟨-, -, hnodes1, -, -, -⟩ :=
      fundamental_circuit_pres σ u v hWf (some Vis) _ hfc
    exact Or.inl (hnodes1 ▸ hx)

/-! ### Feeding an edge list: factoring the fold and the two directions of
the Lee–Streinu equivalence at the level of the pebble digraph -/

theorem feedEdges_eq_foldl (σ : PebbleDiGraph) (es : List (ℕ × ℕ)) :
    feedEdges σ es = es.foldl (fun acc e =>
      (acc.1 && (add_edge_maintaining_digraph acc.2 e.1 e.2).1,
       (add_edge_maintaining_digraph acc.2 e.1 e.2).2)) (true, σ) := rfl

theorem feedEdges_acc : ∀ (es : List (ℕ × ℕ)) (b : Bool) (σ : PebbleDiGraph),
    es.foldl (fun acc e =>
      (acc.1 && (add_edge_maintaining_digraph acc.2 e.1 e.2).1,
       (add_edge_maintaining_digraph acc.2 e.1 e.2).2)) (b, σ) =
    (b && (feedEdges σ es).1, (feedEdges σ es).2) := by
  intro es
  induction es with
  | nil =>
    intro b σ
    show (b, σ) = (b && true, σ)
    rw [Bool.and_true]
  | cons e rest ih =>
    intro b σ
    rw [feedEdges_eq_foldl σ (e :: rest)]
    simp only [List.foldl_cons]
    rw [ih, ih]
    simp [Bool.and_assoc]

theorem feedEdges_cons (σ : PebbleDiGraph) (e : ℕ × ℕ) (rest : List (ℕ × ℕ)) :
    feedEdges σ (e :: rest) =
      ((add_edge_maintaining_digraph σ e.1 e.2).1 &&
        (feedEdges (add_edge_maintaining_digraph σ e.1 e.2).2 rest).1,
       (feedEdges (add_edge_maintaining_digraph σ e.1 e.2).2 rest).2) := by
  rw [feedEdges_eq_foldl σ (e :: rest)]
  simp only [List.foldl_cons]
  rw [feedEdges_acc]
  simp

theorem feed_true_sparse (K L : ℕ) (hK : 1 ≤ K) (hL : L < 2 * K) :
    ∀ (es : List (ℕ × ℕ)) (σ : PebbleDiGraph),
      σ.K = K → σ.L = L → Wf σ → DegLe σ → SparseList K L σ.edges →
      (∀ e ∈ es, e.1 ≠ e.2) →
      (feedEdges σ es).1 = true →
      SparseList K L (feedEdges σ es).2.edges ∧
      (supports (feedEdges σ es).2.edges).Perm
        (supports σ.edges ++ supports es) := by
  intro es
  induction es with
  | nil =>
    intro σ _ _ _ _ h5 _ _
    refine ⟨h5, ?_⟩
    show (supports σ.edges).Perm (supports σ.edges ++ supports [])
    simp [supports]
  | cons e rest ih =>
    intro σ hKσ hLσ hWf hD hSp hloops htrue
    rw [feedEdges_cons] at htrue
    simp only [Bool.and_eq_true] at htrue
    obtain ⟨hacc, hrest⟩ := htrue
    have he12 : e.1 ≠ e.2 := hloops e (List.mem_cons_self _ _)
    obtain ⟨hK1, hL1, hWf1, hD1, hperm1⟩ := add_edge_spec σ e.1 e.2 hWf
      (by rw [hKσ]; exact hK) (by rw [hKσ, hLσ]; exact hL) hD
    rw [if_pos hacc] at hperm1
    have hSp1 : SparseList K L
        (add_edge_maintaining_digraph σ e.1 e.2).2.edges :=
      accept_step σ e.1 e.2 K L hKσ hLσ hWf hD hSp hK hL he12 hacc
    obtain ⟨ihSp, ihPerm⟩ := ih (add_edge_maintaining_digraph σ e.1 e.2).2
      (hK1.trans hKσ) (hL1.trans hLσ) hWf1 hD1 hSp1
      (fun f hf => hloops f (List.mem_cons_of_mem _ hf)) hrest
    rw [feedEdges_cons]
    simp only
    refine ⟨ihSp, ?_⟩
    refine ihPerm.trans ?_
    refine (hperm1.append_right (supports rest)).trans ?_
    show (supp (e.1, e.2) :: (supports σ.edges ++ supports rest)).Perm
      (supports σ.edges ++ (supp e :: supports rest))
    exact List.perm_middle.symm

theorem feed_false_violation (K L : ℕ) (hK : 1 ≤ K) (hL : L < 2 * K) :
    ∀ (es : List (ℕ × ℕ)) (σ : PebbleDiGraph),
      σ.K = K → σ.L = L → Wf σ → DegLe σ → SparseList K L σ.edges →
      (∀ e ∈ es, e.1 ≠ e.2) →
      (feedEdges σ es).1 = false →
      ∃ S : List ℕ, S.Nodup ∧ 2 ≤ S.length ∧
        (∀ x ∈ S, x ∈ σ.nodes ∨ ∃ e ∈ es, x = e.1 ∨ x = e.2) ∧
        K * S.length < Graph.spanCount σ.edges S +
          Graph.spanCount es S + L := by
  intro es
  induction es with
  | nil =>
    intro σ _ _ _ _ _ _ hfalse
    exact Bool.noConfusion hfalse
  | cons e rest ih =>
    intro σ hKσ hLσ hWf hD hSp hloops hfalse
    rw [feedEdges_cons] at hfalse
    have he12 : e.1 ≠ e.2 := hloops e (List.mem_cons_self _ _)
    by_cases hacc : (add_edge_maintaining_digraph σ e.1 e.2).1 = true
    · have hrest : (feedEdges (add_edge_maintaining_digraph σ e.1 e.2).2
          rest).1 = false := by
        rw [hacc] at hfalse
        simpa using hfalse
      obtain ⟨hK1, hL1, hWf1, hD1, hperm1⟩ := add_edge_spec σ e.1 e.2 hWf
        (by rw [hKσ]; exact hK) (by rw [hKσ, hLσ]; exact hL) hD
      rw [if_pos hacc] at hperm1
      have hSp1 : SparseList K L
          (add_edge_maintaining_digraph σ e.1 e.2).2.edges :=
        accept_step σ e.1 e.2 K L hKσ hLσ hWf hD hSp hK hL he12 hacc
      obtain ⟨S, hnd, hlen, hmem, hineq⟩ :=
        ih (add_edge_maintaining_digraph σ e.1 e.2).2
          (hK1.trans hKσ) (hL1.trans hLσ) hWf1 hD1 hSp1
          (fun f hf => hloops f (List.mem_cons_of_mem _ hf)) hrest
      refine ⟨S, hnd, hlen, ?_, ?_⟩
      · intro x hx
        rcases hmem x hx with hx2 | ⟨f, hf, hx2⟩
        · rcases add_edge_nodes_sub σ e.1 e.2 hWf x hx2 with h | h | h
          · exact Or.inl h
          · exact Or.inr ⟨e, List.mem_cons_self _ _, Or.inl h⟩
          · exact Or.inr ⟨e, List.mem_cons_self _ _, Or.inr h⟩
        · exact Or.inr ⟨f, List.mem_cons_of_mem _ hf, hx2⟩
      · have hperm1B : (supports
            (add_edge_maintaining_digraph σ e.1 e.2).2.edges).Perm
            (supports ((e.1, e.2) :: σ.edges)) := hperm1
        have hspan1 : Graph.spanCount
            (add_edge_maintaining_digraph σ e.1 e.2).2.edges S =
            Graph.spanCount ((e.1, e.2) :: σ.edges) S :=
          spanCount_eq_of_supports_perm hperm1B S
        rw [spanCount_cons] at hspan1
        have hspan2 := spanCount_cons e rest S
        simp only at hspan1 hspan2
        omega
    · have hrej : (add_edge_maintaining_digraph σ e.1 e.2).1 = false := by
        cases hb : (add_edge_maintaining_digraph σ e.1 e.2).1
        · rfl
        · exact absurd hb hacc
      obtain ⟨S, hnd, hu, hv, hsub, hineq⟩ :=
        reject_step σ e.1 e.2 K L hKσ hLσ hWf hD hL he12 hrej
      refine ⟨S, hnd, two_le_length_of_mem hu hv he12,
        fun x hx => Or.inl (hsub x hx), ?_⟩
      have hspanE : 1 ≤ Graph.spanCount (e :: rest) S := by
        rw [spanCount_cons, if_pos ⟨hu, hv⟩]
        omega
      omega

/-! ### Simple graphs: a set of m vertices spans at most m(m-1)/2 edges, so a
violating set must have more than K vertices -/

theorem filter_split_length (p : (ℕ × ℕ) → Bool) : ∀ (l : List (ℕ × ℕ)),
    (l.filter p).length + (l.filter (fun x => !(p x))).length = l.length := by
  intro l
  induction l with
  | nil => rfl
  | cons x r ih =>
    cases hx : p x
    · rw [List.filter_cons_of_neg (by simp [hx]),
        List.filter_cons_of_pos (by simp [hx])]
      simp only [List.length_cons]
      omega
    · rw [List.filter_cons_of_pos (by simp [hx]),
        List.filter_cons_of_neg (by simp [hx])]
      simp only [List.length_cons]
      omega

theorem pairs_bound : ∀ (S : List ℕ), S.Nodup → ∀ (l : List (ℕ × ℕ)),
    l.Nodup → (∀ p ∈ l, p.1 ∈ S ∧ p.2 ∈ S ∧ p.1 < p.2) →
    2 * l.length ≤ S.length * (S.length - 1) := by
  intro S
  induction S with
  | nil =>
    intro _ l _ hmem
    cases l with
    | nil => simp
    | cons p r =>
      exact absurd (hmem p (List.mem_cons_self _ _)).1 (List.not_mem_nil _)
  | cons a S' ih =>
    intro hS l hl hmem
    obtain ⟨ha, hS'⟩ := List.nodup_cons.1 hS
    have hsplit := filter_split_length
      (fun p => decide (p.1 = a) || decide (p.2 = a)) l
    have h2 : 2 * (l.filter (fun p =>
        !(decide (p.1 = a) || decide (p.2 = a)))).length ≤
        S'.length * (S'.length - 1) := by
      refine ih hS' _ (hl.filter _) ?_
      intro p hp
      have hpl := List.mem_of_mem_filter hp
      have hpf := List.of_mem_filter hp
      simp only [Bool.not_eq_true', Bool.or_eq_false_iff,
        decide_eq_false_iff_not] at hpf
      obtain ⟨hpa1, hpa2⟩ := hpf
      obtain ⟨hp1, hp2, hp3⟩ := hmem p hpl
      refine ⟨?_, ?_, hp3⟩
      · rcases List.mem_cons.1 hp1 with h | h
        · exact absurd h hpa1
        · exact h
      · rcases List.mem_cons.1 hp2 with h | h
        · exact absurd h hpa2
        · exact h
    have h1 : (l.filter (fun p =>
        decide (p.1 = a) || decide (p.2 = a))).length ≤ S'.length := by
      have hnd1 : (l.filter (fun p =>
          decide (p.1 = a) || decide (p.2 = a))).Nodup := hl.filter _
      have hndmap : ((l.filter (fun p =>
          decide (p.1 = a) || decide (p.2 = a))).map
          (fun p => if p.1 = a then p.2 else p.1)).Nodup := by
        refine List.Nodup.map_on ?_ hnd1
        intro p hp q hq hfe
        have hpl := List.mem_of_mem_filter hp
        have hql := List.mem_of_mem_filter hq
        have hpf := List.of_mem_filter hp
        have hqf := List.of_mem_filter hq
        simp only [Bool.or_eq_true, decide_eq_true_eq] at hpf hqf
        obtain ⟨hp1, hp2, hp3⟩ := hmem p hpl
        obtain ⟨hq1, hq2, hq3⟩ := hmem q hql
        rcases hpf with hpa | hpa <;> rcases hqf with hqa | hqa
        · rw [if_pos hpa, if_pos hqa] at hfe
          exact Prod.ext (hpa.trans hqa.symm) hfe
        · have hq1a : ¬(q.1 = a) := by
            intro h
            rw [h, hqa] at hq3
            exact absurd hq3 (lt_irrefl a)
          rw [if_pos hpa, if_neg hq1a] at hfe
          exfalso
          rw [hpa] at hp3
          rw [hqa] at hq3
          rw [hfe] at hp3
          omega
        · have hp1a : ¬(p.1 = a) := by
            intro h
            rw [h, hpa] at hp3
            exact absurd hp3 (lt_irrefl a)
          rw [if_neg hp1a, if_pos hqa] at hfe
          exfalso
          rw [hpa] at hp3
          rw [hqa] at hq3
          rw [hfe] at hp3
          omega
        · have hp1a : ¬(p.1 = a) := by
            intro h
            rw [h, hpa] at hp3
            exact absurd hp3 (lt_irrefl a)
          have hq1a : ¬(q.1 = a) := by
            intro h
            rw [h, hqa] at hq3
            exact absurd hq3 (lt_irrefl a)
          rw [if_neg hp1a, if_neg hq1a] at hfe
          exact Prod.ext hfe (hpa.trans hqa.symm)
      have hsubS' : ((l.filter (fun p =>
          decide (p.1 = a) || decide (p.2 = a))).map
          (fun p => if p.1 = a then p.2 else p.1)) ⊆ S' := by
        intro y hy
        obtain ⟨p, hp, hpy⟩ := List.mem_map.1 hy
        have hpl := List.mem_of_mem_filter hp
        have hpf := List.of_mem_filter hp
        simp only [Bool.or_eq_true, decide_eq_true_eq] at hpf
        obtain ⟨hp1, hp2, hp3⟩ := hmem p hpl
        rcases hpf with hpa | hpa
        · rw [if_pos hpa] at hpy
          have hne : p.2 ≠ a := by
            intro h
            rw [hpa, h] at hp3
            exact absurd hp3 (lt_irrefl a)
          subst hpy
          rcases List.mem_cons.1 hp2 with h | h
          · exact absurd h hne
          · exact h
        · have hp1a : ¬(p.1 = a) := by
            intro h
            rw [h, hpa] at hp3
            exact absurd hp3 (lt_irrefl a)
          rw [if_neg hp1a] at hpy
          subst hpy
          rcases List.mem_cons.1 hp1 with h | h
          · exact absurd h hp1a
          · exact h
      have hle := (hndmap.subperm hsubS').length_le
      rw [List.length_map] at hle
      exact hle
    rw [List.length_cons]
    have hid : S'.length * (S'.length - 1) + 2 * S'.length =
        (S'.length + 1) * ((S'.length + 1) - 1) := by
      cases hn : S'.length with
      | zero => rfl
      | succ m =>
        simp only [Nat.succ_sub_one]
        ring
    omega

theorem spanCount_le_pairs (es : List (ℕ × ℕ)) (S : List ℕ)
    (hnd : S.Nodup) (hloops : ∀ e ∈ es, e.1 ≠ e.2)
    (hsimple : (supports es).Nodup) :
    2 * Graph.spanCount es S ≤ S.length * (S.length - 1) := by
  have hlen : (supports (es.filter (fun e =>
      decide (e.1 ∈ S) && decide (e.2 ∈ S)))).length =
      Graph.spanCount es S := by
    unfold supports Graph.spanCount
    rw [List.length_map]
  have hlnd : (supports (es.filter (fun e =>
      decide (e.1 ∈ S) && decide (e.2 ∈ S)))).Nodup := by
    refine List.Sublist.nodup ?_ hsimple
    exact (List.filter_sublist es).map supp
  have hmem : ∀ p ∈ supports (es.filter (fun e =>
      decide (e.1 ∈ S) && decide (e.2 ∈ S))),
      p.1 ∈ S ∧ p.2 ∈ S ∧ p.1 < p.2 := by
    intro p hp
    obtain ⟨e, he, hpe⟩ := List.mem_map.1 hp
    have heS := List.mem_of_mem_filter he
    have hef := List.of_mem_filter he
    simp only [Bool.and_eq_true, decide_eq_true_eq] at hef
    subst hpe
    refine ⟨((mem_supp_iff e S).2 hef).1, ((mem_supp_iff e S).2 hef).2, ?_⟩
    have hne := hloops e heS
    unfold supp
    rcases Nat.lt_or_ge e.1 e.2 with h | h
    · rw [min_eq_left h.le, max_eq_right h.le]
      exact h
    · have h2 : e.2 < e.1 := lt_of_le_of_ne h (fun hh => hne hh.symm)
      rw [min_eq_right h, max_eq_left h]
      exact h2
  have := pairs_bound S hnd _ hlnd hmem
  omega

theorem no_small_violation (m K L span : ℕ) (hm : 2 ≤ m) (hmK : m ≤ K)
    (hL : L < 2 * K) (hpair : 2 * span ≤ m * (m - 1)) :
    span + L ≤ K * m := by
  have h1 : (m - 2) * (m + 1) ≤ 2 * (K * (m - 2)) := by
    rcases Nat.lt_or_ge m 3 with h | h
    · have hz : m - 2 = 0 := by omega
      rw [hz]
      simp
    · have hm1 : m + 1 ≤ 2 * K := by omega
      calc (m - 2) * (m + 1) ≤ (m - 2) * (2 * K) :=
            Nat.mul_le_mul_left _ hm1
        _ = 2 * (K * (m - 2)) := by ring
  have h2 : m * (m - 1) = (m - 2) * (m + 1) + 2 := by
    obtain ⟨t, rfl⟩ : ∃ t, m = t + 2 := ⟨m - 2, by omega⟩
    have e1 : t + 2 - 1 = t + 1 := by omega
    have e2 : t + 2 - 2 = t := by omega
    rw [e1, e2]
    ring
  have h3 : K * (m - 2) + K * 2 = K * m := by
    rw [← Nat.mul_add]
    congr 1
    omega
  omega

theorem range1_drop : ∀ (k s n : ℕ),
    (List.range' s n).drop k = List.range' (s + k) (n - k) := by
  intro k
  induction k with
  | zero =>
    intro s n
    simp
  | succ k ih =>
    intro s n
    cases n with
    | zero => simp
    | succ m =>
      rw [List.range'_succ, List.drop_succ_cons, ih (s + 1) m]
      have e1 : s + 1 + k = s + (k + 1) := by omega
      have e2 : m - k = m + 1 - (k + 1) := by omega
      rw [e1, e2]

theorem mem_drop_range {n k j : ℕ} :
    j ∈ (List.range n).drop k ↔ k ≤ j ∧ j < n := by
  rw [List.range_eq_range', range1_drop k 0 n, List.mem_range'_1]
  omega

end PebbleDiGraph

/-! ### Bridging the brute-force `is_sparse` check and support-level
sparsity of the edge list -/

theorem is_sparse_iff (G : Graph) (K L : ℕ) :
    Graph.is_sparse G K L = true ↔
      ∀ j ∈ (List.range (G.vertices.length + 1)).drop K,
        ∀ S ∈ G.vertices.sublistsLen j,
          (Graph.spanCount G.edges S : ℤ) ≤ K * j - L := by
  unfold Graph.is_sparse
  rw [List.all_eq_true]
  constructor
  · intro h j hj S hS
    have h2 := h j hj
    rw [List.all_eq_true] at h2
    exact of_decide_eq_true (h2 S hS)
  · intro h j hj
    rw [List.all_eq_true]
    intro S hS
    exact decide_eq_true (h j hj S hS)

theorem sparseList_is_sparse (G : Graph) (K L : ℕ) (hK : 1 ≤ K)
    (hL : L < 2 * K) (hV : G.vertices.Nodup)
    (hSp : PebbleDiGraph.SparseList K L G.edges) :
    Graph.is_sparse G K L = true := by
  rw [is_sparse_iff]
  intro j hj S hS
  obtain ⟨hsub, hlen⟩ := List.mem_sublistsLen.1 hS
  have hnd : S.Nodup := hsub.nodup hV
  have hjmem := PebbleDiGraph.mem_drop_range.1 hj
  by_cases hpos : 1 ≤ Graph.spanCount G.edges S
  · have hb := hSp S hnd hpos
    rw [hlen] at hb
    have hcast : (Graph.spanCount G.edges S : ℤ) + (L : ℤ) ≤
        (K : ℤ) * (j : ℤ) := by
      exact_mod_cast hb
    linarith
  · have hz : Graph.spanCount G.edges S = 0 := by omega
    rw [hz]
    have h1 : K * K ≤ K * j := Nat.mul_le_mul_left K hjmem.1
    have h2 : 2 * K ≤ K * K + 1 := by
      rcases Nat.lt_or_ge K 2 with h | h
      · have hK1 : K = 1 := by omega
        subst hK1
        omega
      · have h3 : 2 * K ≤ K * K := Nat.mul_le_mul_right K h
        omega
    have hLle : L ≤ K * j := by omega
    have hcast : (L : ℤ) ≤ (K : ℤ) * (j : ℤ) := by exact_mod_cast hLle
    push_cast
    linarith

theorem violation_not_sparse (G : Graph) (K L : ℕ) (hL : L < 2 * K)
    (hV : G.vertices.Nodup)
    (hloops : ∀ e ∈ G.edges, e.1 ≠ e.2)
    (hsimple : (PebbleDiGraph.supports G.edges).Nodup)
    (S : List ℕ) (hnd : S.Nodup) (hm2 : 2 ≤ S.length)
    (hsub : ∀ x ∈ S, x ∈ G.vertices)
    (hviol : K * S.length < Graph.spanCount G.edges S + L) :
    Graph.is_sparse G K L = false := by
  cases hb : Graph.is_sparse G K L
  · rfl
  · exfalso
    rw [is_sparse_iff] at hb
    have hmemS' : ∀ x, x ∈ G.vertices.filter (fun x => decide (x ∈ S)) ↔
        x ∈ S := by
      intro x
      rw [List.mem_filter]
      constructor
      · intro h
        exact of_decide_eq_true h.2
      · intro h
        exact ⟨hsub x h, decide_eq_true h⟩
    have hndS' : (G.vertices.filter (fun x => decide (x ∈ S))).Nodup :=
      hV.filter _
    have hperm : (G.vertices.filter (fun x => decide (x ∈ S))).Perm S :=
      (List.perm_ext_iff_of_nodup hndS' hnd).2 hmemS'
    have hlen' := hperm.length_eq
    have hspan' : Graph.spanCount G.edges
        (G.vertices.filter (fun x => decide (x ∈ S))) =
        Graph.spanCount G.edges S :=
      PebbleDiGraph.spanCount_congr_mem hmemS' G.edges
    have hpair := PebbleDiGraph.spanCount_le_pairs G.edges S hnd hloops hsimple
    have hjK : K < S.length := by
      by_contra hle
      push_neg at hle
      have := PebbleDiGraph.no_small_violation S.length K L
        (Graph.spanCount G.edges S) hm2 hle hL hpair
      omega
    have hjmem : S.length ∈ (List.range (G.vertices.length + 1)).drop K := by
      rw [PebbleDiGraph.mem_drop_range]
      have hlenle : (G.vertices.filter (fun x => decide (x ∈ S))).length ≤
          G.vertices.length := (List.filter_sublist _).length_le
      omega
    have hSmem : G.vertices.filter (fun x => decide (x ∈ S)) ∈
        G.vertices.sublistsLen S.length := by
      rw [List.mem_sublistsLen]
      exact ⟨List.filter_sublist _, hlen'⟩
    have hb2 := hb S.length hjmem _ hSmem
    rw [hspan'] at hb2
    have hcast : (K : ℤ) * (S.length : ℤ) <
        (Graph.spanCount G.edges S : ℤ) + (L : ℤ) := by
      exact_mod_cast hviol
    linarith

/-- C1: for every simple undirected graph (duplicate-free vertex list, edges
joining distinct listed vertices, no repeated undirected edge) and all valid
parameters `K ≥ 1`, `0 ≤ L < 2K`, the brute-force subset check `is_sparse`
returns `True` exactly when feeding every edge, in order, into a fresh
`PebbleDiGraph(K, L)` through `add_edge_maintaining_digraph` accepts every
edge. -/
theorem c1_sparsity_agreement (G : Graph) (K L : ℕ)
    (hK : 1 ≤ K) (hL : L < 2 * K)
    (hV : G.vertices.Nodup)
    (hE : ∀ e ∈ G.edges, e.1 ∈ G.vertices ∧ e.2 ∈ G.vertices)
    (hloops : ∀ e ∈ G.edges, e.1 ≠ e.2)
    (hsimple : (PebbleDiGraph.supports G.edges).Nodup) :
    Graph.is_sparse G K L = true ↔
      (PebbleDiGraph.feedEdges (PebbleDiGraph.empty K L) G.edges).1 = true := by
  constructor
  · intro hsp
    cases hb : (PebbleDiGraph.feedEdges (PebbleDiGraph.empty K L) G.edges).1
    · exfalso
      obtain ⟨S, hnd, hm2, hmem, hineq⟩ :=
        PebbleDiGraph.feed_false_violation K L hK hL G.edges
          (PebbleDiGraph.empty K L) rfl rfl
          (fun e he => absurd he (List.not_mem_nil _))
          (fun _ => Nat.zero_le _)
          (fun T _ hpos => absurd hpos
            (by simp [Graph.spanCount, PebbleDiGraph.empty]))
          hloops hb
      have hz : Graph.spanCount (PebbleDiGraph.empty K L).edges S = 0 := rfl
      have hsubV : ∀ x ∈ S, x ∈ G.vertices := by
        intro x hx
        rcases hmem x hx with h | ⟨e, he, h2⟩
        · exact absurd h (List.not_mem_nil x)
        · rcases h2 with rfl | rfl
          · exact (hE e he).1
          · exact (hE e he).2
      have hfin : K * S.length < Graph.spanCount G.edges S + L := by
        rw [hz] at hineq
        omega
      have hfalse := violation_not_sparse G K L hL hV hloops hsimple S hnd
        hm2 hsubV hfin
      rw [hsp] at hfalse
      exact Bool.noConfusion hfalse
    · rfl
  · intro hacc
    obtain ⟨hSp, hperm⟩ := PebbleDiGraph.feed_true_sparse K L hK hL G.edges
      (PebbleDiGraph.empty K L) rfl rfl
      (fun e he => absurd he (List.not_mem_nil _))
      (fun _ => Nat.zero_le _)
      (fun T _ hpos => absurd hpos
        (by simp [Graph.spanCount, PebbleDiGraph.empty]))
      hloops hacc
    have hperm2 : (PebbleDiGraph.supports
        (PebbleDiGraph.feedEdges (PebbleDiGraph.empty K L)
          G.edges).2.edges).Perm (PebbleDiGraph.supports G.edges) :=
      hperm.trans (List.Perm.refl _)
    have hSpES : PebbleDiGraph.SparseList K L G.edges := by
      intro S hS hpos
      have hspan := PebbleDiGraph.spanCount_eq_of_supports_perm hperm2 S
      have hres := hSp S hS (by rw [hspan]; exact hpos)
      rw [hspan] at hres
      exact hres
    exact sparseList_is_sparse G K L hK hL hV hSpES

theorem c1_sparsity_agreement_witness :
    ((⟨[0, 1, 2], [(0, 1), (1, 2), (2, 0)]⟩ : Graph).vertices.Nodup) ∧
    (Graph.is_sparse ⟨[0, 1, 2], [(0, 1), (1, 2), (2, 0)]⟩ 2 3 = true ↔
      (PebbleDiGraph.feedEdges (PebbleDiGraph.empty 2 3)
        [(0, 1), (1, 2), (2, 0)]).1 = true) :=
  ⟨by decide, c1_sparsity_agreement ⟨[0, 1, 2], [(0, 1), (1, 2), (2, 0)]⟩ 2 3
    (by decide) (by decide) (by decide) (by decide) (by decide) (by decide)⟩

end PyRigi
